import Mathlib

/-!
# Schema synthesis of `scan/schema.go`

A shallow embedding of the schema scanner: the declaration tree it walks
(`go/ast`), the schema values it builds (`spec.Schema`), and the functions
`inferNames`, `findSourceFile`, `strfmtName`, `packageForFile`,
`packageForSelector`, `parseProperty`, `parseSelectorProperty`,
`typeForSelector`, `parseEmbeddedStruct`, `parseStructType`, `parseDecl`
and `Parse`.

Pointers are modelled by state passing: a function that writes through a
`*spec.Schema` takes the pointee and returns the pointee after the call,
together with the worklist (`scp.postDecls`) and the Go error, if any.
The recursion of the scanner follows the type graph of the program, so the
mutually recursive functions take a fuel argument and return `none` when
it runs out.
-/

namespace Scan

/-! ## Declaration tree (`go/ast`, `loader.Program`) -/

/-- An `ast.CommentGroup`: the `Text` of each comment of its `List`. -/
structure CommentGroup where
  list : List String
deriving DecidableEq, Repr

mutual
/-- The type expressions (`ast.Expr`) that `parseProperty` dispatches on.
`ident` records whether `Obj` is set; `other` stands for every node kind
without a case of its own (function types, channels, ellipses, ...). -/
inductive Expr where
  | ident (name : String) (hasObj : Bool)
  | star (x : Expr)
  | array (elt : Expr)
  | structType (fields : Option (List Field))
  | selector (x : Expr) (sel : String)
  | mapType (key value : Expr)
  | interfaceType
  | other (kind : String)
/-- An `ast.Field`: `Doc`, `Names` (an entry may be a nil identifier),
`Type` and the literal text of `Tag`. -/
inductive Field where
  | mk (doc : Option CommentGroup) (names : List (Option String)) (type : Expr)
      (tag : Option String)
end

def Field.doc : Field → Option CommentGroup
  | .mk d _ _ _ => d

def Field.names : Field → List (Option String)
  | .mk _ n _ _ => n

def Field.type : Field → Expr
  | .mk _ _ t _ => t

def Field.tag : Field → Option String
  | .mk _ _ _ t => t

/-- An `ast.TypeSpec`; the parser gives every type spec a name. -/
structure TypeSpec where
  name : String
  type : Expr

/-- An `ast.Spec` of a general declaration. -/
inductive Spec where
  | typeSpec (ts : TypeSpec)
  | other

/-- An `ast.GenDecl`. -/
structure GenDecl where
  doc : Option CommentGroup
  specs : List Spec

/-- An `ast.Decl`: a general declaration or anything else (functions). -/
inductive Decl where
  | gen (gd : GenDecl)
  | other

/-- An `ast.ImportSpec`: optional alias and the literal text of the path. -/
structure ImportSpec where
  name : Option String
  path : String

/-- An `ast.File`: `Pos()`, the package name `Name.Name`, `Imports`, `Decls`. -/
structure File where
  pos : Nat
  name : String
  imports : List ImportSpec
  decls : List Decl

/-- A `loader.PackageInfo` with the name and path of its `Pkg`. -/
structure PackageInfo where
  name : String
  path : String
  importable : Bool
  files : List File

/-- A `loader.Program`: `AllPackages` in the order a `range` visits it. -/
structure Program where
  allPackages : List PackageInfo

/-- The function `Program.Package(path)`. -/
def Program.package (prog : Program) (path : String) : Option PackageInfo :=
  prog.allPackages.find? (fun p => p.path == path)

/-! ## Schemas (`spec.Schema`) -/

/-- The fields of a `spec.Schema` that hold no other schema. `ref` is
`none` while `Ref.GetURL()` is nil. -/
structure SchemaProps where
  type : List String := []
  format : String := ""
  title : String := ""
  description : String := ""
  maximum : Option Rat := none
  exclusiveMaximum : Bool := false
  minimum : Option Rat := none
  exclusiveMinimum : Bool := false
  multipleOf : Option Rat := none
  minLength : Option Int := none
  maxLength : Option Int := none
  pattern : String := ""
  minItems : Option Int := none
  maxItems : Option Int := none
  uniqueItems : Bool := false
  required : List String := []
  readOnly : Bool := false
  ref : Option String := none
  extensions : List (String × String) := []
deriving DecidableEq, Repr

/-- A `spec.Schema`. `items` is the `*SchemaOrArray` with its `Schema`
pointer, `additionalProperties` the `*SchemaOrBool` with `Allows` and its
`Schema` pointer, `properties` the (possibly nil) property map. -/
inductive Schema where
  | mk (props : SchemaProps) (items : Option (Option Schema))
      (additionalProperties : Option (Bool × Option Schema))
      (properties : Option (List (String × Schema)))

namespace Schema

def props : Schema → SchemaProps
  | .mk p _ _ _ => p

def items : Schema → Option (Option Schema)
  | .mk _ i _ _ => i

def additionalProperties : Schema → Option (Bool × Option Schema)
  | .mk _ _ a _ => a

def properties : Schema → Option (List (String × Schema))
  | .mk _ _ _ ps => ps

/-- The zero value of `spec.Schema`. -/
def empty : Schema := .mk {} none none none

def setProps (s : Schema) (p : SchemaProps) : Schema :=
  .mk p s.items s.additionalProperties s.properties

def setItems (s : Schema) (i : Option (Option Schema)) : Schema :=
  .mk s.props i s.additionalProperties s.properties

def setAdditionalProperties (s : Schema) (a : Option (Bool × Option Schema)) : Schema :=
  .mk s.props s.items a s.properties

def setProperties (s : Schema) (ps : Option (List (String × Schema))) : Schema :=
  .mk s.props s.items s.additionalProperties ps

/-- The function `Schema.Typed(tpe, format)`. -/
def typed (s : Schema) (tpe format : String) : Schema :=
  s.setProps { s.props with type := [tpe], format := format }

/-- The keys of the property map (none for a nil map). -/
def keys (s : Schema) : List String :=
  match s.properties with
  | none => []
  | some ps => ps.map Prod.fst

end Schema

/-! ## Go maps as association lists -/

/-- The value stored under `k`, if any. -/
def mapGet? {β : Type} (m : List (String × β)) (k : String) : Option β :=
  match m with
  | [] => none
  | (k1, v) :: rest => if k1 = k then some v else mapGet? rest k

/-- The assignment `m[k] = v`. -/
def mapSet {β : Type} (m : List (String × β)) (k : String) (v : β) : List (String × β) :=
  match m with
  | [] => [(k, v)]
  | (k1, v1) :: rest => if k1 = k then (k, v) :: rest else (k1, v1) :: mapSet rest k v

/-- The deletion `delete(m, k)`. -/
def mapDelete {β : Type} (m : List (String × β)) (k : String) : List (String × β) :=
  m.filter (fun e => e.1 ≠ k)

/-- Insertion into a `map[string]struct{}`. -/
def seenAdd (seen : List String) (k : String) : List String :=
  if k ∈ seen then seen else seen ++ [k]

/-! ## Errors -/

/-- The errors the scanner returns, one constructor per `return` site. -/
inductive Err where
  | noPackageForFile (pkgName : String)
  | notFound (typeName pkgPath : String)
  | noImport (name : String)
  | noPackage (path : String)
  | noSelectorPath
  | embedded (e : Err)
  | unresolvedEmbedded
  | unknownSelectorType
  | unsupported
  | unsupportedType (typeName : String)
  | unquote (lit : String)
  | newRef (uri : String)
  | doc (msg : String)
deriving DecidableEq, Repr

/-! ## Strings (`strings.Split`, `strings.TrimSpace`) -/

/-- Split a character list at every occurrence of `sep`. -/
def splitChars (sep : Char) : List Char → List (List Char)
  | [] => [[]]
  | c :: cs =>
    if c = sep then [] :: splitChars sep cs
    else match splitChars sep cs with
      | [] => [[c]]
      | h :: t => (c :: h) :: t

/-- The function `strings.Split(s, sep)` for a one-character separator. -/
def stringsSplit (s : String) (sep : Char) : List String :=
  (splitChars sep s.data).map String.mk

/-- The function `unicode.IsSpace`. -/
def isSpace (c : Char) : Bool :=
  let n := c.toNat
  (9 ≤ n && n ≤ 13) || n == 32 || n == 0x85 || n == 0xA0 || n == 0x1680 ||
  (0x2000 ≤ n && n ≤ 0x200a) || n == 0x2028 || n == 0x2029 || n == 0x202f ||
  n == 0x205f || n == 0x3000

/-- The function `strings.TrimSpace`. -/
def trimSpace (s : String) : String :=
  String.mk ((s.data.dropWhile isSpace).reverse.dropWhile isSpace).reverse

/-! ## Collaborators outside `schema.go` -/

/-- The operand a directive line was parsed to. -/
inductive TagValue where
  | number (val : Rat) (exclusive : Bool)
  | int (val : Int)
  | str (val : String)
  | bool (val : Bool)
deriving DecidableEq, Repr

/-- What one run of `sectionedParser.Parse` did: the lines handed to
`setTitle` and `setDescription` (when they were called), the taggers whose
value parser ran, by name and in the order they ran, each with the operand
it passed to its setter, and the error returned. -/
structure ParseResult where
  title : Option (List String) := none
  description : Option (List String) := none
  matched : List (String × TagValue) := []
  err : Option String := none
deriving DecidableEq, Repr

/-- The functions `schema.go` calls and does not define: the Go standard
library, the regular expressions of the package, and the helpers of its
sibling files. -/
structure Lib where
  /-- The function `strconv.Unquote`; `none` is its error. -/
  unquote : String → Option String
  /-- The method `reflect.StructTag.Get`, tag first, key second. -/
  structTagGet : String → String → String
  /-- The function `unicode.IsUpper`. -/
  isUpper : Char → Bool
  /-- The function `spec.NewRef`: whether the URI parses. -/
  refOk : String → Bool
  /-- The call `rxStrFmt.FindStringSubmatch`. -/
  rxStrFmt : String → List String
  /-- The call `rxModelOverride.FindStringSubmatch`. -/
  rxModelOverride : String → List String
  /-- The table of `swaggerSchemaForType`: type and format per Go type name. -/
  primitives : String → Option (String × String)
  /-- The method `sectionedParser.Parse` on a doc comment, given whether
  `setTitle` and `setDescription` are set and the names of the taggers. -/
  sectionedParse : Option CommentGroup → Bool → Bool → List String → ParseResult
  /-- The helper `joinDropLast`. -/
  joinDropLast : List String → String

/-- The function `spec.NewRef(uri)`. -/
def Lib.newRef (L : Lib) (uri : String) : Except Err String :=
  if L.refOk uri then .ok uri else .error (.newRef uri)

/-- The function `ast.IsExported` / `Ident.IsExported`: the first character is upper case. -/
def isExported (L : Lib) (name : String) : Bool :=
  match name.data with
  | [] => false
  | c :: _ => L.isUpper c

/-- Modelled from the spec: `swaggerSchemaForType` is defined in a sibling
file of the package. §4.3 and §7 describe it as the mapping of an identifier
that "degrades to an assumed-primitive mapping": it types the target with
the type and format of the primitive the name stands for, and fails on any
other name. -/
def swaggerSchemaForType (L : Lib) (typeName : String) (prop : Schema) :
    Schema × Option Err :=
  match L.primitives typeName with
  | some (tpe, format) => (prop.typed tpe format, none)
  | none => (prop, some (.unsupportedType typeName))

/-! ## Declarations and their names -/

/-- The struct `schemaDecl`. -/
structure SchemaDecl where
  file : File
  decl : GenDecl
  typeSpec : TypeSpec
  goName : String
  name : String

/-- The first line of `lines` on which `rx` has a non-empty first capture
(after `post`), with that capture. -/
def firstCapture (rx : String → List String) (post : String → String) :
    List String → Option String
  | [] => none
  | ln :: rest =>
    match rx ln with
    | _ :: m1 :: _ => if (post m1).length > 0 then some (post m1) else firstCapture rx post rest
    | _ => firstCapture rx post rest

/-- The lines of a comment group, comment by comment. -/
def CommentGroup.lines (doc : CommentGroup) : List String :=
  doc.list.flatMap (fun text => stringsSplit text '\n')

/-- The function `schemaDecl.inferNames`: the declaration with its names filled in. -/
def SchemaDecl.inferNames (L : Lib) (sd : SchemaDecl) : SchemaDecl :=
  if sd.goName ≠ "" then sd
  else
    let goName := sd.typeSpec.name
    let name :=
      match sd.decl.doc with
      | none => goName
      | some doc =>
        match firstCapture L.rxModelOverride id doc.lines with
        | some n => n
        | none => goName
    { sd with goName := goName, name := name }

/-- The function `strfmtName`. -/
def strfmtName (L : Lib) (comments : Option CommentGroup) : Option String :=
  match comments with
  | none => none
  | some doc => firstCapture L.rxStrFmt trimSpace doc.lines

/-! ## Lookup -/

/-- The inner loop of `findSourceFile` over the specs of one declaration. -/
def findInSpecs (L : Lib) (gd : GenDecl) (typeName : String) : List Spec → Option TypeSpec
  | [] => none
  | .typeSpec ts :: rest =>
    if strfmtName L gd.doc = some typeName ∨ ts.name = typeName then some ts
    else findInSpecs L gd typeName rest
  | .other :: rest => findInSpecs L gd typeName rest

/-- The loop of `findSourceFile` over the declarations of one file. -/
def findInDecls (L : Lib) (typeName : String) : List Decl → Option (GenDecl × TypeSpec)
  | [] => none
  | .gen gd :: rest =>
    match findInSpecs L gd typeName gd.specs with
    | some ts => some (gd, ts)
    | none => findInDecls L typeName rest
  | .other :: rest => findInDecls L typeName rest

/-- The loop of `findSourceFile` over the files of a package. -/
def findInFiles (L : Lib) (typeName : String) : List File → Option (File × GenDecl × TypeSpec)
  | [] => none
  | file :: rest =>
    match findInDecls L typeName file.decls with
    | some (gd, ts) => some (file, gd, ts)
    | none => findInFiles L typeName rest

/-- The function `findSourceFile`. -/
def findSourceFile (L : Lib) (pkg : PackageInfo) (typeName : String) :
    Except Err (File × GenDecl × TypeSpec) :=
  match findInFiles L typeName pkg.files with
  | some r => .ok r
  | none => .error (.notFound typeName pkg.path)

/-- The function `schemaParser.packageForFile`. -/
def packageForFile (prog : Program) (gofile : File) : Except Err PackageInfo :=
  match prog.allPackages.find? (fun p => p.name == gofile.name) with
  | some pkg => .ok pkg
  | none => .error (.noPackageForFile gofile.name)

/-- The import loop of `packageForSelector`: the path selected for `name`,
or the empty string. -/
def selectImport (L : Lib) (name : String) : List ImportSpec → String
  | [] => ""
  | imp :: rest =>
    let pv := match L.unquote imp.path with
      | some v => v
      | none => imp.path
    match imp.name with
    | some al => if al = name then pv else selectImport L name rest
    | none =>
      if (stringsSplit pv '/').getLast? = some name then pv else selectImport L name rest

/-- The function `schemaParser.packageForSelector`. -/
def packageForSelector (L : Lib) (prog : Program) (gofile : File) (expr : Expr) :
    Except Err PackageInfo :=
  match expr with
  | .ident name _ =>
    let selPath := selectImport L name gofile.imports
    if selPath = "" then .error (.noImport name)
    else match prog.package selPath with
      | none => .error (.noPackage selPath)
      | some pkg => .ok pkg
  | _ => .error .noSelectorPath

/-! ## Targets (`schemaTypable`) and setters (`schemaValidations`) -/

/-- The method `schemaTypable.Items`: the target after the call (its items
allocated where they were nil, its type set to array) and the schema the
returned target points to. -/
def Schema.itemsTarget (s : Schema) : Schema × Schema :=
  let it := match s.items with
    | some (some it) => it
    | _ => Schema.empty
  ((s.setItems (some (some it))).typed "array" "", it)

/-- Write the pointee of `Items.Schema` back. -/
def Schema.putItems (s : Schema) (it : Schema) : Schema :=
  s.setItems (some (some it))

/-- The method `schemaTypable.SetRef`. -/
def Schema.setRef (s : Schema) (ref : String) : Schema :=
  s.setProps { s.props with ref := some ref }

/-- The method `AddExtension` of a schema. -/
def Schema.addExtension (s : Schema) (key value : String) : Schema :=
  s.setProps { s.props with extensions := mapSet s.props.extensions key value }

/-- The keyword families of the field directives. -/
inductive Setter where
  | maximum | minimum | multipleOf | minLength | maxLength | pattern
  | minItems | maxItems | unique | required | readOnly
deriving DecidableEq, Repr

/-- One entry of `sp.taggers`: its name, its value parser, and whether the
parser writes to `ps.Items.Schema` instead of `ps`. -/
structure Tagger where
  name : String
  setter : Setter
  onItems : Bool
deriving DecidableEq, Repr

/-- The taggers of lines 288 to 298. -/
def defaultTaggers : List Tagger :=
  [⟨"maximum", .maximum, false⟩, ⟨"minimum", .minimum, false⟩,
   ⟨"multipleOf", .multipleOf, false⟩, ⟨"minLength", .minLength, false⟩,
   ⟨"maxLength", .maxLength, false⟩, ⟨"pattern", .pattern, false⟩,
   ⟨"minItems", .minItems, false⟩, ⟨"maxItems", .maxItems, false⟩,
   ⟨"unique", .unique, false⟩, ⟨"required", .required, false⟩,
   ⟨"readOnly", .readOnly, false⟩]

/-- The taggers of lines 307 to 315. -/
def itemsTaggers : List Tagger :=
  [⟨"itemsMaximum", .maximum, true⟩, ⟨"itemsMinimum", .minimum, true⟩,
   ⟨"itemsMultipleOf", .multipleOf, true⟩, ⟨"itemsMinLength", .minLength, true⟩,
   ⟨"itemsMaxLength", .maxLength, true⟩, ⟨"itemsPattern", .pattern, true⟩,
   ⟨"itemsMinItems", .minItems, true⟩, ⟨"itemsMaxItems", .maxItems, true⟩,
   ⟨"itemsUnique", .unique, true⟩]

/-- The taggers of line 325. -/
def refTaggers : List Tagger := [⟨"required", .required, false⟩]

/-- The taggers `parseStructType` installs for a field of type `ftype`
whose property is `ps` after the type mapping (lines 286 to 327). -/
def fieldTaggers (ftype : Expr) (ps : Schema) : List Tagger :=
  if ps.props.ref = none then
    match ftype with
    | .array (.ident _ false) =>
      match ps.items with
      | some (some _) => itemsTaggers ++ defaultTaggers
      | _ => defaultTaggers
    | _ => defaultTaggers
  else refTaggers

/-- The setters of `schemaValidations` (lines 48 to 62) and of
`setReadOnlySchema`, applied to the operand its value parser read. -/
def validate (st : Setter) (v : TagValue) (p : SchemaProps) : SchemaProps :=
  match st, v with
  | .maximum, .number val ex => { p with maximum := some val, exclusiveMaximum := ex }
  | .minimum, .number val ex => { p with minimum := some val, exclusiveMinimum := ex }
  | .multipleOf, .number val _ => { p with multipleOf := some val }
  | .minLength, .int val => { p with minLength := some val }
  | .maxLength, .int val => { p with maxLength := some val }
  | .pattern, .str val => { p with pattern := val }
  | .minItems, .int val => { p with minItems := some val }
  | .maxItems, .int val => { p with maxItems := some val }
  | .unique, .bool val => { p with uniqueItems := val }
  | .readOnly, .bool val => { p with readOnly := val }
  | _, _ => p

/-- Modelled from the spec: `setRequiredSchema` is defined in a sibling
file. §4.6 says `required` "marks the field name in the owning schema's
required list, not the property itself": a true operand adds the name when
it is missing, a false one removes it. -/
def setRequired (owner : Schema) (nm : String) (b : Bool) : Schema :=
  if b then
    if nm ∈ owner.props.required then owner
    else owner.setProps { owner.props with required := owner.props.required ++ [nm] }
  else owner.setProps { owner.props with required := owner.props.required.filter (fun r => r ≠ nm) }

/-- Run the value parser of one matched tagger: `st` is the owning schema
and the property `ps`. A name that is not among the installed taggers does
nothing. -/
def applyTag (taggers : List Tagger) (nm : String) (st : Schema × Schema)
    (m : String × TagValue) : Schema × Schema :=
  match taggers.find? (fun t => t.name = m.1) with
  | none => st
  | some tg =>
    match tg.setter with
    | .required =>
      match m.2 with
      | .bool b => (setRequired st.1 nm b, st.2)
      | _ => st
    | setter =>
      if tg.onItems then
        match st.2.items with
        | some (some it) => (st.1, st.2.putItems (it.setProps (validate setter m.2 it.props)))
        | _ => st
      else (st.1, st.2.setProps (validate setter m.2 st.2.props))

/-! ## The scanner -/

/-- The outcome of a property mapping: target, worklist, error. -/
abbrev PropResult := Schema × List SchemaDecl × Option Err

/-- The outcome of a struct mapping: schema, seen-set, worklist, error. -/
abbrev StructResult := Schema × List String × List SchemaDecl × Option Err

/-- The property name of a named field (lines 262 to 277). -/
def fieldName (L : Lib) (name : String) (tag : Option String) : Except Err String :=
  match tag with
  | none => .ok name
  | some lit =>
    if (trimSpace lit).length > 0 then
      match L.unquote lit with
      | none => .error (.unquote lit)
      | some tv =>
        if trimSpace tv ≠ "" then
          if L.structTagGet tv "json" ≠ "" then
            .ok ((stringsSplit (L.structTagGet tv "json") ',').headD "")
          else .ok name
        else .ok name
    else .ok name

/-- What the entry `old` of a property map holds when a copy of it was
worked on up to `ps` and not stored back: the copy shares the pointers
`Items` and `AdditionalProperties` and the map `Properties` with the entry
wherever the entry had them set. -/
def shared (old ps : Schema) : Schema :=
  .mk old.props
    (if old.items.isSome then ps.items else none)
    (if old.additionalProperties.isSome then ps.additionalProperties else none)
    (if old.properties.isSome then ps.properties else none)

/-- The owner after an iteration that returned early: the entry under `nm`,
when there is one, keeps what it shares with the abandoned copy `ps`. -/
def abandon (schema : Schema) (nm : String) (ps : Schema) : Schema :=
  match schema.properties with
  | none => schema
  | some props =>
    match mapGet? props nm with
    | none => schema
    | some old => schema.setProperties (some (mapSet props nm (shared old ps)))

/-- The property read by `schema.Properties[nm]`. -/
def Schema.property (schema : Schema) (nm : String) : Schema :=
  match schema.properties with
  | none => Schema.empty
  | some props => (mapGet? props nm).getD Schema.empty

/-- The assignment `schema.Properties[nm] = ps`. -/
def Schema.setProperty (schema : Schema) (nm : String) (ps : Schema) : Schema :=
  schema.setProperties (some (mapSet (schema.properties.getD []) nm ps))

/-- Lines 284 to 336 for one field: the directives of the doc comment are
applied to the property `ps` that the type mapping left, and the property
is stored under `nm`. -/
def storeField (L : Lib) (fld : Field) (gnm nm : String) (schema : Schema) (ps : Schema)
    (seen : List String) (wl : List SchemaDecl) : StructResult :=
  let taggers := fieldTaggers fld.type ps
  let r := L.sectionedParse fld.doc false true (taggers.map Tagger.name)
  let ps1 := match r.description with
    | some lines => ps.setProps { ps.props with description := L.joinDropLast lines }
    | none => ps
  let st := r.matched.foldl (applyTag taggers nm) (schema, ps1)
  match r.err with
  | some msg => (abandon st.1 nm st.2, seen, wl, some (.doc msg))
  | none =>
    let ps2 := if nm ≠ gnm then st.2.addExtension "x-go-name" gnm else st.2
    (st.1.setProperty nm ps2, seenAdd seen nm, wl, none)

/-- One iteration of the loop over own fields (lines 260 to 338); `pp` is
`parseProperty`. -/
def ownStep (L : Lib)
    (pp : File → Expr → Schema → List SchemaDecl → Option PropResult)
    (gofile : File) (acc : Option StructResult) (fld : Field) : Option StructResult :=
  match acc with
  | none => none
  | some (schema, seen, wl, some e) => some (schema, seen, wl, some e)
  | some (schema, seen, wl, none) =>
    match fld.names with
    | some gnm :: _ =>
      if isExported L gnm then
        match fieldName L gnm fld.tag with
        | .error e => some (schema, seen, wl, some e)
        | .ok nm =>
          match pp gofile fld.type (schema.property nm) wl with
          | none => none
          | some (ps, wl1, some e) => some (abandon schema nm ps, seen, wl1, some e)
          | some (ps, wl1, none) => some (storeField L fld gnm nm schema ps seen wl1)
      else some (schema, seen, wl, none)
    | _ => some (schema, seen, wl, none)

/-- One iteration of the loop over embedded structs (lines 247 to 258);
`pe` is `parseEmbeddedStruct`. -/
def embedStep
    (pe : File → Schema → Expr → List String → List SchemaDecl → Option StructResult)
    (gofile : File) (acc : Option StructResult) (fld : Field) : Option StructResult :=
  match acc with
  | none => none
  | some (schema, seen, wl, some e) => some (schema, seen, wl, some e)
  | some (schema, seen, wl, none) =>
    match fld.names with
    | [] =>
      match pe gofile schema fld.type seen wl with
      | none => none
      | some (schema1, seen1, wl1, some e) => some (schema1, seen1, wl1, some e)
      | some (schema1, seen1, wl1, none) =>
        some (schema1, schema1.keys.foldl seenAdd seen1, wl1, none)
    | _ :: _ => some (schema, seen, wl, none)

/-- The pruning loop of lines 339 to 343. -/
def prune (schema : Schema) (seen : List String) : Schema :=
  match schema.properties with
  | none => schema
  | some props => schema.setProperties (some (props.filter (fun e => e.1 ∈ seen)))

/-- Lines 542 to 550 and 436 to 444: reference the declaration and put it
on the worklist. -/
def refer (L : Lib) (sd : SchemaDecl) (prop : Schema) (wl : List SchemaDecl) : PropResult :=
  let sd1 := sd.inferNames L
  match L.newRef ("#/definitions/" ++ sd1.name) with
  | .error e => (prop, wl, some e)
  | .ok ref => (prop.setRef ref, wl ++ [sd1], none)

mutual

/-- The function `parseProperty`. -/
def parseProperty (L : Lib) (prog : Program) :
    Nat → File → Expr → Schema → List SchemaDecl → Option PropResult
  | 0, _, _, _, _ => none
  | fuel + 1, gofile, fld, prop, wl =>
    match fld with
    | .ident name _ =>
      match packageForFile prog gofile with
      | .error _ => some ((swaggerSchemaForType L name prop).1, wl, (swaggerSchemaForType L name prop).2)
      | .ok pkg =>
        match findSourceFile L pkg name with
        | .error _ =>
          some ((swaggerSchemaForType L name prop).1, wl, (swaggerSchemaForType L name prop).2)
        | .ok (file, gd, tsp) =>
          match tsp.type with
          | .array elt =>
            match strfmtName L gd.doc with
            | some sfn =>
              some (prop.itemsTarget.1.putItems (prop.itemsTarget.2.typed "string" sfn), wl, none)
            | none => parseProperty L prog fuel gofile (.array elt) prop wl
          | tpe =>
            match strfmtName L gd.doc with
            | some sfn => some (prop.typed "string" sfn, wl, none)
            | none =>
              match tpe with
              | .structType _ => some (refer L ⟨gofile, gd, tsp, "", ""⟩ prop wl)
              | _ => parseProperty L prog fuel file tpe prop wl
    | .star x =>
      match parseProperty L prog fuel gofile x prop wl with
      | none => none
      | some (prop1, wl1, _) => some (prop1, wl1, none)
    | .array elt =>
      match parseProperty L prog fuel gofile elt prop.itemsTarget.2 wl with
      | none => none
      | some (it, wl1, e) => some (prop.itemsTarget.1.putItems it, wl1, e)
    | .structType fields =>
      match parseStructType L prog fuel gofile prop fields [] wl with
      | none => none
      | some (prop1, _, wl1, e) => some (prop1, wl1, e)
    | .selector x sel => typeForSelector L prog fuel gofile x sel prop wl
    | .mapType key value =>
      match key with
      | .ident keyName _ =>
        if keyName = "string" then
          let ap := match prop.additionalProperties with
            | some (_, some s) => s
            | _ => Schema.empty
          match parseProperty L prog fuel gofile value ap wl with
          | none => none
          | some (ap1, wl1, _) =>
            some ((prop.setAdditionalProperties (some (false, some ap1))).typed "object" "",
              wl1, none)
        else some (prop, wl, none)
      | _ => some (prop, wl, none)
    | .interfaceType => some (prop, wl, none)
    | .other _ => some (prop, wl, some .unsupported)

/-- The method `schemaParser.typeForSelector`, on the selector `x.sel`. -/
def typeForSelector (L : Lib) (prog : Program) :
    Nat → File → Expr → String → Schema → List SchemaDecl → Option PropResult
  | 0, _, _, _, _, _ => none
  | fuel + 1, gofile, x, sel, prop, wl =>
    match packageForSelector L prog gofile x with
    | .error e => some (prop, wl, some e)
    | .ok pkg => parseSelectorProperty L prog fuel pkg sel prop wl

/-- The method `schemaParser.parseSelectorProperty`, on the name of `expr`. -/
def parseSelectorProperty (L : Lib) (prog : Program) :
    Nat → PackageInfo → String → Schema → List SchemaDecl → Option PropResult
  | 0, _, _, _, _ => none
  | fuel + 1, pkg, name, prop, wl =>
    match findSourceFile L pkg name with
    | .error _ =>
      some ((swaggerSchemaForType L name prop).1, wl, (swaggerSchemaForType L name prop).2)
    | .ok (file, gd, ts) =>
      match strfmtName L gd.doc with
      | some sfn =>
        match ts.type with
        | .array (.ident _ _) => some (prop.typed "string" sfn, wl, none)
        | .array _ =>
          some (prop.itemsTarget.1.putItems (prop.itemsTarget.2.typed "string" sfn), wl, none)
        | _ => some (prop.typed "string" sfn, wl, none)
      | none =>
        match ts.type with
        | .array (.ident atpe _) =>
          match parseSelectorProperty L prog fuel pkg atpe prop.itemsTarget.2 wl with
          | none => none
          | some (it, wl1, e) => some (prop.itemsTarget.1.putItems it, wl1, e)
        | .array (.selector x sel) =>
          match typeForSelector L prog fuel file x sel prop.itemsTarget.2 wl with
          | none => none
          | some (it, wl1, e) => some (prop.itemsTarget.1.putItems it, wl1, e)
        | .array _ => some (prop, wl, some .unknownSelectorType)
        | .structType _ => some (refer L ⟨file, gd, ts, "", ""⟩ prop wl)
        | .ident tpe _ => parseSelectorProperty L prog fuel pkg tpe prop wl
        | .selector x sel => typeForSelector L prog fuel file x sel prop wl
        | _ => some ((swaggerSchemaForType L name prop).1, wl, (swaggerSchemaForType L name prop).2)

/-- The method `schemaParser.parseEmbeddedStruct`. -/
def parseEmbeddedStruct (L : Lib) (prog : Program) :
    Nat → File → Schema → Expr → List String → List SchemaDecl → Option StructResult
  | 0, _, _, _, _, _ => none
  | fuel + 1, gofile, schema, expr, seen, wl =>
    match expr with
    | .ident name _ =>
      match packageForFile prog gofile with
      | .error e => some (schema, seen, wl, some e)
      | .ok pkg =>
        match findSourceFile L pkg name with
        | .error e => some (schema, seen, wl, some e)
        | .ok (file, _, ts) =>
          match ts.type with
          | .structType st => parseStructType L prog fuel file schema st seen wl
          | _ => some (schema, seen, wl, some .unresolvedEmbedded)
    | .selector x sel =>
      match packageForSelector L prog gofile x with
      | .error e => some (schema, seen, wl, some (.embedded e))
      | .ok pkg =>
        match findSourceFile L pkg sel with
        | .error e => some (schema, seen, wl, some (.embedded e))
        | .ok (file, _, ts) =>
          match ts.type with
          | .structType st => parseStructType L prog fuel file schema st seen wl
          | _ => some (schema, seen, wl, some .unresolvedEmbedded)
    | _ => some (schema, seen, wl, some .unresolvedEmbedded)

/-- The method `schemaParser.parseStructType`, on the `Fields` of `tpe`. -/
def parseStructType (L : Lib) (prog : Program) :
    Nat → File → Schema → Option (List Field) → List String → List SchemaDecl →
      Option StructResult
  | 0, _, _, _, _, _ => none
  | fuel + 1, gofile, schema, tpe, seen, wl =>
    match tpe with
    | none => some (schema.typed "object" "", seen, wl, none)
    | some fields =>
      let schema0 := schema.typed "object" ""
      let schema1 := if schema0.properties.isNone then schema0.setProperties (some []) else schema0
      match fields.foldl (embedStep (parseEmbeddedStruct L prog fuel) gofile)
          (some (schema1, seen, wl, none)) with
      | none => none
      | some (schema2, seen2, wl2, some e) => some (schema2, seen2, wl2, some e)
      | some (schema2, seen2, wl2, none) =>
        match fields.foldl (ownStep L (parseProperty L prog fuel) gofile)
            (some (schema2, seen2, wl2, none)) with
        | none => none
        | some (schema3, seen3, wl3, some e) => some (schema3, seen3, wl3, some e)
        | some (schema3, seen3, wl3, none) => some (prune schema3 seen3, seen3, wl3, none)

end

/-- The definitions map `map[string]spec.Schema`. -/
abbrev Definitions := List (String × Schema)

/-- The outcome of synthesising a declaration: definitions, worklist, error. -/
abbrev DeclResult := Definitions × List SchemaDecl × Option Err

/-- The loop of lines 192 to 200: the package path of every importable
package that holds a file at the position of `file`. -/
def goPackage (prog : Program) (file : File) (schema : Schema) : Schema :=
  prog.allPackages.foldl (fun s pkgInfo =>
    if pkgInfo.importable then
      pkgInfo.files.foldl (fun s1 fil =>
        if fil.pos = file.pos then s1.addExtension "x-go-package" pkgInfo.path else s1) s
    else s) schema

/-- The definitions after `parseDecl` returned early: the entry under
`name`, when there is one, keeps what it shares with the local copy. -/
def abandonDecl (definitions : Definitions) (name : String) (schema : Schema) : Definitions :=
  match mapGet? definitions name with
  | none => definitions
  | some old => mapSet definitions name (shared old schema)

/-- The method `schemaParser.parseDecl`. -/
def parseDecl (L : Lib) (prog : Program) (fuel : Nat) (definitions : Definitions)
    (decl : SchemaDecl) (wl : List SchemaDecl) : Option DeclResult :=
  let decl1 := decl.inferNames L
  let schema := (mapGet? definitions decl1.name).getD Schema.empty
  let r := L.sectionedParse decl1.decl.doc true true []
  let schema1 := match r.title with
    | some lines => schema.setProps { schema.props with title := L.joinDropLast lines }
    | none => schema
  let schema2 := match r.description with
    | some lines => schema1.setProps { schema1.props with description := L.joinDropLast lines }
    | none => schema1
  match r.err with
  | some msg => some (definitions, wl, some (.doc msg))
  | none =>
    let body : Option StructResult := match decl1.typeSpec.type with
      | .structType tpe => parseStructType L prog fuel decl1.file schema2 tpe [] wl
      | _ => some (schema2, [], wl, none)
    match body with
    | none => none
    | some (schema3, _, wl1, some e) => some (abandonDecl definitions decl1.name schema3, wl1, some e)
    | some (schema3, _, wl1, none) =>
      let schema4 :=
        if decl1.name ≠ decl1.goName then schema3.addExtension "x-go-name" decl1.goName
        else schema3
      some (mapSet definitions decl1.name (goPackage prog decl1.file schema4), wl1, none)

/-- The inner loop of `Parse` over the specs of one declaration. -/
def parseSpecs (L : Lib) (prog : Program) (fuel : Nat) (gofile : File) (gd : GenDecl) :
    List Spec → Definitions → List SchemaDecl → Option DeclResult
  | [], tgt, wl => some (tgt, wl, none)
  | .typeSpec ts :: rest, tgt, wl =>
    match parseDecl L prog fuel tgt (SchemaDecl.inferNames L ⟨gofile, gd, ts, "", ""⟩) wl with
    | none => none
    | some (tgt1, wl1, some e) => some (tgt1, wl1, some e)
    | some (tgt1, wl1, none) => parseSpecs L prog fuel gofile gd rest tgt1 wl1
  | .other :: rest, tgt, wl => parseSpecs L prog fuel gofile gd rest tgt wl

/-- The outer loop of `Parse` over the declarations of the file. -/
def parseDecls (L : Lib) (prog : Program) (fuel : Nat) (gofile : File) :
    List Decl → Definitions → List SchemaDecl → Option DeclResult
  | [], tgt, wl => some (tgt, wl, none)
  | .gen gd :: rest, tgt, wl =>
    match parseSpecs L prog fuel gofile gd gd.specs tgt wl with
    | none => none
    | some (tgt1, wl1, some e) => some (tgt1, wl1, some e)
    | some (tgt1, wl1, none) => parseDecls L prog fuel gofile rest tgt1 wl1
  | .other :: rest, tgt, wl => parseDecls L prog fuel gofile rest tgt wl

/-- The method `schemaParser.Parse`. -/
def Parse (L : Lib) (prog : Program) (fuel : Nat) (gofile : File) (tgt : Definitions)
    (wl : List SchemaDecl) : Option DeclResult :=
  parseDecls L prog fuel gofile gofile.decls tgt wl

/-! ## An instance of the collaborators

Closed examples need the collaborators spelled out. `goLib` covers the
inputs met in practice: string literals without escape sequences, ASCII
identifiers, one directive per comment line. -/

/-- Whether `pre` starts `s`, and what follows it. -/
def stripStart : List Char → List Char → Option (List Char)
  | [], s => some s
  | _ :: _, [] => none
  | p :: ps, c :: cs => if p = c then stripStart ps cs else none

/-- The text after the first occurrence of `marker` in `s`. -/
def afterMarker (marker : List Char) : List Char → Option (List Char)
  | [] => stripStart marker []
  | c :: cs =>
    match stripStart marker (c :: cs) with
    | some rest => some rest
    | none => afterMarker marker cs

/-- A regular expression of the shape `marker\s*(\S+)?$`: the whole match
and the capture. -/
def markerMatch (marker : String) (line : String) : List String :=
  match afterMarker marker.data line.data with
  | none => []
  | some rest => [marker ++ String.mk rest, String.mk (rest.dropWhile isSpace)]

/-- Unquote a literal delimited by double quotes or back quotes that holds
no escape sequence. -/
def unquoteSimple (lit : String) : Option String :=
  match lit.data with
  | [] => none
  | q :: rest =>
    if (q = '"' ∨ q = Char.ofNat 96) ∧ rest.getLast? = some q ∧
        ¬ (q ∈ rest.dropLast) ∧ ¬ ('\\' ∈ rest) then some (String.mk rest.dropLast)
    else none

/-- The value of `key` in a tag made of `key:"value"` pairs separated by
spaces, the values holding no escape sequence. -/
def tagLookup (key : List Char) : Nat → List Char → List Char
  | 0, _ => []
  | fuel + 1, tag =>
    let t := tag.dropWhile (fun c => c = ' ')
    let name := t.takeWhile (fun c => c ≠ ':')
    match (t.dropWhile (fun c => c ≠ ':')) with
    | ':' :: '"' :: rest =>
      let value := rest.takeWhile (fun c => c ≠ '"')
      if name = key then value
      else tagLookup key fuel ((rest.dropWhile (fun c => c ≠ '"')).drop 1)
    | _ => []

/-- Join lines with newlines. -/
def joinLines : List String → String
  | [] => ""
  | [l] => l
  | l :: rest => l ++ "\n" ++ joinLines rest

/-- The primitive table of the instance. -/
def goPrimitives (typeName : String) : Option (String × String) :=
  if typeName = "bool" then some ("boolean", "")
  else if typeName = "string" then some ("string", "")
  else if typeName = "int" then some ("integer", "int64")
  else if typeName = "int32" then some ("integer", "int32")
  else if typeName = "int64" then some ("integer", "int64")
  else if typeName = "byte" then some ("integer", "uint8")
  else if typeName = "float64" then some ("number", "double")
  else none

/-- The instance: a doc comment without directives yields its lines as the
description; a nil doc comment yields nothing. -/
def goLib : Lib where
  unquote := unquoteSimple
  structTagGet := fun tag key => String.mk (tagLookup key.data tag.length tag.data)
  isUpper := Char.isUpper
  refOk := fun _ => true
  rxStrFmt := markerMatch "swagger:strfmt"
  rxModelOverride := markerMatch "swagger:model"
  primitives := goPrimitives
  sectionedParse := fun doc _ wantDescription _ =>
    match doc with
    | none => {}
    | some d => { description := if wantDescription then some d.lines else none }
  joinDropLast := joinLines

/-- The operand of a line of the shape `name: digits` behind the comment
marker. -/
def directiveOperand (name : String) (line : String) : Option Nat :=
  let body := (trimSpace (String.mk (line.data.dropWhile (fun c => c = '/')))).data
  let lead := name.data ++ [':', ' ']
  let digits := body.drop lead.length
  if body.take lead.length = lead ∧ digits ≠ [] ∧ digits.all Char.isDigit = true then
    some (digits.foldl (fun acc c => acc * 10 + (c.toNat - 48)) 0)
  else none

/-- The tagger, first of `names`, that matches the line, with its operand. -/
def directiveHit (names : List String) (line : String) : Option (String × TagValue) :=
  names.findSome? (fun nm =>
    (directiveOperand nm line).map (fun v => (nm, TagValue.number (v : Rat) false)))

/-- A sectioned parser for numeric directives: every line is offered to the
taggers in their order, the first that matches runs, and the lines that no
tagger matches are the description. -/
def directiveParse (doc : Option CommentGroup) (wantDescription : Bool)
    (names : List String) : ParseResult :=
  match doc with
  | none => {}
  | some d =>
    { description :=
        if wantDescription then some (d.lines.filter (fun l => (directiveHit names l).isNone))
        else none
      matched := d.lines.filterMap (directiveHit names) }

/-- The instance with the parser for numeric directives. -/
def directiveLib : Lib where
  unquote := unquoteSimple
  structTagGet := fun tag key => String.mk (tagLookup key.data tag.length tag.data)
  isUpper := Char.isUpper
  refOk := fun _ => true
  rxStrFmt := markerMatch "swagger:strfmt"
  rxModelOverride := markerMatch "swagger:model"
  primitives := goPrimitives
  sectionedParse := fun doc _ wantDescription names => directiveParse doc wantDescription names
  joinDropLast := joinLines

/-! ## Predicates used by the theorems -/

/-- Every name of the seen-set is a key of the property map. -/
def SeenStored (schema : Schema) (seen : List String) : Prop :=
  ∀ k, k ∈ seen → k ∈ schema.keys

/-- Whether the type spec is not a struct type with nil `Fields`. -/
def TypeSpec.hasFieldList (ts : TypeSpec) : Bool :=
  match ts.type with
  | .structType none => false
  | _ => true

/-- Whether every struct type declared at the top of a type spec of the
program has a field list, as every struct type that the Go parser builds
has. -/
def Program.fieldListsPresent (prog : Program) : Bool :=
  prog.allPackages.all (fun pkg => pkg.files.all (fun file => file.decls.all (fun d =>
    match d with
    | .gen gd => gd.specs.all (fun sp =>
      match sp with
      | .typeSpec ts => ts.hasFieldList
      | .other => true)
    | .other => true)))

/-- The property names that the loop over own fields stores: the property
name of every field whose first name is exported. -/
def ownKeys (L : Lib) : List Field → List String
  | [] => []
  | fld :: rest =>
    match fld.names with
    | some gnm :: _ =>
      if isExported L gnm then
        match fieldName L gnm fld.tag with
        | .ok nm => nm :: ownKeys L rest
        | .error _ => ownKeys L rest
      else ownKeys L rest
    | _ => ownKeys L rest

/-- The file and the struct type that `parseEmbeddedStruct` resolves the
type of an embedded field to (lines 206 to 235). -/
def resolveEmbedded (L : Lib) (prog : Program) (gofile : File) (expr : Expr) :
    Option (File × Option (List Field)) :=
  match expr with
  | .ident name _ =>
    match packageForFile prog gofile with
    | .error _ => none
    | .ok pkg =>
      match findSourceFile L pkg name with
      | .error _ => none
      | .ok (file, _, ts) =>
        match ts.type with
        | .structType st => some (file, st)
        | _ => none
  | .selector x sel =>
    match packageForSelector L prog gofile x with
    | .error _ => none
    | .ok pkg =>
      match findSourceFile L pkg sel with
      | .error _ => none
      | .ok (file, _, ts) =>
        match ts.type with
        | .structType st => some (file, st)
        | _ => none
  | _ => none

mutual

/-- The property names that the struct mapping writes for a struct type:
those of its embedded structs, then those of its own exported fields. -/
def writtenKeys (L : Lib) (prog : Program) : Nat → File → Option (List Field) → List String
  | 0, _, _ => []
  | _ + 1, _, none => []
  | fuel + 1, gofile, some fields =>
    (fields.filter (fun fld => fld.names.isEmpty)).flatMap
      (fun fld => embeddedKeys L prog fuel gofile fld.type) ++ ownKeys L fields

/-- The property names that flattening an embedded field writes. -/
def embeddedKeys (L : Lib) (prog : Program) : Nat → File → Expr → List String
  | 0, _, _ => []
  | fuel + 1, gofile, expr =>
    match resolveEmbedded L prog gofile expr with
    | some (file, st) => writtenKeys L prog fuel file st
    | none => []

end

/-- What a type mapping may do to the reference of its target: leave it as
it was, or set it and change nothing else of the target. -/
def RefStep (prop ps : Schema) : Prop :=
  ps.props.ref = prop.props.ref ∨ ∃ r, ps = prop.setRef r

/-- The non-empty first capture of the model-naming directive on a line:
the test of lines 114 and 115. -/
def modelCapture (L : Lib) (ln : String) : Option String :=
  match L.rxModelOverride ln with
  | _ :: m1 :: _ => if m1.length > 0 then some m1 else none
  | _ => none

/-- The test of line 474: the declaration carries the string-format marker
`typeName`, or the type spec has the identifier `typeName`. -/
def specMatches (L : Lib) (typeName : String) (gd : GenDecl) (ts : TypeSpec) : Prop :=
  strfmtName L gd.doc = some typeName ∨ ts.name = typeName

/-- No type spec among `specs`, taken as specs of `gd`, matches. -/
def noMatchSpecs (L : Lib) (typeName : String) (gd : GenDecl) (specs : List Spec) : Prop :=
  ∀ ts, Spec.typeSpec ts ∈ specs → ¬ specMatches L typeName gd ts

/-- No type spec of a declaration among `decls` matches. -/
def noMatchDecls (L : Lib) (typeName : String) (decls : List Decl) : Prop :=
  ∀ gd, Decl.gen gd ∈ decls → noMatchSpecs L typeName gd gd.specs

/-- No type spec of a declaration of a file among `files` matches. -/
def noMatchFiles (L : Lib) (typeName : String) (files : List File) : Prop :=
  ∀ file, file ∈ files → noMatchDecls L typeName file.decls

/-- The portion of a string before its first comma. -/
def beforeComma (j : String) : String :=
  String.mk (j.data.takeWhile (fun c => c ≠ ','))

/-- Whether the field is anonymous: `len(fld.Names) == 0`. -/
def Field.anonymous (fld : Field) : Bool := fld.names.isEmpty

/-- The field list with all anonymous fields moved ahead of all named
fields, the order within each group kept. -/
def embedsFirst (fields : List Field) : List Field :=
  fields.filter (fun fld => fld.anonymous) ++ fields.filter (fun fld => !fld.anonymous)

/-- What the directives of a field may do to the owning schema: change its
required list. -/
def RequiredFrame (p q : SchemaProps) : Prop :=
  ∃ r, q = { p with required := r }

/-- What a struct mapping may do to the fields of the schema it writes to,
its items, additional properties and properties apart: type it as object
and change its required list. -/
def OwnerFrame (p q : SchemaProps) : Prop :=
  ∃ r, q = { p with type := ["object"], format := "", required := r }

/-- The fields that neither a directive, nor the description, nor an
extension writes: type, format, title, required list and reference are
equal. -/
def PropsFrame (p q : SchemaProps) : Prop :=
  q.type = p.type ∧ q.format = p.format ∧ q.title = p.title ∧ q.required = p.required ∧
  q.ref = p.ref

/-- What the directives, the description and the rename of a field may do to
the property `ps` that the type mapping left: change its description, its
validation constraints and its extensions, and the validation constraints of
its items. -/
def FieldFrame (ps q : Schema) : Prop :=
  PropsFrame ps.props q.props ∧ q.additionalProperties = ps.additionalProperties ∧
  q.properties = ps.properties ∧
  (q.items = ps.items ∨ ∃ it it1, ps.items = some (some it) ∧ q.items = some (some it1) ∧
    PropsFrame it.props it1.props ∧ it1.props.description = it.props.description ∧
    it1.props.extensions = it.props.extensions ∧ it1.items = it.items ∧
    it1.additionalProperties = it.additionalProperties ∧ it1.properties = it.properties)

/-- The external names of the type specs among `specs`, taken as specs of
the declaration `gd` of `gofile`, in the order `Parse` visits them. -/
def specNames (L : Lib) (gofile : File) (gd : GenDecl) : List Spec → List String
  | [] => []
  | .typeSpec ts :: rest =>
    (SchemaDecl.inferNames L ⟨gofile, gd, ts, "", ""⟩).name :: specNames L gofile gd rest
  | .other :: rest => specNames L gofile gd rest

/-- The external names of the type specs of the declarations `decls` of
`gofile`. -/
def declNames (L : Lib) (gofile : File) : List Decl → List String
  | [] => []
  | .gen gd :: rest => specNames L gofile gd gd.specs ++ declNames L gofile rest
  | .other :: rest => declNames L gofile rest

/-! ## Closed examples -/

namespace Example

/-- A file of package `models` without declarations. -/
def emptyFile : File := ⟨1, "models", [], []⟩

/-- The program made of that one file. -/
def emptyProg : Program := ⟨[⟨"models", "example.com/models", true, [emptyFile]⟩]⟩

/-- The field list of `struct { A, B int }`. -/
def twoNames : List Field := [.mk none [some "A", some "B"] (.ident "int" false) none]

/-- The type spec `type Pet struct { Name string }`. -/
def petSpec : TypeSpec :=
  ⟨"Pet", .structType (some [.mk none [some "Name"] (.ident "string" false) none])⟩

/-- The declaration of `Pet`, without doc comment. -/
def petDecl : GenDecl := ⟨none, [.typeSpec petSpec]⟩

/-- A file of package `models` declaring `Pet`. -/
def petFile : File := ⟨1, "models", [], [.gen petDecl]⟩

/-- The package of `petFile`. -/
def petPkg : PackageInfo := ⟨"models", "example.com/models", true, [petFile]⟩

/-- The program made of `petPkg`. -/
def petProg : Program := ⟨[petPkg]⟩

/-- The worklist entry for `Pet` as `parseProperty` builds it. -/
def petEntry : SchemaDecl := ⟨petFile, petDecl, petSpec, "Pet", "Pet"⟩

/-- The type `map[int]string`. -/
def mapIntString : Expr := .mapType (.ident "int" false) (.ident "string" false)

/-- The type `map[string]int`. -/
def mapStringInt : Expr := .mapType (.ident "string" false) (.ident "int" false)

/-- The type `*func()`: a pointer to a function type. -/
def starFunc : Expr := .star (.other "FuncType")

/-- The field `X interface{}`. -/
def ifaceField : Field := .mk none [some "X"] .interfaceType none

/-- The field list of `struct { X interface{} }`. -/
def ifaceFields : List Field := [ifaceField]

/-- The schema of `struct { X interface{} }`: the property `X` is empty. -/
def ifaceSchema : Schema := .mk { type := ["object"] } none none (some [("X", Schema.empty)])

/-- The type spec `type B struct { X []int }`. -/
def baseSpec : TypeSpec :=
  ⟨"B", .structType (some [.mk none [some "X"] (.array (.ident "int" false)) none])⟩

/-- The embedded field `B`. -/
def baseField : Field := .mk none [] (.ident "B" true) none

/-- The field `X string`. -/
def stringField : Field := .mk none [some "X"] (.ident "string" false) none

/-- The field list of `struct { B; X string }`. -/
def derivedFields : List Field := [baseField, stringField]

/-- The type spec `type D struct { B; X string }`. -/
def derivedSpec : TypeSpec := ⟨"D", .structType (some derivedFields)⟩

/-- A file of package `models` declaring `B` and `D`. -/
def embedFile : File :=
  ⟨1, "models", [], [.gen ⟨none, [.typeSpec baseSpec]⟩, .gen ⟨none, [.typeSpec derivedSpec]⟩]⟩

/-- The program made of `embedFile`. -/
def embedProg : Program := ⟨[⟨"models", "example.com/models", true, [embedFile]⟩]⟩

/-- The schema of `int`. -/
def intSchema : Schema := .mk { type := ["integer"], format := "int64" } none none none

/-- The property `X` after `B` was flattened: an array of `int`. -/
def baseX : Schema := .mk { type := ["array"] } (some (some intSchema)) none none

/-- The property `X` of `D`: typed string, with the items of `B.X`. -/
def derivedX : Schema := .mk { type := ["string"] } (some (some intSchema)) none none

/-- The doc comment `// swagger:strfmt chunks`. -/
def chunksDoc : CommentGroup := ⟨["// swagger:strfmt chunks"]⟩

/-- The type spec `type Chunks [][]byte`. -/
def chunksSpec : TypeSpec := ⟨"Chunks", .array (.array (.ident "byte" false))⟩

/-- The declaration of `Chunks` with its string-format marker. -/
def chunksDecl : GenDecl := ⟨some chunksDoc, [.typeSpec chunksSpec]⟩

/-- The doc comment `// swagger:strfmt byte`. -/
def base64Doc : CommentGroup := ⟨["// swagger:strfmt byte"]⟩

/-- The type spec `type Base64 []byte`. -/
def base64Spec : TypeSpec := ⟨"Base64", .array (.ident "byte" false)⟩

/-- The declaration of `Base64` with its string-format marker. -/
def base64Decl : GenDecl := ⟨some base64Doc, [.typeSpec base64Spec]⟩

/-- A file of package `fmts` declaring `Chunks` and `Base64`. -/
def fmtsFile : File := ⟨1, "fmts", [], [.gen chunksDecl, .gen base64Decl]⟩

/-- The package `example.com/fmts`. -/
def fmtsPkg : PackageInfo := ⟨"fmts", "example.com/fmts", true, [fmtsFile]⟩

/-- A file of package `models` that imports `example.com/fmts`. -/
def usesFmtsFile : File := ⟨100, "models", [⟨none, "\"example.com/fmts\""⟩], []⟩

/-- The program made of the packages `models` and `fmts`. -/
def fmtsProg : Program :=
  ⟨[⟨"models", "example.com/models", true, [usesFmtsFile]⟩, fmtsPkg]⟩

/-- The type `fmts.Chunks`. -/
def fmtsChunks : Expr := .selector (.ident "fmts" false) "Chunks"

/-- The type `fmts.Base64`. -/
def fmtsBase64 : Expr := .selector (.ident "fmts" false) "Base64"

/-- The type spec `type Other struct {}`. -/
def otherSpec : TypeSpec := ⟨"Other", .structType (some [])⟩

/-- The field `X Other`. -/
def otherField : Field := .mk none [some "X"] (.ident "Other" true) none

/-- A schema left by an earlier pass, with the property `Old`. -/
def staleSchema : Schema := .mk {} none none (some [("Old", Schema.empty)])

/-- The schema of `D`: an object with the single property `X`. -/
def derivedSchema : Schema := .mk { type := ["object"] } none none (some [("X", derivedX)])

/-- The doc comment of `Pet` with two model-naming lines. -/
def petDoc : CommentGroup := ⟨["// Pet is a pet\n// swagger:model pet", "// swagger:model other"]⟩

/-- The declaration of `Pet` under that doc comment. -/
def namedPetDecl : GenDecl := ⟨some petDoc, [.typeSpec petSpec]⟩

/-- The declaration of `Pet` as the file scan builds it, names not inferred. -/
def namedPet : SchemaDecl := ⟨petFile, namedPetDecl, petSpec, "", ""⟩

/-- A second file of package `fmts`, declaring `Base64` again. -/
def fmtsFile2 : File := ⟨2, "fmts", [], [.gen ⟨none, [.typeSpec ⟨"Base64", .ident "string" false⟩]⟩]⟩

/-- The package `fmts` with both files. -/
def fmtsPkg2 : PackageInfo := ⟨"fmts", "example.com/fmts", true, [fmtsFile, fmtsFile2]⟩

/-- The field `Name string` with the tag `json:"name,omitempty"` in back quotes. -/
def taggedField : Field :=
  .mk none [some "Name"] (.ident "string" false) (some "\x60json:\"name,omitempty\"\x60")

/-- The field `Name string` with a tag literal that lacks its closing quote. -/
def badTagField : Field :=
  .mk none [some "Name"] (.ident "string" false) (some "\x60json:\"name\"")

/-- The type spec `type A []A`. -/
def selfSliceSpec : TypeSpec := ⟨"A", .array (.ident "A" true)⟩

/-- The declaration of `A`. -/
def selfSliceDecl : GenDecl := ⟨none, [.typeSpec selfSliceSpec]⟩

/-- The type spec `type Node struct { Next *Node }`. -/
def nodeSpec : TypeSpec :=
  ⟨"Node", .structType (some [.mk none [some "Next"] (.star (.ident "Node" true)) none])⟩

/-- The declaration of `Node`. -/
def nodeDecl : GenDecl := ⟨none, [.typeSpec nodeSpec]⟩

/-- A file of package `models` declaring `A` and `Node`. -/
def selfFile : File := ⟨1, "models", [], [.gen selfSliceDecl, .gen nodeDecl]⟩

/-- The package of `selfFile`. -/
def selfPkg : PackageInfo := ⟨"models", "example.com/models", true, [selfFile]⟩

/-- The program made of `selfPkg`. -/
def selfProg : Program := ⟨[selfPkg]⟩

/-- The embedded field `*B`. -/
def pointerEmbed : Field := .mk none [] (.star (.ident "B" true)) none

/-- The type spec `type Bad struct { F func() }`. -/
def badSpec : TypeSpec :=
  ⟨"Bad", .structType (some [.mk none [some "F"] (.other "FuncType") none])⟩

/-- The declaration of `Bad`. -/
def badDecl : GenDecl := ⟨none, [.typeSpec badSpec]⟩

/-- A file of package `models` declaring `Pet`, then `Bad`, then `Other`. -/
def failFile : File :=
  ⟨1, "models", [], [.gen petDecl, .gen badDecl, .gen ⟨none, [.typeSpec otherSpec]⟩]⟩

/-- The program made of `failFile`. -/
def failProg : Program := ⟨[⟨"models", "example.com/models", true, [failFile]⟩]⟩

/-- The schema of `Pet` as `parseDecl` stores it from `failFile`. -/
def petSchema : Schema :=
  .mk { type := ["object"], extensions := [("x-go-package", "example.com/models")] } none none
    (some [("Name", .mk { type := ["string"] } none none none)])

/-- The type spec `type Animal struct {}`. -/
def animalSpec : TypeSpec := ⟨"Animal", .structType (some [])⟩

/-- The declaration of `Animal` under the doc comment `// swagger:model Pet`. -/
def animalDecl : GenDecl := ⟨some ⟨["// swagger:model Pet"]⟩, [.typeSpec animalSpec]⟩

/-- The type spec `type Pet struct {}`. -/
def plainPetSpec : TypeSpec := ⟨"Pet", .structType (some [])⟩

/-- The declaration of that `Pet`, without doc comment. -/
def plainPetDecl : GenDecl := ⟨none, [.typeSpec plainPetSpec]⟩

/-- A file of package `models` declaring `Animal` and then `Pet`. -/
def renameFile : File := ⟨1, "models", [], [.gen animalDecl, .gen plainPetDecl]⟩

/-- The program made of `renameFile`. -/
def renameProg : Program := ⟨[⟨"models", "example.com/models", true, [renameFile]⟩]⟩

/-- The declaration `Animal` as the file scan hands it to `parseDecl`. -/
def animalEntry : SchemaDecl := ⟨renameFile, animalDecl, animalSpec, "", ""⟩

/-- The declaration `Pet` as the file scan hands it to `parseDecl`. -/
def plainPetEntry : SchemaDecl := ⟨renameFile, plainPetDecl, plainPetSpec, "", ""⟩

/-- The definitions after `Animal` was synthesised under the name `Pet`. -/
def animalDefinitions : Definitions :=
  [("Pet", .mk { type := ["object"], description := "// swagger:model Pet", extensions := [("x-go-name", "Animal"), ("x-go-package", "example.com/models")] } none none (some []))]

/-- The type spec of `Pet` with the model name `pet` and the fields `Name` and `Tags`. -/
def modelPetSpec : TypeSpec :=
  ⟨"Pet", .structType (some
    [.mk none [some "Name"] (.ident "string" false) (some "\x60json:\"name\"\x60"),
     .mk none [some "Tags"] (.array (.ident "string" false)) (some "\x60json:\"tags\"\x60")])⟩

/-- The declaration of that `Pet` under the doc comment `// swagger:model pet`. -/
def modelPetDecl : GenDecl := ⟨some ⟨["// swagger:model pet"]⟩, [.typeSpec modelPetSpec]⟩

/-- A file of package `models` declaring that `Pet`. -/
def modelPetFile : File := ⟨1, "models", [], [.gen modelPetDecl]⟩

/-- The program made of `modelPetFile`. -/
def modelPetProg : Program := ⟨[⟨"models", "example.com/models", true, [modelPetFile]⟩]⟩

/-- The declaration as the file scan hands it to `parseDecl`. -/
def modelPetEntry : SchemaDecl := ⟨modelPetFile, modelPetDecl, modelPetSpec, "", ""⟩


/-- The field `Tags []int` with the doc comment `// itemsMinimum: 3`. -/
def tagsField : Field :=
  .mk (some ⟨["// itemsMinimum: 3"]⟩) [some "Tags"] (.array (.ident "int" false)) none

/-- The declaration `type RB struct { Tags Other }`. -/
def refBaseSpec : TypeSpec :=
  ⟨"RB", .structType (some [.mk none [some "Tags"] (.ident "Other" true) none])⟩

/-- The fields of `struct { RB; Tags []int }`, the second with the doc
comment `// itemsMinimum: 3`. -/
def listerFields : List Field := [.mk none [] (.ident "RB" true) none, tagsField]

/-- A file declaring `Other`, `RB` and `Lister`. -/
def listerFile : File :=
  ⟨1, "models", [], [.gen ⟨none, [.typeSpec otherSpec]⟩, .gen ⟨none, [.typeSpec refBaseSpec]⟩,
    .gen ⟨none, [.typeSpec ⟨"Lister", .structType (some listerFields)⟩]⟩]⟩

/-- The program of `listerFile`. -/
def listerProg : Program := ⟨[⟨"models", "example.com/models", true, [listerFile]⟩]⟩


/-- The declaration `type Pet struct { F fmts.T }`. -/
def importerSpec : TypeSpec :=
  ⟨"Pet", .structType (some [.mk none [some "F"] (.selector (.ident "fmts" false) "T") none])⟩

/-- The general declaration of `importerSpec`. -/
def importerDecl : GenDecl := ⟨none, [.typeSpec importerSpec]⟩

/-- The file `a.go` of package `models`: it imports `example.com/x/fmts`
and declares `Pet`. -/
def importerFile : File := ⟨1, "models", [⟨none, "\"example.com/x/fmts\""⟩], [.gen importerDecl]⟩

/-- The file `b.go` of package `models`: it imports `example.com/y/fmts`
and declares `type Owner struct { P Pet }`. -/
def referrerFile : File :=
  ⟨2, "models", [⟨none, "\"example.com/y/fmts\""⟩],
    [.gen ⟨none, [.typeSpec ⟨"Owner", .structType (some [.mk none [some "P"] (.ident "Pet" false) none])⟩]⟩]⟩

/-- The packages `models`, `example.com/x/fmts` with `type T string` and
`example.com/y/fmts` with `type T int`. -/
def twoImportsProg : Program :=
  ⟨[⟨"models", "example.com/models", true, [importerFile, referrerFile]⟩,
    ⟨"fmts", "example.com/x/fmts", true,
      [⟨10, "fmts", [], [.gen ⟨none, [.typeSpec ⟨"T", .ident "string" false⟩]⟩]⟩]⟩,
    ⟨"fmts", "example.com/y/fmts", true,
      [⟨20, "fmts", [], [.gen ⟨none, [.typeSpec ⟨"T", .ident "int" false⟩]⟩]⟩]⟩]⟩

/-- The entry `Parse` builds for `Pet` when it scans `a.go`. -/
def scannedPet : SchemaDecl := ⟨importerFile, importerDecl, importerSpec, "Pet", "Pet"⟩

/-- The entry for `Pet` with the file `b.go`. -/
def referredPet : SchemaDecl := ⟨referrerFile, importerDecl, importerSpec, "Pet", "Pet"⟩


/-- The package `models` of `twoImportsProg`. -/
def modelsPkg : PackageInfo :=
  ⟨"models", "example.com/models", true, [importerFile, referrerFile]⟩

/-- A file of package `api` that imports `example.com/models`. -/
def apiFile : File := ⟨30, "api", [⟨none, "\"example.com/models\""⟩], []⟩

/-- The packages of `twoImportsProg` and the package `api`. -/
def apiProg : Program :=
  ⟨twoImportsProg.allPackages ++ [⟨"api", "example.com/api", true, [apiFile]⟩]⟩


/-- The declaration `type Good struct { Keep string }` under the doc comment
`// swagger:model Bad`. -/
def goodSpec : TypeSpec :=
  ⟨"Good", .structType (some [.mk none [some "Keep"] (.ident "string" false) none])⟩

/-- The general declaration of `goodSpec`. -/
def goodDecl : GenDecl := ⟨some ⟨["// swagger:model Bad"]⟩, [.typeSpec goodSpec]⟩

/-- The declaration `type Bad struct { New string; F func() }`. -/
def lateBadSpec : TypeSpec :=
  ⟨"Bad", .structType (some [.mk none [some "New"] (.ident "string" false) none,
    .mk none [some "F"] (.other "FuncType") none])⟩

/-- The general declaration of `lateBadSpec`. -/
def lateBadDecl : GenDecl := ⟨none, [.typeSpec lateBadSpec]⟩

/-- A file of package `models` declaring `Good`, then `Bad`. -/
def collideFile : File := ⟨1, "models", [], [.gen goodDecl, .gen lateBadDecl]⟩

/-- The program made of `collideFile`. -/
def collideProg : Program := ⟨[⟨"models", "example.com/models", true, [collideFile]⟩]⟩


end Example

/-! # Theorems -/

/-! ## Projections and maps -/

@[simp] theorem Schema.props_mk (p : SchemaProps) (i : Option (Option Schema))
    (a : Option (Bool × Option Schema)) (ps : Option (List (String × Schema))) :
    (Schema.mk p i a ps).props = p := rfl

@[simp] theorem Schema.items_mk (p : SchemaProps) (i : Option (Option Schema))
    (a : Option (Bool × Option Schema)) (ps : Option (List (String × Schema))) :
    (Schema.mk p i a ps).items = i := rfl

theorem Schema.eta (s : Schema) :
    Schema.mk s.props s.items s.additionalProperties s.properties = s := by
  cases s; rfl

@[simp] theorem Schema.properties_setProps (s : Schema) (p : SchemaProps) :
    (s.setProps p).properties = s.properties := rfl

@[simp] theorem Schema.properties_typed (s : Schema) (t f : String) :
    (s.typed t f).properties = s.properties := rfl

@[simp] theorem Schema.properties_setProperties (s : Schema)
    (ps : Option (List (String × Schema))) : (s.setProperties ps).properties = ps := rfl

@[simp] theorem Schema.keys_setProps (s : Schema) (p : SchemaProps) :
    (s.setProps p).keys = s.keys := rfl

theorem mem_mapSet_keys {β : Type} (m : List (String × β)) (k : String) (v : β) (k1 : String) :
    k1 ∈ (mapSet m k v).map Prod.fst ↔ k1 = k ∨ k1 ∈ m.map Prod.fst := by
  induction m with
  | nil => simp [mapSet]
  | cons e rest ih =>
    obtain ⟨k2, v2⟩ := e
    unfold mapSet
    by_cases h : k2 = k
    · subst h; simp
    · simp only [h, if_false, List.map_cons, List.mem_cons, ih]
      tauto

theorem mem_seenAdd (seen : List String) (k k1 : String) :
    k1 ∈ seenAdd seen k ↔ k1 = k ∨ k1 ∈ seen := by
  unfold seenAdd
  split
  · constructor
    · intro h; exact Or.inr h
    · rintro (h | h)
      · subst h; assumption
      · exact h
  · simp [or_comm]

theorem mem_foldl_seenAdd (l seen : List String) (k : String) :
    k ∈ l.foldl seenAdd seen ↔ k ∈ seen ∨ k ∈ l := by
  induction l generalizing seen with
  | nil => simp
  | cons a rest ih =>
    simp only [List.foldl_cons, ih, mem_seenAdd, List.mem_cons]
    tauto

theorem Schema.mem_keys_setProperty (s : Schema) (nm : String) (ps : Schema) (k : String) :
    k ∈ (s.setProperty nm ps).keys ↔ k = nm ∨ k ∈ s.keys := by
  unfold Schema.setProperty Schema.keys
  simp only [Schema.properties_setProperties, mem_mapSet_keys]
  cases s.properties <;> simp

theorem mem_keys_prune (s : Schema) (seen : List String) (k : String) :
    k ∈ (prune s seen).keys ↔ k ∈ s.keys ∧ k ∈ seen := by
  unfold prune Schema.keys
  cases h : s.properties with
  | none => simp [h]
  | some props =>
    simp only [Schema.properties_setProperties, List.mem_map, List.mem_filter, decide_eq_true_eq]
    constructor
    · rintro ⟨e, ⟨he, hs⟩, rfl⟩
      exact ⟨⟨e, he, rfl⟩, hs⟩
    · rintro ⟨⟨e, he, rfl⟩, hs⟩
      exact ⟨e, ⟨he, hs⟩, rfl⟩

theorem properties_setRequired (owner : Schema) (nm : String) (b : Bool) :
    (setRequired owner nm b).properties = owner.properties := by
  unfold setRequired
  split
  · split <;> rfl
  · rfl

theorem applyTag_properties (taggers : List Tagger) (nm : String) (st : Schema × Schema)
    (m : String × TagValue) : (applyTag taggers nm st m).1.properties = st.1.properties := by
  unfold applyTag
  split
  · rfl
  · split
    · split
      · exact properties_setRequired _ _ _
      · rfl
    · split
      · split <;> rfl
      · rfl

theorem foldl_applyTag_properties (taggers : List Tagger) (nm : String)
    (ms : List (String × TagValue)) (st : Schema × Schema) :
    (ms.foldl (applyTag taggers nm) st).1.properties = st.1.properties := by
  induction ms generalizing st with
  | nil => rfl
  | cons m rest ih => rw [List.foldl_cons, ih, applyTag_properties]

/-! ## Loops -/

theorem foldl_absorb_none {α : Type} (f : Option StructResult → α → Option StructResult)
    (hnone : ∀ a, f none a = none) (l : List α) : l.foldl f none = none := by
  induction l with
  | nil => rfl
  | cons a rest ih => rw [List.foldl_cons, hnone, ih]

theorem foldl_absorb_err {α : Type} (f : Option StructResult → α → Option StructResult)
    (herr : ∀ s sn w e a, f (some (s, sn, w, some e)) a = some (s, sn, w, some e))
    (l : List α) (s : Schema) (sn : List String) (w : List SchemaDecl) (e : Err) :
    l.foldl f (some (s, sn, w, some e)) = some (s, sn, w, some e) := by
  induction l with
  | nil => rfl
  | cons a rest ih => rw [List.foldl_cons, herr, ih]

/-- A property of the loop state that every successful iteration keeps
holds after a loop that ended without error. -/
theorem foldl_invariant {α : Type} (f : Option StructResult → α → Option StructResult)
    (hnone : ∀ a, f none a = none)
    (herr : ∀ s sn w e a, f (some (s, sn, w, some e)) a = some (s, sn, w, some e))
    (P : Schema → List String → List SchemaDecl → Prop) (l : List α)
    (hstep : ∀ a s sn w s1 sn1 w1, a ∈ l → P s sn w →
      f (some (s, sn, w, none)) a = some (s1, sn1, w1, none) → P s1 sn1 w1) :
    ∀ s sn w s1 sn1 w1, P s sn w →
      l.foldl f (some (s, sn, w, none)) = some (s1, sn1, w1, none) → P s1 sn1 w1 := by
  induction l with
  | nil =>
    intro s sn w s1 sn1 w1 hP h
    simp only [List.foldl_nil, Option.some.injEq, Prod.mk.injEq] at h
    obtain ⟨rfl, rfl, rfl, -⟩ := h
    exact hP
  | cons a rest ih =>
    intro s sn w s1 sn1 w1 hP h
    rw [List.foldl_cons] at h
    cases hf : f (some (s, sn, w, none)) a with
    | none =>
      rw [hf, foldl_absorb_none f hnone] at h
      exact absurd h (by simp)
    | some r =>
      obtain ⟨s2, sn2, w2, e2⟩ := r
      cases e2 with
      | some e =>
        rw [hf, foldl_absorb_err f herr] at h
        simp at h
      | none =>
        rw [hf] at h
        exact ih (fun b t tn tw t1 tn1 tw1 hb => hstep b t tn tw t1 tn1 tw1 (List.mem_cons_of_mem _ hb))
          s2 sn2 w2 s1 sn1 w1 (hstep a s sn w s2 sn2 w2 (List.mem_cons_self _ _) hP hf) h

theorem ownStep_none (L : Lib) (pp : File → Expr → Schema → List SchemaDecl → Option PropResult)
    (gofile : File) (fld : Field) : ownStep L pp gofile none fld = none := rfl

theorem ownStep_err (L : Lib) (pp : File → Expr → Schema → List SchemaDecl → Option PropResult)
    (gofile : File) (s : Schema) (sn : List String) (w : List SchemaDecl) (e : Err)
    (fld : Field) :
    ownStep L pp gofile (some (s, sn, w, some e)) fld = some (s, sn, w, some e) := rfl

theorem embedStep_none
    (pe : File → Schema → Expr → List String → List SchemaDecl → Option StructResult)
    (gofile : File) (fld : Field) : embedStep pe gofile none fld = none := rfl

theorem embedStep_err
    (pe : File → Schema → Expr → List String → List SchemaDecl → Option StructResult)
    (gofile : File) (s : Schema) (sn : List String) (w : List SchemaDecl) (e : Err)
    (fld : Field) :
    embedStep pe gofile (some (s, sn, w, some e)) fld = some (s, sn, w, some e) := rfl

/-- What a successful `storeField` leaves. -/
theorem storeField_ok (L : Lib) (fld : Field) (gnm nm : String) (schema ps : Schema)
    (seen : List String) (wl : List SchemaDecl) (s1 : Schema) (sn1 : List String)
    (w1 : List SchemaDecl)
    (h : storeField L fld gnm nm schema ps seen wl = (s1, sn1, w1, none)) :
    sn1 = seenAdd seen nm ∧ w1 = wl ∧ ∀ k, k ∈ s1.keys ↔ k = nm ∨ k ∈ schema.keys := by
  unfold storeField at h
  simp only at h
  split at h
  · simp at h
  · simp only [Prod.mk.injEq, and_true] at h
    obtain ⟨rfl, rfl, rfl⟩ := h
    refine ⟨rfl, rfl, fun k => ?_⟩
    rw [Schema.mem_keys_setProperty]
    unfold Schema.keys
    rw [foldl_applyTag_properties]

/-- A successful iteration over an own field either skipped the field or
mapped its type and stored the property. -/
theorem ownStep_ok (L : Lib) (pp : File → Expr → Schema → List SchemaDecl → Option PropResult)
    (gofile : File) (s : Schema) (sn : List String) (w : List SchemaDecl) (fld : Field)
    (s1 : Schema) (sn1 : List String) (w1 : List SchemaDecl)
    (h : ownStep L pp gofile (some (s, sn, w, none)) fld = some (s1, sn1, w1, none)) :
    (s1 = s ∧ sn1 = sn ∧ w1 = w) ∨
    ∃ gnm nm ps wl1, fld.names.head? = some (some gnm) ∧ isExported L gnm = true ∧
      fieldName L gnm fld.tag = .ok nm ∧
      pp gofile fld.type (s.property nm) w = some (ps, wl1, none) ∧
      storeField L fld gnm nm s ps sn wl1 = (s1, sn1, w1, none) := by
  unfold ownStep at h
  simp only at h
  split at h
  · rename_i gnm rest hn
    split at h
    · rename_i hex
      split at h
      · simp at h
      · rename_i nm hnm
        split at h
        · simp at h
        · simp at h
        · rename_i ps wl1 hpp
          right
          refine ⟨gnm, nm, ps, wl1, ?_, hex, hnm, hpp, ?_⟩
          · rw [hn]; rfl
          · exact Option.some.inj h
    · left
      simp only [Option.some.injEq, Prod.mk.injEq, and_true] at h
      obtain ⟨rfl, rfl, rfl⟩ := h
      exact ⟨rfl, rfl, rfl⟩
  · left
    simp only [Option.some.injEq, Prod.mk.injEq, and_true] at h
    obtain ⟨rfl, rfl, rfl⟩ := h
    exact ⟨rfl, rfl, rfl⟩

/-- A successful iteration over an embedded field either skipped a named
field or flattened the embedded struct and marked every key as seen. -/
theorem embedStep_ok
    (pe : File → Schema → Expr → List String → List SchemaDecl → Option StructResult)
    (gofile : File) (s : Schema) (sn : List String) (w : List SchemaDecl) (fld : Field)
    (s1 : Schema) (sn1 : List String) (w1 : List SchemaDecl)
    (h : embedStep pe gofile (some (s, sn, w, none)) fld = some (s1, sn1, w1, none)) :
    (fld.names ≠ [] ∧ s1 = s ∧ sn1 = sn ∧ w1 = w) ∨
    ∃ sn2, fld.names = [] ∧ pe gofile s fld.type sn w = some (s1, sn2, w1, none) ∧
      sn1 = s1.keys.foldl seenAdd sn2 := by
  unfold embedStep at h
  simp only at h
  split at h
  · rename_i hn
    split at h
    · simp at h
    · simp at h
    · rename_i s2 sn2 w2 hpe
      simp only [Option.some.injEq, Prod.mk.injEq, and_true] at h
      obtain ⟨rfl, rfl, rfl⟩ := h
      exact Or.inr ⟨sn2, hn, hpe, rfl⟩
  · rename_i hn
    simp only [Option.some.injEq, Prod.mk.injEq, and_true] at h
    obtain ⟨rfl, rfl, rfl⟩ := h
    exact Or.inl ⟨by rw [hn]; simp, rfl, rfl, rfl⟩

/-! ## Successful runs of the struct mapping -/

/-- A successful `parseStructType` on a struct with a field list ran the
loop over embedded structs, then the loop over own fields, then pruned. -/
theorem parseStructType_ok (L : Lib) (prog : Program) (fuel : Nat) (gofile : File)
    (s : Schema) (fields : List Field) (sn : List String) (w : List SchemaDecl)
    (s1 : Schema) (sn1 : List String) (w1 : List SchemaDecl)
    (h : parseStructType L prog (fuel + 1) gofile s (some fields) sn w
      = some (s1, sn1, w1, none)) :
    ∃ s2 sn2 w2 s3,
      fields.foldl (embedStep (parseEmbeddedStruct L prog fuel) gofile)
        (some (if (s.typed "object" "").properties.isNone
          then (s.typed "object" "").setProperties (some []) else s.typed "object" "",
          sn, w, none)) = some (s2, sn2, w2, none) ∧
      fields.foldl (ownStep L (parseProperty L prog fuel) gofile) (some (s2, sn2, w2, none))
        = some (s3, sn1, w1, none) ∧
      s1 = prune s3 sn1 := by
  simp only [parseStructType] at h
  split at h
  · simp at h
  · simp at h
  · rename_i s2 sn2 w2 hemb
    split at h
    · simp at h
    · simp at h
    · rename_i s3 sn3 w3 hown
      simp only [Option.some.injEq, Prod.mk.injEq, and_true] at h
      obtain ⟨rfl, rfl, rfl⟩ := h
      exact ⟨s2, sn2, w2, s3, hemb, hown, rfl⟩

/-- A successful `parseEmbeddedStruct` is a successful `parseStructType`
on the same schema and seen-set. -/
theorem parseEmbeddedStruct_ok (L : Lib) (prog : Program) (fuel : Nat) (gofile : File)
    (s : Schema) (expr : Expr) (sn : List String) (w : List SchemaDecl)
    (s1 : Schema) (sn1 : List String) (w1 : List SchemaDecl)
    (h : parseEmbeddedStruct L prog (fuel + 1) gofile s expr sn w
      = some (s1, sn1, w1, none)) :
    ∃ file st, parseStructType L prog fuel file s st sn w = some (s1, sn1, w1, none) := by
  unfold parseEmbeddedStruct at h
  split at h
  · split at h
    · simp at h
    · split at h
      · simp at h
      · split at h
        · exact ⟨_, _, h⟩
        · simp at h
  · split at h
    · simp at h
    · split at h
      · simp at h
      · split at h
        · exact ⟨_, _, h⟩
        · simp at h
  · simp at h

/-- The schema with which the loops of `parseStructType` start. -/
theorem keys_init (s : Schema) :
    (if (s.typed "object" "").properties.isNone
      then (s.typed "object" "").setProperties (some []) else s.typed "object" "").keys
      = s.keys := by
  split
  · rename_i hnone
    rw [Schema.properties_typed, Option.isNone_iff_eq_none] at hnone
    unfold Schema.keys
    rw [Schema.properties_setProperties, hnone]
    rfl
  · rfl

/-- A property of schema and seen-set that depends on the schema through
its keys only and that storing a field, marking all keys as seen and pruning
keep, holds after every struct mapping and every flattening of an embedded
struct that returns without error. -/
theorem struct_invariant (L : Lib) (prog : Program) (P : List String → List String → Prop)
    (hstore : ∀ fld gnm nm s ps sn w s1 sn1 w1, P s.keys sn →
      storeField L fld gnm nm s ps sn w = (s1, sn1, w1, none) → P s1.keys sn1)
    (hseen : ∀ ks sn, P ks sn → P ks (ks.foldl seenAdd sn))
    (hprune : ∀ s sn, P s.keys sn → P (prune s sn).keys sn) : ∀ fuel : Nat,
    (∀ gofile s tpe sn w s1 sn1 w1, P s.keys sn →
      parseStructType L prog fuel gofile s tpe sn w = some (s1, sn1, w1, none) →
      (P s1.keys sn1 ∧ (tpe.isSome → ∃ s3, P s3.keys sn1 ∧ s1 = prune s3 sn1))) ∧
    (∀ gofile s expr sn w s1 sn1 w1, P s.keys sn →
      parseEmbeddedStruct L prog fuel gofile s expr sn w = some (s1, sn1, w1, none) →
      P s1.keys sn1) := by
  intro fuel
  induction fuel with
  | zero =>
    constructor
    · intro gofile s tpe sn w s1 sn1 w1 _ h
      simp [parseStructType] at h
    · intro gofile s expr sn w s1 sn1 w1 _ h
      simp [parseEmbeddedStruct] at h
  | succ fuel ih =>
    constructor
    · intro gofile s tpe sn w s1 sn1 w1 hP h
      cases tpe with
      | none =>
        simp only [parseStructType, Option.some.injEq, Prod.mk.injEq, and_true] at h
        obtain ⟨rfl, rfl, rfl⟩ := h
        exact ⟨hP, by simp⟩
      | some fields =>
        obtain ⟨s2, sn2, w2, s3, hemb, hown, rfl⟩ :=
          parseStructType_ok L prog fuel gofile s fields sn w s1 sn1 w1 h
        have h2 : P s2.keys sn2 := by
          refine foldl_invariant (embedStep (parseEmbeddedStruct L prog fuel) gofile)
            (embedStep_none _ gofile) (fun t tn tw e a => embedStep_err _ gofile t tn tw e a)
            (fun t tn _ => P t.keys tn) fields ?_ _ sn w s2 sn2 w2
            (by show P _ sn; rw [keys_init]; exact hP) hemb
          intro fld t tn tw t1 tn1 tw1 _ hPt hstep
          rcases embedStep_ok _ gofile t tn tw fld t1 tn1 tw1 hstep with
            ⟨_, rfl, rfl, rfl⟩ | ⟨tn2, _, hpe, rfl⟩
          · exact hPt
          · exact hseen _ _ (ih.2 gofile t fld.type tn tw t1 tn2 tw1 hPt hpe)
        have h3 : P s3.keys sn1 := by
          refine foldl_invariant (ownStep L (parseProperty L prog fuel) gofile)
            (ownStep_none L _ gofile) (fun t tn tw e a => ownStep_err L _ gofile t tn tw e a)
            (fun t tn _ => P t.keys tn) fields ?_ s2 sn2 w2 s3 sn1 w1 h2 hown
          intro fld t tn tw t1 tn1 tw1 _ hPt hstep
          rcases ownStep_ok L _ gofile t tn tw fld t1 tn1 tw1 hstep with
            ⟨rfl, rfl, rfl⟩ | ⟨gnm, nm, ps, wl1, _, _, _, _, hst⟩
          · exact hPt
          · exact hstore fld gnm nm t ps tn wl1 t1 tn1 tw1 hPt hst
        exact ⟨hprune s3 sn1 h3, fun _ => ⟨s3, h3, rfl⟩⟩
    · intro gofile s expr sn w s1 sn1 w1 hP h
      obtain ⟨file, st, hst⟩ := parseEmbeddedStruct_ok L prog fuel gofile s expr sn w s1 sn1 w1 h
      exact (ih.1 file s st sn w s1 sn1 w1 hP hst).1

/-- The struct mapping keeps every seen name stored. -/
theorem seenStored_parseStructType (L : Lib) (prog : Program) (fuel : Nat) (gofile : File)
    (s : Schema) (tpe : Option (List Field)) (sn : List String) (w : List SchemaDecl)
    (s1 : Schema) (sn1 : List String) (w1 : List SchemaDecl) (hP : SeenStored s sn)
    (h : parseStructType L prog fuel gofile s tpe sn w = some (s1, sn1, w1, none)) :
    SeenStored s1 sn1 := by
  refine ((struct_invariant L prog (fun ks sn => ∀ k, k ∈ sn → k ∈ ks) ?_ ?_ ?_ fuel).1
    gofile s tpe sn w s1 sn1 w1 hP h).1
  · intro fld gnm nm t ps tn tw t1 tn1 tw1 hPt hst
    obtain ⟨rfl, rfl, hkeys⟩ := storeField_ok L fld gnm nm t ps tn tw t1 tn1 tw1 hst
    intro k hk
    rw [hkeys]
    rcases (mem_seenAdd tn nm k).1 hk with h1 | h1
    · exact Or.inl h1
    · exact Or.inr (hPt k h1)
  · intro ks tn hPt k hk
    rcases (mem_foldl_seenAdd _ _ k).1 hk with h4 | h4
    · exact hPt k h4
    · exact h4
  · intro t tn hPt k hk
    exact (mem_keys_prune t tn k).2 ⟨hPt k hk, hk⟩

/-! ## Single iterations -/

/-- A loop that ended without error ran its first iteration without error
and then the rest of the loop. -/
theorem foldl_cons_ok {α : Type} (f : Option StructResult → α → Option StructResult)
    (hnone : ∀ a, f none a = none)
    (herr : ∀ s sn w e a, f (some (s, sn, w, some e)) a = some (s, sn, w, some e))
    (a : α) (rest : List α) (s : Schema) (sn : List String) (w : List SchemaDecl)
    (s1 : Schema) (sn1 : List String) (w1 : List SchemaDecl)
    (h : (a :: rest).foldl f (some (s, sn, w, none)) = some (s1, sn1, w1, none)) :
    ∃ s2 sn2 w2, f (some (s, sn, w, none)) a = some (s2, sn2, w2, none) ∧
      rest.foldl f (some (s2, sn2, w2, none)) = some (s1, sn1, w1, none) := by
  rw [List.foldl_cons] at h
  cases hf : f (some (s, sn, w, none)) a with
  | none =>
    rw [hf, foldl_absorb_none f hnone] at h
    exact absurd h (by simp)
  | some r =>
    obtain ⟨s2, sn2, w2, e2⟩ := r
    cases e2 with
    | some e =>
      rw [hf, foldl_absorb_err f herr] at h
      simp at h
    | none =>
      rw [hf] at h
      exact ⟨s2, sn2, w2, rfl, h⟩

/-- The iteration over a field whose first name is exported and whose
property name is `nm`: on success the type was mapped onto the property
found under `nm` and the result stored. -/
theorem ownStep_named (L : Lib)
    (pp : File → Expr → Schema → List SchemaDecl → Option PropResult)
    (gofile : File) (s : Schema) (sn : List String) (w : List SchemaDecl) (fld : Field)
    (gnm : String) (rest : List (Option String)) (nm : String)
    (s1 : Schema) (sn1 : List String) (w1 : List SchemaDecl)
    (hn : fld.names = some gnm :: rest) (hex : isExported L gnm = true)
    (hnm : fieldName L gnm fld.tag = .ok nm)
    (h : ownStep L pp gofile (some (s, sn, w, none)) fld = some (s1, sn1, w1, none)) :
    ∃ ps wl1, pp gofile fld.type (s.property nm) w = some (ps, wl1, none) ∧
      storeField L fld gnm nm s ps sn wl1 = (s1, sn1, w1, none) := by
  unfold ownStep at h
  simp only [hn, hex, hnm, if_true] at h
  split at h
  · simp at h
  · simp at h
  · rename_i ps wl1 hpp
    exact ⟨ps, wl1, hpp, Option.some.inj h⟩

theorem mapGet?_mapSet_same {β : Type} (m : List (String × β)) (k : String) (v : β) :
    mapGet? (mapSet m k v) k = some v := by
  induction m with
  | nil => simp [mapSet, mapGet?]
  | cons e rest ih =>
    obtain ⟨k2, v2⟩ := e
    unfold mapSet
    by_cases h : k2 = k
    · simp [h, mapGet?]
    · simp [h, mapGet?, ih]

theorem mapGet?_mapSet_other {β : Type} (m : List (String × β)) (k k1 : String) (v : β)
    (hne : k1 ≠ k) : mapGet? (mapSet m k v) k1 = mapGet? m k1 := by
  induction m with
  | nil =>
    simp only [mapSet, mapGet?]
    rw [if_neg (Ne.symm hne)]
  | cons e rest ih =>
    obtain ⟨k2, v2⟩ := e
    unfold mapSet
    by_cases h : k2 = k
    · subst h
      simp only [if_true, mapGet?]
      rw [if_neg (Ne.symm hne), if_neg (Ne.symm hne)]
    · simp only [h, if_false, mapGet?, ih]

theorem Schema.property_setProperty_same (s : Schema) (nm : String) (ps : Schema) :
    (s.setProperty nm ps).property nm = ps := by
  unfold Schema.setProperty Schema.property
  simp only [Schema.properties_setProperties, mapGet?_mapSet_same, Option.getD_some]

theorem Schema.property_setProperty_other (s : Schema) (nm k : String) (ps : Schema)
    (hne : k ≠ nm) : (s.setProperty nm ps).property k = s.property k := by
  unfold Schema.setProperty Schema.property
  simp only [Schema.properties_setProperties, mapGet?_mapSet_other _ _ _ _ hne]
  cases s.properties <;> rfl

theorem keys_mapSet {β : Type} (m : List (String × β)) (k : String) (v : β) :
    (mapSet m k v).map Prod.fst
      = if k ∈ m.map Prod.fst then m.map Prod.fst else m.map Prod.fst ++ [k] := by
  induction m with
  | nil => simp [mapSet]
  | cons e rest ih =>
    obtain ⟨k2, v2⟩ := e
    unfold mapSet
    by_cases h : k2 = k
    · subst h; simp
    · have hne : ¬ k = k2 := fun heq => h heq.symm
      simp only [h, if_false, List.map_cons, ih, List.mem_cons, hne, false_or]
      split <;> simp

theorem nodup_keys_mapSet {β : Type} (m : List (String × β)) (k : String) (v : β)
    (h : (m.map Prod.fst).Nodup) : ((mapSet m k v).map Prod.fst).Nodup := by
  rw [keys_mapSet]
  split
  · exact h
  · rename_i hk
    rw [List.nodup_append]
    refine ⟨h, List.nodup_singleton k, ?_⟩
    intro a ha hb
    rw [List.mem_singleton] at hb
    exact hk (hb ▸ ha)

theorem Schema.nodup_keys_setProperty (s : Schema) (nm : String) (ps : Schema)
    (h : s.keys.Nodup) : (s.setProperty nm ps).keys.Nodup := by
  unfold Schema.setProperty Schema.keys
  rw [Schema.properties_setProperties]
  apply nodup_keys_mapSet
  unfold Schema.keys at h
  cases hp : s.properties with
  | none => simp
  | some props => rw [hp] at h; exact h

/-- What a successful `storeField` stores under `nm` and elsewhere. -/
theorem storeField_property (L : Lib) (fld : Field) (gnm nm : String) (schema ps : Schema)
    (seen : List String) (wl : List SchemaDecl) (s1 : Schema) (sn1 : List String)
    (w1 : List SchemaDecl)
    (h : storeField L fld gnm nm schema ps seen wl = (s1, sn1, w1, none)) :
    (schema.keys.Nodup → s1.keys.Nodup) ∧
    ∀ k, k ≠ nm → s1.property k = schema.property k := by
  unfold storeField at h
  simp only at h
  split at h
  · simp at h
  · simp only [Prod.mk.injEq, and_true] at h
    obtain ⟨rfl, rfl, rfl⟩ := h
    constructor
    · intro hnd
      apply Schema.nodup_keys_setProperty
      unfold Schema.keys
      rw [foldl_applyTag_properties]
      exact hnd
    · intro k hk
      rw [Schema.property_setProperty_other _ _ _ _ hk]
      unfold Schema.property
      rw [foldl_applyTag_properties]

/-- Once a name is seen and stored, the loop over own fields keeps it so. -/
theorem ownLoop_keeps (L : Lib)
    (pp : File → Expr → Schema → List SchemaDecl → Option PropResult) (gofile : File)
    (nm : String) (fields : List Field) (s : Schema) (sn : List String) (w : List SchemaDecl)
    (s1 : Schema) (sn1 : List String) (w1 : List SchemaDecl)
    (hP : nm ∈ sn ∧ nm ∈ s.keys)
    (h : fields.foldl (ownStep L pp gofile) (some (s, sn, w, none)) = some (s1, sn1, w1, none)) :
    nm ∈ sn1 ∧ nm ∈ s1.keys := by
  refine foldl_invariant (ownStep L pp gofile) (ownStep_none L pp gofile)
    (fun t tn tw e a => ownStep_err L pp gofile t tn tw e a)
    (fun t tn _ => nm ∈ tn ∧ nm ∈ t.keys) fields ?_ s sn w s1 sn1 w1 hP h
  intro fld t tn tw t1 tn1 tw1 _ hPt hstep
  rcases ownStep_ok L pp gofile t tn tw fld t1 tn1 tw1 hstep with
    ⟨rfl, rfl, rfl⟩ | ⟨gnm, nm1, ps, wl1, _, _, _, _, hst⟩
  · exact hPt
  · obtain ⟨rfl, rfl, hkeys⟩ := storeField_ok L fld gnm nm1 t ps tn wl1 t1 tn1 tw1 hst
    exact ⟨(mem_seenAdd tn nm1 nm).2 (Or.inr hPt.1), (hkeys nm).2 (Or.inr hPt.2)⟩

/-- After a loop over own fields that ended without error, the property
name of every exported field is seen and stored. -/
theorem ownLoop_stores (L : Lib)
    (pp : File → Expr → Schema → List SchemaDecl → Option PropResult) (gofile : File)
    (fld : Field) (gnm : String) (rest : List (Option String)) (nm : String)
    (hn : fld.names = some gnm :: rest) (hex : isExported L gnm = true)
    (hnm : fieldName L gnm fld.tag = .ok nm) :
    ∀ (fields : List Field), fld ∈ fields → ∀ s sn w s1 sn1 w1,
      fields.foldl (ownStep L pp gofile) (some (s, sn, w, none)) = some (s1, sn1, w1, none) →
      nm ∈ sn1 ∧ nm ∈ s1.keys := by
  intro fields
  induction fields with
  | nil => intro hmem; simp at hmem
  | cons a tail ih =>
    intro hmem s sn w s1 sn1 w1 h
    obtain ⟨s2, sn2, w2, hstep, hrest⟩ := foldl_cons_ok (ownStep L pp gofile)
      (ownStep_none L pp gofile) (fun t tn tw e b => ownStep_err L pp gofile t tn tw e b)
      a tail s sn w s1 sn1 w1 h
    rcases List.mem_cons.1 hmem with heq | htail
    · subst heq
      obtain ⟨ps, wl1, _, hst⟩ :=
        ownStep_named L pp gofile s sn w fld gnm rest nm s2 sn2 w2 hn hex hnm hstep
      obtain ⟨rfl, rfl, hkeys⟩ := storeField_ok L fld gnm nm s ps sn wl1 s2 sn2 w2 hst
      exact ownLoop_keeps L pp gofile nm tail s2 _ _ s1 sn1 w1
        ⟨(mem_seenAdd sn nm nm).2 (Or.inl rfl), (hkeys nm).2 (Or.inl rfl)⟩ hrest
    · exact ih htail s2 sn2 w2 s1 sn1 w1 hrest

/-! ## References -/

/-- A property of the schema that every iteration keeps, whether it ends
with an error or not, holds for whatever the loop returns. -/
theorem foldl_invariant_any {α : Type} (f : Option StructResult → α → Option StructResult)
    (hnone : ∀ a, f none a = none)
    (herr : ∀ s sn w e a, f (some (s, sn, w, some e)) a = some (s, sn, w, some e))
    (P : Schema → Prop) (l : List α)
    (hstep : ∀ a s sn w s1 sn1 w1 e1, P s →
      f (some (s, sn, w, none)) a = some (s1, sn1, w1, e1) → P s1) :
    ∀ s sn w s1 sn1 w1 e1, P s →
      l.foldl f (some (s, sn, w, none)) = some (s1, sn1, w1, e1) → P s1 := by
  induction l with
  | nil =>
    intro s sn w s1 sn1 w1 e1 hP h
    simp only [List.foldl_nil, Option.some.injEq, Prod.mk.injEq] at h
    obtain ⟨rfl, -, -, -⟩ := h
    exact hP
  | cons a rest ih =>
    intro s sn w s1 sn1 w1 e1 hP h
    rw [List.foldl_cons] at h
    cases hf : f (some (s, sn, w, none)) a with
    | none =>
      rw [hf, foldl_absorb_none f hnone] at h
      exact absurd h (by simp)
    | some r =>
      obtain ⟨s2, sn2, w2, e2⟩ := r
      have hP2 := hstep a s sn w s2 sn2 w2 e2 hP hf
      cases e2 with
      | some e =>
        rw [hf, foldl_absorb_err f herr] at h
        simp only [Option.some.injEq, Prod.mk.injEq] at h
        obtain ⟨rfl, -, -, -⟩ := h
        exact hP2
      | none =>
        rw [hf] at h
        exact ih s2 sn2 w2 s1 sn1 w1 e1 hP2 h

theorem abandon_props (schema : Schema) (nm : String) (ps : Schema) :
    (abandon schema nm ps).props = schema.props := by
  unfold abandon
  split
  · rfl
  · split <;> rfl

theorem setRequired_ref (owner : Schema) (nm : String) (b : Bool) :
    (setRequired owner nm b).props.ref = owner.props.ref := by
  unfold setRequired
  split
  · split <;> rfl
  · rfl

theorem applyTag_owner_ref (taggers : List Tagger) (nm : String) (st : Schema × Schema)
    (m : String × TagValue) : (applyTag taggers nm st m).1.props.ref = st.1.props.ref := by
  unfold applyTag
  split
  · rfl
  · split
    · split
      · exact setRequired_ref _ _ _
      · rfl
    · split
      · split <;> rfl
      · rfl

theorem foldl_applyTag_owner_ref (taggers : List Tagger) (nm : String)
    (ms : List (String × TagValue)) (st : Schema × Schema) :
    (ms.foldl (applyTag taggers nm) st).1.props.ref = st.1.props.ref := by
  induction ms generalizing st with
  | nil => rfl
  | cons m rest ih => rw [List.foldl_cons, ih, applyTag_owner_ref]

/-- Storing a field leaves the reference of the owning schema alone. -/
theorem storeField_owner_ref (L : Lib) (fld : Field) (gnm nm : String) (schema ps : Schema)
    (seen : List String) (wl : List SchemaDecl) :
    (storeField L fld gnm nm schema ps seen wl).1.props.ref = schema.props.ref := by
  unfold storeField
  simp only
  split
  · rw [abandon_props, foldl_applyTag_owner_ref]
  · simp only [Schema.setProperty, Schema.setProperties, Schema.props_mk,
      foldl_applyTag_owner_ref]

/-- An iteration over an own field leaves the reference of the owning
schema alone. -/
theorem ownStep_owner_ref (L : Lib)
    (pp : File → Expr → Schema → List SchemaDecl → Option PropResult)
    (gofile : File) (s : Schema) (sn : List String) (w : List SchemaDecl) (fld : Field)
    (s1 : Schema) (sn1 : List String) (w1 : List SchemaDecl) (e1 : Option Err)
    (h : ownStep L pp gofile (some (s, sn, w, none)) fld = some (s1, sn1, w1, e1)) :
    s1.props.ref = s.props.ref := by
  unfold ownStep at h
  simp only at h
  split at h
  · split at h
    · split at h
      · simp only [Option.some.injEq, Prod.mk.injEq] at h
        obtain ⟨rfl, -, -, -⟩ := h
        rfl
      · split at h
        · simp at h
        · simp only [Option.some.injEq, Prod.mk.injEq] at h
          obtain ⟨rfl, -, -, -⟩ := h
          rw [abandon_props]
        · have h1 := Option.some.inj h
          rw [← storeField_owner_ref L fld _ _ s _ sn _, h1]
    · simp only [Option.some.injEq, Prod.mk.injEq] at h
      obtain ⟨rfl, -, -, -⟩ := h
      rfl
  · simp only [Option.some.injEq, Prod.mk.injEq] at h
    obtain ⟨rfl, -, -, -⟩ := h
    rfl

/-- An iteration over an embedded field leaves the reference of the owning
schema alone when the flattening does. -/
theorem embedStep_owner_ref
    (pe : File → Schema → Expr → List String → List SchemaDecl → Option StructResult)
    (hpe : ∀ gofile s expr sn w s1 sn1 w1 e1, pe gofile s expr sn w = some (s1, sn1, w1, e1) →
      s1.props.ref = s.props.ref)
    (gofile : File) (s : Schema) (sn : List String) (w : List SchemaDecl) (fld : Field)
    (s1 : Schema) (sn1 : List String) (w1 : List SchemaDecl) (e1 : Option Err)
    (h : embedStep pe gofile (some (s, sn, w, none)) fld = some (s1, sn1, w1, e1)) :
    s1.props.ref = s.props.ref := by
  unfold embedStep at h
  simp only at h
  split at h
  · split at h
    · simp at h
    · rename_i hres
      simp only [Option.some.injEq, Prod.mk.injEq] at h
      obtain ⟨rfl, -, -, -⟩ := h
      exact hpe _ _ _ _ _ _ _ _ _ hres
    · rename_i hres
      simp only [Option.some.injEq, Prod.mk.injEq] at h
      obtain ⟨rfl, -, -, -⟩ := h
      exact hpe _ _ _ _ _ _ _ _ _ hres
  · simp only [Option.some.injEq, Prod.mk.injEq] at h
    obtain ⟨rfl, -, -, -⟩ := h
    rfl

theorem prune_props (s : Schema) (seen : List String) : (prune s seen).props = s.props := by
  unfold prune
  split <;> rfl

theorem init_ref (s : Schema) :
    (if (s.typed "object" "").properties.isNone
      then (s.typed "object" "").setProperties (some []) else s.typed "object" "").props.ref
      = s.props.ref := by
  split <;> rfl

/-- The struct mapping and the flattening of an embedded struct never touch
the reference of the schema they write to, whatever they return. -/
theorem struct_ref (L : Lib) (prog : Program) : ∀ fuel : Nat,
    (∀ gofile s tpe sn w s1 sn1 w1 e1,
      parseStructType L prog fuel gofile s tpe sn w = some (s1, sn1, w1, e1) →
      s1.props.ref = s.props.ref) ∧
    (∀ gofile s expr sn w s1 sn1 w1 e1,
      parseEmbeddedStruct L prog fuel gofile s expr sn w = some (s1, sn1, w1, e1) →
      s1.props.ref = s.props.ref) := by
  intro fuel
  induction fuel with
  | zero =>
    constructor
    · intro gofile s tpe sn w s1 sn1 w1 e1 h
      simp [parseStructType] at h
    · intro gofile s expr sn w s1 sn1 w1 e1 h
      simp [parseEmbeddedStruct] at h
  | succ fuel ih =>
    constructor
    · intro gofile s tpe sn w s1 sn1 w1 e1 h
      cases tpe with
      | none =>
        simp only [parseStructType, Option.some.injEq, Prod.mk.injEq] at h
        obtain ⟨rfl, -, -, -⟩ := h
        rfl
      | some fields =>
        simp only [parseStructType] at h
        have hemb : ∀ t tn tw te, fields.foldl
            (embedStep (parseEmbeddedStruct L prog fuel) gofile)
            (some (if (s.typed "object" "").properties.isNone
              then (s.typed "object" "").setProperties (some []) else s.typed "object" "",
              sn, w, none)) = some (t, tn, tw, te) → t.props.ref = s.props.ref := by
          intro t tn tw te ht
          exact foldl_invariant_any (embedStep (parseEmbeddedStruct L prog fuel) gofile)
            (embedStep_none _ gofile) (fun t tn tw e a => embedStep_err _ gofile t tn tw e a)
            (fun t => t.props.ref = s.props.ref) fields
            (fun a u un uw u1 un1 uw1 ue hu hstep =>
              (embedStep_owner_ref _ ih.2 gofile u un uw a u1 un1 uw1 ue hstep).trans hu)
            _ sn w t tn tw te (init_ref s) ht
        split at h
        · simp at h
        · rename_i t tn tw te ht
          simp only [Option.some.injEq, Prod.mk.injEq] at h
          obtain ⟨rfl, -, -, -⟩ := h
          exact hemb _ _ _ _ ht
        · rename_i t tn tw ht
          have hown : ∀ u un uw ue, fields.foldl
              (ownStep L (parseProperty L prog fuel) gofile) (some (t, tn, tw, none))
              = some (u, un, uw, ue) → u.props.ref = s.props.ref := by
            intro u un uw ue hu
            exact foldl_invariant_any (ownStep L (parseProperty L prog fuel) gofile)
              (ownStep_none L _ gofile) (fun t tn tw e a => ownStep_err L _ gofile t tn tw e a)
              (fun t => t.props.ref = s.props.ref) fields
              (fun a v vn vw v1 vn1 vw1 ve hv hstep =>
                (ownStep_owner_ref L _ gofile v vn vw a v1 vn1 vw1 ve hstep).trans hv)
              t tn tw u un uw ue (hemb _ _ _ _ ht) hu
          split at h
          · simp at h
          · rename_i u un uw ue hu
            simp only [Option.some.injEq, Prod.mk.injEq] at h
            obtain ⟨rfl, -, -, -⟩ := h
            exact hown _ _ _ _ hu
          · rename_i u un uw hu
            simp only [Option.some.injEq, Prod.mk.injEq] at h
            obtain ⟨rfl, -, -, -⟩ := h
            rw [prune_props]
            exact hown _ _ _ _ hu
    · intro gofile s expr sn w s1 sn1 w1 e1 h
      unfold parseEmbeddedStruct at h
      split at h
      · split at h
        · simp only [Option.some.injEq, Prod.mk.injEq] at h
          obtain ⟨rfl, -, -, -⟩ := h
          rfl
        · split at h
          · simp only [Option.some.injEq, Prod.mk.injEq] at h
            obtain ⟨rfl, -, -, -⟩ := h
            rfl
          · split at h
            · exact ih.1 _ _ _ _ _ _ _ _ _ h
            · simp only [Option.some.injEq, Prod.mk.injEq] at h
              obtain ⟨rfl, -, -, -⟩ := h
              rfl
      · split at h
        · simp only [Option.some.injEq, Prod.mk.injEq] at h
          obtain ⟨rfl, -, -, -⟩ := h
          rfl
        · split at h
          · simp only [Option.some.injEq, Prod.mk.injEq] at h
            obtain ⟨rfl, -, -, -⟩ := h
            rfl
          · split at h
            · exact ih.1 _ _ _ _ _ _ _ _ _ h
            · simp only [Option.some.injEq, Prod.mk.injEq] at h
              obtain ⟨rfl, -, -, -⟩ := h
              rfl
      · simp only [Option.some.injEq, Prod.mk.injEq] at h
        obtain ⟨rfl, -, -, -⟩ := h
        rfl

theorem refStep_swagger (L : Lib) (typeName : String) (prop : Schema) :
    RefStep prop (swaggerSchemaForType L typeName prop).1 := by
  unfold swaggerSchemaForType
  split
  · exact Or.inl rfl
  · exact Or.inl rfl

theorem refStep_refer (L : Lib) (sd : SchemaDecl) (prop : Schema) (wl : List SchemaDecl) :
    RefStep prop (refer L sd prop wl).1 := by
  unfold refer
  simp only
  split
  · exact Or.inl rfl
  · exact Or.inr ⟨_, rfl⟩

theorem refStep_refer_eq (L : Lib) (sd : SchemaDecl) (prop : Schema) (wl : List SchemaDecl)
    (ps : Schema) (wl1 : List SchemaDecl) (err : Option Err)
    (h : refer L sd prop wl = (ps, wl1, err)) : RefStep prop ps := by
  have h2 := refStep_refer L sd prop wl
  rw [h] at h2
  exact h2

/-- The type mappings either leave the reference of the target as it was or
set the reference and nothing else, whatever they return. -/
theorem refStep_fuel (L : Lib) (prog : Program) : ∀ fuel : Nat,
    (∀ gofile e prop wl ps wl1 err,
      parseProperty L prog fuel gofile e prop wl = some (ps, wl1, err) → RefStep prop ps) ∧
    (∀ gofile x sel prop wl ps wl1 err,
      typeForSelector L prog fuel gofile x sel prop wl = some (ps, wl1, err) →
      RefStep prop ps) ∧
    (∀ pkg name prop wl ps wl1 err,
      parseSelectorProperty L prog fuel pkg name prop wl = some (ps, wl1, err) →
      RefStep prop ps) := by
  intro fuel
  induction fuel with
  | zero =>
    refine ⟨?_, ?_, ?_⟩
    · intro gofile e prop wl ps wl1 err h
      simp [parseProperty] at h
    · intro gofile x sel prop wl ps wl1 err h
      simp [typeForSelector] at h
    · intro pkg name prop wl ps wl1 err h
      simp [parseSelectorProperty] at h
  | succ fuel ih =>
    refine ⟨?_, ?_, ?_⟩
    · intro gofile e prop wl ps wl1 err h
      cases e with
      | ident name hasObj =>
        rw [parseProperty.eq_2] at h
        split at h
        · simp only [Option.some.injEq, Prod.mk.injEq] at h
          obtain ⟨rfl, -, -⟩ := h
          exact refStep_swagger L name prop
        · split at h
          · simp only [Option.some.injEq, Prod.mk.injEq] at h
            obtain ⟨rfl, -, -⟩ := h
            exact refStep_swagger L name prop
          · split at h
            · split at h
              · simp only [Option.some.injEq, Prod.mk.injEq] at h
                obtain ⟨rfl, -, -⟩ := h
                exact Or.inl rfl
              · exact ih.1 _ _ _ _ _ _ _ h
            · split at h
              · simp only [Option.some.injEq, Prod.mk.injEq] at h
                obtain ⟨rfl, -, -⟩ := h
                exact Or.inl rfl
              · split at h
                · exact refStep_refer_eq L _ prop wl ps wl1 err (Option.some.inj h)
                · exact ih.1 _ _ _ _ _ _ _ h
      | star x =>
        rw [parseProperty.eq_3] at h
        split at h
        · simp at h
        · rename_i heq
          simp only [Option.some.injEq, Prod.mk.injEq] at h
          obtain ⟨rfl, -, -⟩ := h
          exact ih.1 _ _ _ _ _ _ _ heq
      | array elt =>
        rw [parseProperty.eq_4] at h
        split at h
        · simp at h
        · simp only [Option.some.injEq, Prod.mk.injEq] at h
          obtain ⟨rfl, -, -⟩ := h
          exact Or.inl rfl
      | structType fields =>
        rw [parseProperty.eq_5] at h
        split at h
        · simp at h
        · rename_i heq
          simp only [Option.some.injEq, Prod.mk.injEq] at h
          obtain ⟨rfl, -, -⟩ := h
          exact Or.inl ((struct_ref L prog fuel).1 _ _ _ _ _ _ _ _ _ heq)
      | selector x sel =>
        rw [parseProperty.eq_6] at h
        exact ih.2.1 _ _ _ _ _ _ _ _ h
      | mapType key value =>
        cases key with
        | ident keyName keyObj =>
          rw [parseProperty.eq_7] at h
          split at h
          · simp only at h
            split at h
            · simp at h
            · simp only [Option.some.injEq, Prod.mk.injEq] at h
              obtain ⟨rfl, -, -⟩ := h
              exact Or.inl rfl
          · simp only [Option.some.injEq, Prod.mk.injEq] at h
            obtain ⟨rfl, -, -⟩ := h
            exact Or.inl rfl
        | _ =>
          simp only [parseProperty, Option.some.injEq, Prod.mk.injEq] at h
          obtain ⟨rfl, -, -⟩ := h
          exact Or.inl rfl
      | interfaceType =>
        simp only [parseProperty, Option.some.injEq, Prod.mk.injEq] at h
        obtain ⟨rfl, -, -⟩ := h
        exact Or.inl rfl
      | other kind =>
        simp only [parseProperty, Option.some.injEq, Prod.mk.injEq] at h
        obtain ⟨rfl, -, -⟩ := h
        exact Or.inl rfl
    · intro gofile x sel prop wl ps wl1 err h
      rw [typeForSelector.eq_2] at h
      split at h
      · simp only [Option.some.injEq, Prod.mk.injEq] at h
        obtain ⟨rfl, -, -⟩ := h
        exact Or.inl rfl
      · exact ih.2.2 _ _ _ _ _ _ _ h
    · intro pkg name prop wl ps wl1 err h
      rw [parseSelectorProperty.eq_2] at h
      split at h
      · simp only [Option.some.injEq, Prod.mk.injEq] at h
        obtain ⟨rfl, -, -⟩ := h
        exact refStep_swagger L name prop
      · split at h
        · split at h <;>
          · simp only [Option.some.injEq, Prod.mk.injEq] at h
            obtain ⟨rfl, -, -⟩ := h
            exact Or.inl rfl
        · split at h
          · split at h
            · simp at h
            · simp only [Option.some.injEq, Prod.mk.injEq] at h
              obtain ⟨rfl, -, -⟩ := h
              exact Or.inl rfl
          · split at h
            · simp at h
            · simp only [Option.some.injEq, Prod.mk.injEq] at h
              obtain ⟨rfl, -, -⟩ := h
              exact Or.inl rfl
          · simp only [Option.some.injEq, Prod.mk.injEq] at h
            obtain ⟨rfl, -, -⟩ := h
            exact Or.inl rfl
          · exact refStep_refer_eq L _ prop wl ps wl1 err (Option.some.inj h)
          · exact ih.2.2 _ _ _ _ _ _ _ h
          · exact ih.2.1 _ _ _ _ _ _ _ _ h
          · simp only [Option.some.injEq, Prod.mk.injEq] at h
            obtain ⟨rfl, -, -⟩ := h
            exact refStep_swagger L name prop

theorem validate_ref (st : Setter) (v : TagValue) (p : SchemaProps) :
    (validate st v p).ref = p.ref := by
  cases st <;> cases v <;> rfl

theorem applyTag_property_ref (taggers : List Tagger) (nm : String) (st : Schema × Schema)
    (m : String × TagValue) : (applyTag taggers nm st m).2.props.ref = st.2.props.ref := by
  unfold applyTag
  split
  · rfl
  · split
    · split <;> rfl
    · split
      · split <;> rfl
      · exact validate_ref _ _ _

theorem foldl_applyTag_property_ref (taggers : List Tagger) (nm : String)
    (ms : List (String × TagValue)) (st : Schema × Schema) :
    (ms.foldl (applyTag taggers nm) st).2.props.ref = st.2.props.ref := by
  induction ms generalizing st with
  | nil => rfl
  | cons m rest ih => rw [List.foldl_cons, ih, applyTag_property_ref]

theorem findInSpecs_mem (L : Lib) (gd : GenDecl) (typeName : String) (specs : List Spec)
    (ts : TypeSpec) (h : findInSpecs L gd typeName specs = some ts) :
    Spec.typeSpec ts ∈ specs := by
  induction specs with
  | nil => simp [findInSpecs] at h
  | cons sp rest ih =>
    cases sp with
    | typeSpec ts1 =>
      unfold findInSpecs at h
      split at h
      · simp only [Option.some.injEq] at h
        subst h
        exact List.mem_cons_self _ _
      · exact List.mem_cons_of_mem _ (ih h)
    | other =>
      unfold findInSpecs at h
      exact List.mem_cons_of_mem _ (ih h)

theorem findInDecls_mem (L : Lib) (typeName : String) (decls : List Decl)
    (gd : GenDecl) (ts : TypeSpec) (h : findInDecls L typeName decls = some (gd, ts)) :
    Decl.gen gd ∈ decls ∧ Spec.typeSpec ts ∈ gd.specs := by
  induction decls with
  | nil => simp [findInDecls] at h
  | cons d rest ih =>
    cases d with
    | gen gd1 =>
      unfold findInDecls at h
      split at h
      · rename_i ts1 hspec
        simp only [Option.some.injEq, Prod.mk.injEq] at h
        obtain ⟨rfl, rfl⟩ := h
        exact ⟨List.mem_cons_self _ _, findInSpecs_mem L _ typeName _ _ hspec⟩
      · exact ⟨List.mem_cons_of_mem _ (ih h).1, (ih h).2⟩
    | other =>
      unfold findInDecls at h
      exact ⟨List.mem_cons_of_mem _ (ih h).1, (ih h).2⟩

theorem findInFiles_mem (L : Lib) (typeName : String) (files : List File)
    (file : File) (gd : GenDecl) (ts : TypeSpec)
    (h : findInFiles L typeName files = some (file, gd, ts)) :
    file ∈ files ∧ Decl.gen gd ∈ file.decls ∧ Spec.typeSpec ts ∈ gd.specs := by
  induction files with
  | nil => simp [findInFiles] at h
  | cons f rest ih =>
    unfold findInFiles at h
    split at h
    · rename_i gd1 ts1 hdecl
      simp only [Option.some.injEq, Prod.mk.injEq] at h
      obtain ⟨rfl, rfl, rfl⟩ := h
      exact ⟨List.mem_cons_self _ _, findInDecls_mem L typeName _ _ _ hdecl⟩
    · exact ⟨List.mem_cons_of_mem _ (ih h).1, (ih h).2⟩

/-- What `findSourceFile` returns is a type spec of a declaration of a file
of the package. -/
theorem findSourceFile_mem (L : Lib) (pkg : PackageInfo) (typeName : String)
    (file : File) (gd : GenDecl) (ts : TypeSpec)
    (h : findSourceFile L pkg typeName = .ok (file, gd, ts)) :
    file ∈ pkg.files ∧ Decl.gen gd ∈ file.decls ∧ Spec.typeSpec ts ∈ gd.specs := by
  unfold findSourceFile at h
  split at h
  · rename_i r hr
    simp only [Except.ok.injEq] at h
    subst h
    exact findInFiles_mem L typeName _ _ _ _ hr
  · simp at h

theorem packageForFile_mem (prog : Program) (gofile : File) (pkg : PackageInfo)
    (h : packageForFile prog gofile = .ok pkg) : pkg ∈ prog.allPackages := by
  unfold packageForFile at h
  split at h
  · rename_i p hp
    simp only [Except.ok.injEq] at h
    subst h
    exact List.mem_of_find?_eq_some hp
  · simp at h

theorem packageForSelector_mem (L : Lib) (prog : Program) (gofile : File) (expr : Expr)
    (pkg : PackageInfo) (h : packageForSelector L prog gofile expr = .ok pkg) :
    pkg ∈ prog.allPackages := by
  unfold packageForSelector at h
  split at h
  · simp only at h
    split at h
    · simp at h
    · split at h
      · simp at h
      · rename_i p hp
        simp only [Except.ok.injEq] at h
        subst h
        unfold Program.package at hp
        exact List.mem_of_find?_eq_some hp
  · simp at h

/-- In a program whose struct types have field lists, the type spec that
`findSourceFile` returns has one. -/
theorem fieldListsPresent_found (L : Lib) (prog : Program) (pkg : PackageInfo)
    (typeName : String) (file : File) (gd : GenDecl) (ts : TypeSpec)
    (hwf : prog.fieldListsPresent = true) (hpkg : pkg ∈ prog.allPackages)
    (h : findSourceFile L pkg typeName = .ok (file, gd, ts)) : ts.hasFieldList = true := by
  obtain ⟨hfile, hgd, hts⟩ := findSourceFile_mem L pkg typeName file gd ts h
  unfold Program.fieldListsPresent at hwf
  rw [List.all_eq_true] at hwf
  have h1 := hwf pkg hpkg
  rw [List.all_eq_true] at h1
  have h2 := h1 file hfile
  rw [List.all_eq_true] at h2
  have h3 := h2 (.gen gd) hgd
  simp only at h3
  rw [List.all_eq_true] at h3
  exact h3 (.typeSpec ts) hts

/-- A successful flattening resolved the embedded field to a struct type
and mapped that struct type. -/
theorem parseEmbeddedStruct_resolved (L : Lib) (prog : Program) (fuel : Nat) (gofile : File)
    (s : Schema) (expr : Expr) (sn : List String) (w : List SchemaDecl)
    (s1 : Schema) (sn1 : List String) (w1 : List SchemaDecl)
    (h : parseEmbeddedStruct L prog (fuel + 1) gofile s expr sn w
      = some (s1, sn1, w1, none)) :
    ∃ file st, resolveEmbedded L prog gofile expr = some (file, st) ∧
      (prog.fieldListsPresent = true → st.isSome = true) ∧
      parseStructType L prog fuel file s st sn w = some (s1, sn1, w1, none) := by
  unfold parseEmbeddedStruct at h
  unfold resolveEmbedded
  split at h
  · split at h
    · simp at h
    · rename_i pkg hpkg
      split at h
      · simp at h
      · rename_i file gd ts hfind
        split at h
        · rename_i st htype
          refine ⟨file, st, ?_, ?_, h⟩
          · simp only [hpkg, hfind, htype]
          · intro hwf
            have := fieldListsPresent_found L prog pkg _ file gd ts hwf
              (packageForFile_mem prog gofile pkg hpkg) hfind
            unfold TypeSpec.hasFieldList at this
            rw [htype] at this
            cases st with
            | none => simp at this
            | some fs => rfl
        · simp at h
  · split at h
    · simp at h
    · rename_i pkg hpkg
      split at h
      · simp at h
      · rename_i file gd ts hfind
        split at h
        · rename_i st htype
          refine ⟨file, st, ?_, ?_, h⟩
          · simp only [hpkg, hfind, htype]
          · intro hwf
            have := fieldListsPresent_found L prog pkg _ file gd ts hwf
              (packageForSelector_mem L prog gofile _ pkg hpkg) hfind
            unfold TypeSpec.hasFieldList at this
            rw [htype] at this
            cases st with
            | none => simp at this
            | some fs => rfl
        · simp at h
  · simp at h

/-- The flattening of an embedded struct keeps every seen name stored. -/
theorem seenStored_parseEmbeddedStruct (L : Lib) (prog : Program) (fuel : Nat) (gofile : File)
    (s : Schema) (expr : Expr) (sn : List String) (w : List SchemaDecl)
    (s1 : Schema) (sn1 : List String) (w1 : List SchemaDecl) (hP : SeenStored s sn)
    (h : parseEmbeddedStruct L prog fuel gofile s expr sn w = some (s1, sn1, w1, none)) :
    SeenStored s1 sn1 := by
  cases fuel with
  | zero => simp [parseEmbeddedStruct] at h
  | succ fuel =>
    obtain ⟨file, st, hst⟩ := parseEmbeddedStruct_ok L prog fuel gofile s expr sn w s1 sn1 w1 h
    exact seenStored_parseStructType L prog fuel file s st sn w s1 sn1 w1 hP hst

/-- After a struct mapping of a struct type with a field list, every key of
the property map is seen. -/
theorem keys_seen (L : Lib) (prog : Program) (fuel : Nat) (gofile : File)
    (s : Schema) (fields : List Field) (sn : List String) (w : List SchemaDecl)
    (s1 : Schema) (sn1 : List String) (w1 : List SchemaDecl)
    (h : parseStructType L prog fuel gofile s (some fields) sn w = some (s1, sn1, w1, none)) :
    ∀ k, k ∈ s1.keys → k ∈ sn1 := by
  cases fuel with
  | zero => simp [parseStructType] at h
  | succ fuel =>
    obtain ⟨s2, sn2, w2, s3, _, _, rfl⟩ :=
      parseStructType_ok L prog fuel gofile s fields sn w s1 sn1 w1 h
    intro k hk
    exact ((mem_keys_prune s3 sn1 k).1 hk).2

theorem ownKeys_cons (L : Lib) (fld : Field) (rest : List Field) :
    ownKeys L (fld :: rest) =
      match fld.names with
      | some gnm :: _ =>
        if isExported L gnm then
          match fieldName L gnm fld.tag with
          | .ok nm => nm :: ownKeys L rest
          | .error _ => ownKeys L rest
        else ownKeys L rest
      | _ => ownKeys L rest := rfl

/-- The seen-set after the loop over own fields: the names seen before and
the property names of the exported fields. -/
theorem ownLoop_seen (L : Lib)
    (pp : File → Expr → Schema → List SchemaDecl → Option PropResult) (gofile : File) :
    ∀ (fields : List Field) s sn w s1 sn1 w1,
      fields.foldl (ownStep L pp gofile) (some (s, sn, w, none)) = some (s1, sn1, w1, none) →
      ∀ k, k ∈ sn1 ↔ k ∈ sn ∨ k ∈ ownKeys L fields := by
  intro fields
  induction fields with
  | nil =>
    intro s sn w s1 sn1 w1 h k
    simp only [List.foldl_nil, Option.some.injEq, Prod.mk.injEq, and_true] at h
    obtain ⟨-, rfl, -⟩ := h
    simp [ownKeys]
  | cons fld rest ih =>
    intro s sn w s1 sn1 w1 h k
    obtain ⟨s2, sn2, w2, hstep, hrest⟩ := foldl_cons_ok (ownStep L pp gofile)
      (ownStep_none L pp gofile) (fun t tn tw e b => ownStep_err L pp gofile t tn tw e b)
      fld rest s sn w s1 sn1 w1 h
    rw [ih s2 sn2 w2 s1 sn1 w1 hrest k, ownKeys_cons]
    cases hn : fld.names with
    | nil =>
      have : sn2 = sn := by
        unfold ownStep at hstep
        simp only [hn, Option.some.injEq, Prod.mk.injEq, and_true] at hstep
        exact hstep.2.1.symm
      rw [this]
    | cons n0 ns =>
      cases n0 with
      | none =>
        have : sn2 = sn := by
          unfold ownStep at hstep
          simp only [hn, Option.some.injEq, Prod.mk.injEq, and_true] at hstep
          exact hstep.2.1.symm
        rw [this]
      | some gnm =>
        simp only
        by_cases hex : isExported L gnm = true
        · rw [if_pos hex]
          cases hnm : fieldName L gnm fld.tag with
          | error e =>
            unfold ownStep at hstep
            simp [hn, hex, hnm] at hstep
          | ok nm =>
            obtain ⟨ps, wl1, _, hst⟩ :=
              ownStep_named L pp gofile s sn w fld gnm ns nm s2 sn2 w2 hn hex hnm hstep
            obtain ⟨rfl, -, -⟩ := storeField_ok L fld gnm nm s ps sn wl1 s2 sn2 w2 hst
            simp only [mem_seenAdd, List.mem_cons]
            tauto
        · rw [if_neg hex]
          have : sn2 = sn := by
            unfold ownStep at hstep
            simp only [hn, hex, if_false, Bool.false_eq_true, Option.some.injEq,
              Prod.mk.injEq, and_true] at hstep
            exact hstep.2.1.symm
          rw [this]

/-- The seen-set after the loop over embedded structs, given what one
flattening does to it: the names seen before and the names the embedded
structs write. -/
theorem embedLoop_seen
    (pe : File → Schema → Expr → List String → List SchemaDecl → Option StructResult)
    (ek : File → Expr → List String) (gofile : File)
    (hpe : ∀ s expr sn w s1 sn1 w1, SeenStored s sn →
      pe gofile s expr sn w = some (s1, sn1, w1, none) →
      SeenStored s1 sn1 ∧ (∀ k, k ∈ s1.keys → k ∈ sn1) ∧
        ∀ k, k ∈ sn1 ↔ k ∈ sn ∨ k ∈ ek gofile expr) :
    ∀ (fields : List Field) s sn w s2 sn2 w2, SeenStored s sn →
      fields.foldl (embedStep pe gofile) (some (s, sn, w, none)) = some (s2, sn2, w2, none) →
      SeenStored s2 sn2 ∧
      ∀ k, k ∈ sn2 ↔ k ∈ sn ∨
        k ∈ (fields.filter (fun fld => fld.names.isEmpty)).flatMap
          (fun fld => ek gofile fld.type) := by
  intro fields
  induction fields with
  | nil =>
    intro s sn w s2 sn2 w2 hP h
    simp only [List.foldl_nil, Option.some.injEq, Prod.mk.injEq, and_true] at h
    obtain ⟨rfl, rfl, -⟩ := h
    exact ⟨hP, fun k => by simp⟩
  | cons fld rest ih =>
    intro s sn w s2 sn2 w2 hP h
    obtain ⟨t, tn, tw, hstep, hrest⟩ := foldl_cons_ok (embedStep pe gofile)
      (embedStep_none pe gofile) (fun u un uw e b => embedStep_err pe gofile u un uw e b)
      fld rest s sn w s2 sn2 w2 h
    rcases embedStep_ok pe gofile s sn w fld t tn tw hstep with
      ⟨hne, rfl, rfl, rfl⟩ | ⟨tn2, hnil, hflat, rfl⟩
    · have hfilter : (fld :: rest).filter (fun fld => fld.names.isEmpty)
          = rest.filter (fun fld => fld.names.isEmpty) := by
        apply List.filter_cons_of_neg
        cases hn : fld.names with
        | nil => exact absurd hn hne
        | cons a l => simp
      rw [hfilter]
      exact ih t tn tw s2 sn2 w2 hP hrest
    · obtain ⟨hP1, hkeys, hseen⟩ := hpe s fld.type sn w t tn2 tw hP hflat
      have hmark : ∀ k, k ∈ t.keys.foldl seenAdd tn2 ↔ k ∈ tn2 := by
        intro k
        rw [mem_foldl_seenAdd]
        constructor
        · rintro (h1 | h1)
          · exact h1
          · exact hkeys k h1
        · exact Or.inl
      have hP2 : SeenStored t (t.keys.foldl seenAdd tn2) := by
        intro k hk
        exact hP1 k ((hmark k).1 hk)
      obtain ⟨hP3, hrec⟩ := ih t _ tw s2 sn2 w2 hP2 hrest
      refine ⟨hP3, fun k => ?_⟩
      have hfilter : (fld :: rest).filter (fun fld => fld.names.isEmpty)
          = fld :: rest.filter (fun fld => fld.names.isEmpty) := by
        apply List.filter_cons_of_pos
        rw [hnil]
        rfl
      rw [hfilter, hrec k, hmark k, hseen k, List.flatMap_cons, List.mem_append]
      tauto

/-- In a program whose struct types have field lists, the seen-set after a
struct mapping holds the names seen before and the names the struct type
writes; the same for the flattening of an embedded struct, after which
every key of the property map is seen. -/
theorem seen_fuel (L : Lib) (prog : Program) (hwf : prog.fieldListsPresent = true) :
    ∀ fuel : Nat,
    (∀ gofile s tpe sn w s1 sn1 w1, SeenStored s sn →
      parseStructType L prog fuel gofile s tpe sn w = some (s1, sn1, w1, none) →
      ∀ k, k ∈ sn1 ↔ k ∈ sn ∨ k ∈ writtenKeys L prog fuel gofile tpe) ∧
    (∀ gofile s expr sn w s1 sn1 w1, SeenStored s sn →
      parseEmbeddedStruct L prog fuel gofile s expr sn w = some (s1, sn1, w1, none) →
      (∀ k, k ∈ s1.keys → k ∈ sn1) ∧
        ∀ k, k ∈ sn1 ↔ k ∈ sn ∨ k ∈ embeddedKeys L prog fuel gofile expr) := by
  intro fuel
  induction fuel with
  | zero =>
    constructor
    · intro gofile s tpe sn w s1 sn1 w1 _ h
      simp [parseStructType] at h
    · intro gofile s expr sn w s1 sn1 w1 _ h
      simp [parseEmbeddedStruct] at h
  | succ fuel ih =>
    constructor
    · intro gofile s tpe sn w s1 sn1 w1 hP h
      cases tpe with
      | none =>
        simp only [parseStructType, Option.some.injEq, Prod.mk.injEq, and_true] at h
        obtain ⟨-, rfl, -⟩ := h
        intro k
        simp [writtenKeys]
      | some fields =>
        obtain ⟨s2, sn2, w2, s3, hemb, hown, rfl⟩ :=
          parseStructType_ok L prog fuel gofile s fields sn w s1 sn1 w1 h
        have hP0 : SeenStored (if (s.typed "object" "").properties.isNone
            then (s.typed "object" "").setProperties (some []) else s.typed "object" "") sn := by
          intro k hk
          show k ∈ Schema.keys _
          rw [keys_init]
          exact hP k hk
        obtain ⟨_, hseen2⟩ := embedLoop_seen (parseEmbeddedStruct L prog fuel)
          (embeddedKeys L prog fuel) gofile
          (fun t expr tn tw t1 tn1 tw1 hPt hflat =>
            ⟨seenStored_parseEmbeddedStruct L prog fuel gofile t expr tn tw t1 tn1 tw1 hPt hflat,
              ih.2 gofile t expr tn tw t1 tn1 tw1 hPt hflat⟩)
          fields _ sn w s2 sn2 w2 hP0 hemb
        have hseen3 := ownLoop_seen L (parseProperty L prog fuel) gofile fields
          s2 sn2 w2 s3 sn1 w1 hown
        intro k
        rw [hseen3 k, hseen2 k, writtenKeys, List.mem_append]
        tauto
    · intro gofile s expr sn w s1 sn1 w1 hP h
      obtain ⟨file, st, hres, hsome, hst⟩ :=
        parseEmbeddedStruct_resolved L prog fuel gofile s expr sn w s1 sn1 w1 h
      have hfields := hsome hwf
      cases st with
      | none => simp at hfields
      | some fs =>
        refine ⟨keys_seen L prog fuel file s fs sn w s1 sn1 w1 hst, fun k => ?_⟩
        rw [ih.1 file s (some fs) sn w s1 sn1 w1 hP hst k, embeddedKeys, hres]

/-! ## Names -/

theorem firstCapture_cons (L : Lib) (ln : String) (rest : List String) :
    firstCapture L.rxModelOverride id (ln :: rest) =
      match modelCapture L ln with
      | some c => some c
      | none => firstCapture L.rxModelOverride id rest := by
  unfold modelCapture
  rw [firstCapture]
  split
  · rename_i m0 m1 ms heq
    simp only [heq, id]
    split <;> rfl
  · rename_i hno
    split
    · rename_i c hc
      simp at hc
    · rfl

theorem firstCapture_none (L : Lib) (lines : List String)
    (h : ∀ l, l ∈ lines → modelCapture L l = none) :
    firstCapture L.rxModelOverride id lines = none := by
  induction lines with
  | nil => rfl
  | cons ln rest ih =>
    rw [firstCapture_cons, h ln (List.mem_cons_self _ _)]
    exact ih (fun l hl => h l (List.mem_cons_of_mem _ hl))

theorem firstCapture_first (L : Lib) (pre : List String) (ln : String) (post : List String)
    (c : String) (hpre : ∀ l, l ∈ pre → modelCapture L l = none)
    (hln : modelCapture L ln = some c) :
    firstCapture L.rxModelOverride id (pre ++ ln :: post) = some c := by
  induction pre with
  | nil => rw [List.nil_append, firstCapture_cons, hln]
  | cons l rest ih =>
    rw [List.cons_append, firstCapture_cons, hpre l (List.mem_cons_self _ _)]
    exact ih (fun l1 hl => hpre l1 (List.mem_cons_of_mem _ hl))

/-! ## The first match of `findSourceFile` -/

theorem findInSpecs_none_iff (L : Lib) (gd : GenDecl) (typeName : String) (specs : List Spec) :
    findInSpecs L gd typeName specs = none ↔ noMatchSpecs L typeName gd specs := by
  induction specs with
  | nil => simp [findInSpecs, noMatchSpecs]
  | cons sp rest ih =>
    cases sp with
    | typeSpec ts1 =>
      rw [findInSpecs]
      by_cases hm : strfmtName L gd.doc = some typeName ∨ ts1.name = typeName
      · rw [if_pos hm]
        constructor
        · intro h; simp at h
        · intro h
          exact absurd hm (h ts1 (List.mem_cons_self _ _))
      · rw [if_neg hm, ih]
        constructor
        · intro h ts hts
          rcases List.mem_cons.1 hts with heq | hmem
          · injection heq with heq
            subst heq
            exact hm
          · exact h ts hmem
        · intro h ts hts
          exact h ts (List.mem_cons_of_mem _ hts)
    | other =>
      rw [findInSpecs, ih]
      constructor
      · intro h ts hts
        rcases List.mem_cons.1 hts with heq | hmem
        · cases heq
        · exact h ts hmem
      · intro h ts hts
        exact h ts (List.mem_cons_of_mem _ hts)

theorem findInSpecs_some (L : Lib) (gd : GenDecl) (typeName : String) (specs : List Spec)
    (ts : TypeSpec) (h : findInSpecs L gd typeName specs = some ts) :
    ∃ spre spost, specs = spre ++ Spec.typeSpec ts :: spost ∧ specMatches L typeName gd ts ∧
      noMatchSpecs L typeName gd spre := by
  induction specs with
  | nil => simp [findInSpecs] at h
  | cons sp rest ih =>
    cases sp with
    | typeSpec ts1 =>
      rw [findInSpecs] at h
      by_cases hm : strfmtName L gd.doc = some typeName ∨ ts1.name = typeName
      · rw [if_pos hm] at h
        simp only [Option.some.injEq] at h
        subst h
        exact ⟨[], rest, rfl, hm, fun ts hts => absurd hts (List.not_mem_nil _)⟩
      · rw [if_neg hm] at h
        obtain ⟨spre, spost, heq, hmatch, hpre⟩ := ih h
        refine ⟨Spec.typeSpec ts1 :: spre, spost, by rw [heq]; rfl, hmatch, ?_⟩
        intro ts2 hts2
        rcases List.mem_cons.1 hts2 with heq2 | hmem
        · injection heq2 with heq2
          subst heq2
          exact hm
        · exact hpre ts2 hmem
    | other =>
      rw [findInSpecs] at h
      obtain ⟨spre, spost, heq, hmatch, hpre⟩ := ih h
      refine ⟨Spec.other :: spre, spost, by rw [heq]; rfl, hmatch, ?_⟩
      intro ts2 hts2
      rcases List.mem_cons.1 hts2 with heq2 | hmem
      · cases heq2
      · exact hpre ts2 hmem

theorem findInDecls_none_iff (L : Lib) (typeName : String) (decls : List Decl) :
    findInDecls L typeName decls = none ↔ noMatchDecls L typeName decls := by
  induction decls with
  | nil => simp [findInDecls, noMatchDecls]
  | cons d rest ih =>
    cases d with
    | gen gd1 =>
      rw [findInDecls]
      cases hs : findInSpecs L gd1 typeName gd1.specs with
      | some ts =>
        simp only
        constructor
        · intro h; simp at h
        · intro h
          have := (findInSpecs_none_iff L gd1 typeName gd1.specs).2
            (h gd1 (List.mem_cons_self _ _))
          rw [hs] at this
          simp at this
      | none =>
        simp only
        rw [ih]
        constructor
        · intro h gd hgd
          rcases List.mem_cons.1 hgd with heq | hmem
          · injection heq with heq
            subst heq
            exact (findInSpecs_none_iff L gd typeName gd.specs).1 hs
          · exact h gd hmem
        · intro h gd hgd
          exact h gd (List.mem_cons_of_mem _ hgd)
    | other =>
      rw [findInDecls, ih]
      constructor
      · intro h gd hgd
        rcases List.mem_cons.1 hgd with heq | hmem
        · cases heq
        · exact h gd hmem
      · intro h gd hgd
        exact h gd (List.mem_cons_of_mem _ hgd)

theorem findInDecls_some (L : Lib) (typeName : String) (decls : List Decl)
    (gd : GenDecl) (ts : TypeSpec) (h : findInDecls L typeName decls = some (gd, ts)) :
    ∃ dpre dpost, decls = dpre ++ Decl.gen gd :: dpost ∧ noMatchDecls L typeName dpre ∧
      findInSpecs L gd typeName gd.specs = some ts := by
  induction decls with
  | nil => simp [findInDecls] at h
  | cons d rest ih =>
    cases d with
    | gen gd1 =>
      rw [findInDecls] at h
      cases hs : findInSpecs L gd1 typeName gd1.specs with
      | some ts1 =>
        rw [hs] at h
        simp only [Option.some.injEq, Prod.mk.injEq] at h
        obtain ⟨rfl, rfl⟩ := h
        exact ⟨[], rest, rfl, fun gd hgd => absurd hgd (List.not_mem_nil _), hs⟩
      | none =>
        rw [hs] at h
        obtain ⟨dpre, dpost, heq, hpre, hfound⟩ := ih h
        refine ⟨Decl.gen gd1 :: dpre, dpost, by rw [heq]; rfl, ?_, hfound⟩
        intro gd2 hgd2
        rcases List.mem_cons.1 hgd2 with heq2 | hmem
        · injection heq2 with heq2
          subst heq2
          exact (findInSpecs_none_iff L gd2 typeName gd2.specs).1 hs
        · exact hpre gd2 hmem
    | other =>
      rw [findInDecls] at h
      obtain ⟨dpre, dpost, heq, hpre, hfound⟩ := ih h
      refine ⟨Decl.other :: dpre, dpost, by rw [heq]; rfl, ?_, hfound⟩
      intro gd2 hgd2
      rcases List.mem_cons.1 hgd2 with heq2 | hmem
      · cases heq2
      · exact hpre gd2 hmem

theorem findInFiles_none_iff (L : Lib) (typeName : String) (files : List File) :
    findInFiles L typeName files = none ↔ noMatchFiles L typeName files := by
  induction files with
  | nil => simp [findInFiles, noMatchFiles]
  | cons f rest ih =>
    rw [findInFiles]
    cases hd : findInDecls L typeName f.decls with
    | some r =>
      obtain ⟨gd, ts⟩ := r
      simp only
      constructor
      · intro h; simp at h
      · intro h
        have := (findInDecls_none_iff L typeName f.decls).2 (h f (List.mem_cons_self _ _))
        rw [hd] at this
        simp at this
    | none =>
      simp only
      rw [ih]
      constructor
      · intro h file hfile
        rcases List.mem_cons.1 hfile with heq | hmem
        · subst heq
          exact (findInDecls_none_iff L typeName file.decls).1 hd
        · exact h file hmem
      · intro h file hfile
        exact h file (List.mem_cons_of_mem _ hfile)

theorem findInFiles_some (L : Lib) (typeName : String) (files : List File)
    (file : File) (gd : GenDecl) (ts : TypeSpec)
    (h : findInFiles L typeName files = some (file, gd, ts)) :
    ∃ fpre fpost, files = fpre ++ file :: fpost ∧ noMatchFiles L typeName fpre ∧
      findInDecls L typeName file.decls = some (gd, ts) := by
  induction files with
  | nil => simp [findInFiles] at h
  | cons f rest ih =>
    rw [findInFiles] at h
    cases hd : findInDecls L typeName f.decls with
    | some r =>
      obtain ⟨gd1, ts1⟩ := r
      rw [hd] at h
      simp only [Option.some.injEq, Prod.mk.injEq] at h
      obtain ⟨rfl, rfl, rfl⟩ := h
      exact ⟨[], rest, rfl, fun file hfile => absurd hfile (List.not_mem_nil _), hd⟩
    | none =>
      rw [hd] at h
      obtain ⟨fpre, fpost, heq, hpre, hfound⟩ := ih h
      refine ⟨f :: fpre, fpost, by rw [heq]; rfl, ?_, hfound⟩
      intro file2 hfile2
      rcases List.mem_cons.1 hfile2 with heq2 | hmem
      · subst heq2
        exact (findInDecls_none_iff L typeName file2.decls).1 hd
      · exact hpre file2 hmem

/-! ## Field names -/

theorem splitChars_head (sep : Char) (cs : List Char) :
    (splitChars sep cs).headD [] = cs.takeWhile (fun c => c ≠ sep) := by
  induction cs with
  | nil => rfl
  | cons c rest ih =>
    unfold splitChars
    by_cases h : c = sep
    · simp [h]
    · simp only [h, if_false]
      have htake : List.takeWhile (fun c => decide (c ≠ sep)) (c :: rest)
          = c :: List.takeWhile (fun c => decide (c ≠ sep)) rest := by
        rw [List.takeWhile_cons]
        simp [h]
      rw [htake, ← ih]
      cases splitChars sep rest <;> rfl

theorem stringsSplit_head (j : String) :
    (stringsSplit j ',').headD "" = beforeComma j := by
  unfold stringsSplit beforeComma
  rw [← splitChars_head]
  cases splitChars ',' j.data <;> rfl

theorem length_pos_iff_ne_empty (str : String) : str.length > 0 ↔ str ≠ "" := by
  cases str with
  | mk data =>
    cases data with
    | nil => simp [String.length]
    | cons c cs =>
      simp only [String.length, List.length_cons, gt_iff_lt, Nat.zero_lt_succ, true_iff]
      intro h
      have h1 := congrArg String.data h
      simp at h1

/-- Every element of a loop that ended without error was run, from some
state, without error. -/
theorem foldl_mem_ok {α : Type} (f : Option StructResult → α → Option StructResult)
    (hnone : ∀ a, f none a = none)
    (herr : ∀ s sn w e a, f (some (s, sn, w, some e)) a = some (s, sn, w, some e))
    (a : α) : ∀ (l : List α), a ∈ l → ∀ s sn w s1 sn1 w1,
      l.foldl f (some (s, sn, w, none)) = some (s1, sn1, w1, none) →
      ∃ t tn tw t1 tn1 tw1, f (some (t, tn, tw, none)) a = some (t1, tn1, tw1, none) := by
  intro l
  induction l with
  | nil => intro hmem; simp at hmem
  | cons b rest ih =>
    intro hmem s sn w s1 sn1 w1 h
    obtain ⟨s2, sn2, w2, hstep, hrest⟩ := foldl_cons_ok f hnone herr b rest s sn w s1 sn1 w1 h
    rcases List.mem_cons.1 hmem with heq | htail
    · subst heq
      exact ⟨s, sn, w, s2, sn2, w2, hstep⟩
    · exact ih htail s2 sn2 w2 s1 sn1 w1 hrest

/-! ## Order of the fields -/

theorem embedStep_named
    (pe : File → Schema → Expr → List String → List SchemaDecl → Option StructResult)
    (gofile : File) (acc : Option StructResult) (fld : Field) (h : fld.anonymous = false) :
    embedStep pe gofile acc fld = acc := by
  unfold Field.anonymous at h
  unfold embedStep
  cases hn : fld.names with
  | nil => rw [hn] at h; simp at h
  | cons a l =>
    rcases acc with _ | ⟨s, sn, w, e⟩
    · rfl
    · cases e <;> rfl

theorem ownStep_anonymous (L : Lib)
    (pp : File → Expr → Schema → List SchemaDecl → Option PropResult)
    (gofile : File) (acc : Option StructResult) (fld : Field) (h : fld.anonymous = true) :
    ownStep L pp gofile acc fld = acc := by
  unfold Field.anonymous at h
  unfold ownStep
  cases hn : fld.names with
  | nil =>
    rcases acc with _ | ⟨s, sn, w, e⟩
    · rfl
    · cases e <;> rfl
  | cons a l => rw [hn] at h; simp at h

/-- A loop skips the elements that leave its state alone. -/
theorem foldl_filter_skip {α β : Type} (f : β → α → β) (p : α → Bool)
    (hskip : ∀ acc a, p a = false → f acc a = acc) (l : List α) (init : β) :
    l.foldl f init = (l.filter p).foldl f init := by
  induction l generalizing init with
  | nil => rfl
  | cons a rest ih =>
    rw [List.foldl_cons]
    cases hp : p a with
    | true => rw [List.filter_cons_of_pos hp, List.foldl_cons, ih]
    | false => rw [List.filter_cons_of_neg (by simp [hp]), hskip init a hp, ih]

theorem foldl_all_skip {α β : Type} (f : β → α → β) (p : α → Bool)
    (hskip : ∀ acc a, p a = false → f acc a = acc) (l : List α) (init : β)
    (hall : ∀ a, a ∈ l → p a = false) : l.foldl f init = init := by
  induction l generalizing init with
  | nil => rfl
  | cons a rest ih =>
    rw [List.foldl_cons, hskip init a (hall a (List.mem_cons_self _ _))]
    exact ih init (fun b hb => hall b (List.mem_cons_of_mem _ hb))

/-- The loop over embedded structs runs over the anonymous fields only. -/
theorem embedLoop_filter
    (pe : File → Schema → Expr → List String → List SchemaDecl → Option StructResult)
    (gofile : File) (fields : List Field) (init : Option StructResult) :
    fields.foldl (embedStep pe gofile) init
      = (fields.filter (fun fld => fld.anonymous)).foldl (embedStep pe gofile) init :=
  foldl_filter_skip (embedStep pe gofile) (fun fld => fld.anonymous)
    (fun acc a ha => embedStep_named pe gofile acc a ha) fields init

/-- The loop over own fields runs over the named fields only. -/
theorem ownLoop_filter (L : Lib)
    (pp : File → Expr → Schema → List SchemaDecl → Option PropResult)
    (gofile : File) (fields : List Field) (init : Option StructResult) :
    fields.foldl (ownStep L pp gofile) init
      = (fields.filter (fun fld => !fld.anonymous)).foldl (ownStep L pp gofile) init :=
  foldl_filter_skip (ownStep L pp gofile) (fun fld => !fld.anonymous)
    (fun acc a ha => ownStep_anonymous L pp gofile acc a (by simpa using ha)) fields init

theorem embedLoop_embedsFirst
    (pe : File → Schema → Expr → List String → List SchemaDecl → Option StructResult)
    (gofile : File) (fields : List Field) (init : Option StructResult) :
    (embedsFirst fields).foldl (embedStep pe gofile) init
      = fields.foldl (embedStep pe gofile) init := by
  unfold embedsFirst
  rw [List.foldl_append, embedLoop_filter pe gofile fields init]
  exact foldl_all_skip (embedStep pe gofile) (fun fld => fld.anonymous)
    (fun acc a ha => embedStep_named pe gofile acc a ha) _ _
    (fun a ha => by simpa using (List.mem_filter.1 ha).2)

theorem ownLoop_embedsFirst (L : Lib)
    (pp : File → Expr → Schema → List SchemaDecl → Option PropResult)
    (gofile : File) (fields : List Field) (init : Option StructResult) :
    (embedsFirst fields).foldl (ownStep L pp gofile) init
      = fields.foldl (ownStep L pp gofile) init := by
  unfold embedsFirst
  rw [List.foldl_append, ownLoop_filter L pp gofile fields init]
  congr 1
  exact foldl_all_skip (ownStep L pp gofile) (fun fld => !fld.anonymous)
    (fun acc a ha => ownStep_anonymous L pp gofile acc a (by simpa using ha)) _ _
    (fun a ha => by simpa using (List.mem_filter.1 ha).2)

/-! ## Embedded fields -/

/-- An embedded field that does not resolve to a struct type makes
`parseEmbeddedStruct` return an error and leave its arguments alone. -/
theorem parseEmbeddedStruct_unresolved (L : Lib) (prog : Program) (fuel : Nat)
    (gofile : File) (s : Schema) (expr : Expr) (sn : List String) (w : List SchemaDecl)
    (h : resolveEmbedded L prog gofile expr = none) :
    ∃ e, parseEmbeddedStruct L prog (fuel + 1) gofile s expr sn w = some (s, sn, w, some e) := by
  unfold resolveEmbedded at h
  unfold parseEmbeddedStruct
  split
  · simp only at h
    split
    · exact ⟨_, rfl⟩
    · rename_i pkg hpkg
      simp only [hpkg] at h
      split
      · exact ⟨_, rfl⟩
      · rename_i file gd ts hfind
        simp only [hfind] at h
        split
        · rename_i st htype
          simp only [htype] at h
          simp at h
        · exact ⟨_, rfl⟩
  · simp only at h
    split
    · exact ⟨_, rfl⟩
    · rename_i pkg hpkg
      simp only [hpkg] at h
      split
      · exact ⟨_, rfl⟩
      · rename_i file gd ts hfind
        simp only [hfind] at h
        split
        · rename_i st htype
          simp only [htype] at h
          simp at h
        · exact ⟨_, rfl⟩
  · exact ⟨_, rfl⟩

/-! ## The driver -/

theorem inferNames_idem (L : Lib) (sd : SchemaDecl) :
    SchemaDecl.inferNames L (SchemaDecl.inferNames L sd) = SchemaDecl.inferNames L sd := by
  by_cases h : sd.goName ≠ ""
  · have h1 : SchemaDecl.inferNames L sd = sd := by
      unfold SchemaDecl.inferNames
      rw [if_pos h]
    rw [h1, h1]
  · have h1 : SchemaDecl.inferNames L sd = { sd with
        goName := sd.typeSpec.name,
        name := match sd.decl.doc with
          | none => sd.typeSpec.name
          | some doc =>
            match firstCapture L.rxModelOverride id doc.lines with
            | some n => n
            | none => sd.typeSpec.name } := by
      unfold SchemaDecl.inferNames
      rw [if_neg h]
    rw [h1]
    unfold SchemaDecl.inferNames
    split <;> rfl

theorem parseSpecs_append (L : Lib) (prog : Program) (fuel : Nat) (gofile : File)
    (gd : GenDecl) (pre rest : List Spec) (tgt : Definitions) (wl : List SchemaDecl)
    (tgt1 : Definitions) (wl1 : List SchemaDecl)
    (h : parseSpecs L prog fuel gofile gd pre tgt wl = some (tgt1, wl1, none)) :
    parseSpecs L prog fuel gofile gd (pre ++ rest) tgt wl
      = parseSpecs L prog fuel gofile gd rest tgt1 wl1 := by
  induction pre generalizing tgt wl with
  | nil =>
    simp only [parseSpecs, Option.some.injEq, Prod.mk.injEq, and_true] at h
    obtain ⟨rfl, rfl⟩ := h
    rfl
  | cons sp pre1 ih =>
    cases sp with
    | typeSpec ts =>
      rw [List.cons_append, parseSpecs]
      rw [parseSpecs] at h
      split at h
      · simp at h
      · simp at h
      · rename_i t2 w2 hd
        exact ih t2 w2 h
    | other =>
      rw [List.cons_append, parseSpecs]
      rw [parseSpecs] at h
      exact ih tgt wl h

theorem parseDecls_append (L : Lib) (prog : Program) (fuel : Nat) (gofile : File)
    (pre rest : List Decl) (tgt : Definitions) (wl : List SchemaDecl)
    (tgt1 : Definitions) (wl1 : List SchemaDecl)
    (h : parseDecls L prog fuel gofile pre tgt wl = some (tgt1, wl1, none)) :
    parseDecls L prog fuel gofile (pre ++ rest) tgt wl
      = parseDecls L prog fuel gofile rest tgt1 wl1 := by
  induction pre generalizing tgt wl with
  | nil =>
    simp only [parseDecls, Option.some.injEq, Prod.mk.injEq, and_true] at h
    obtain ⟨rfl, rfl⟩ := h
    rfl
  | cons d pre1 ih =>
    cases d with
    | gen gd =>
      rw [List.cons_append, parseDecls]
      rw [parseDecls] at h
      split at h
      · simp at h
      · simp at h
      · rename_i t2 w2 hd
        exact ih t2 w2 h
    | other =>
      rw [List.cons_append, parseDecls]
      rw [parseDecls] at h
      exact ih tgt wl h

/-- A `parseDecl` that returns an error leaves definitions without entry
under the external name exactly as they were. -/
theorem parseDecl_error (L : Lib) (prog : Program) (fuel : Nat) (definitions : Definitions)
    (decl : SchemaDecl) (wl : List SchemaDecl) (defs1 : Definitions)
    (wl1 : List SchemaDecl) (e : Err)
    (h : parseDecl L prog fuel definitions decl wl = some (defs1, wl1, some e))
    (hnew : mapGet? definitions (decl.inferNames L).name = none) : defs1 = definitions := by
  unfold parseDecl at h
  simp only at h
  split at h
  · simp only [Option.some.injEq, Prod.mk.injEq] at h
    exact h.1.symm
  · split at h
    · simp at h
    · simp only [Option.some.injEq, Prod.mk.injEq] at h
      obtain ⟨rfl, -, -⟩ := h
      unfold abandonDecl
      rw [hnew]
    · simp at h

theorem mapGet?_eq_none_iff {β : Type} (m : List (String × β)) (k : String) :
    mapGet? m k = none ↔ k ∉ m.map Prod.fst := by
  induction m with
  | nil => simp [mapGet?]
  | cons e rest ih =>
    obtain ⟨k1, v⟩ := e
    unfold mapGet?
    by_cases h : k1 = k
    · subst h; simp
    · have hne : ¬ k = k1 := fun heq => h heq.symm
      simp only [h, if_false, ih, List.map_cons, List.mem_cons, hne, false_or]

theorem keys_abandonDecl (definitions : Definitions) (name : String) (schema : Schema) :
    (abandonDecl definitions name schema).map Prod.fst = definitions.map Prod.fst ∧
    ∀ k, k ≠ name → mapGet? (abandonDecl definitions name schema) k = mapGet? definitions k := by
  unfold abandonDecl
  cases hget : mapGet? definitions name with
  | none => exact ⟨rfl, fun _ _ => rfl⟩
  | some old =>
    refine ⟨?_, fun k hk => mapGet?_mapSet_other _ _ _ _ hk⟩
    rw [keys_mapSet, if_pos]
    by_contra hmem
    rw [← mapGet?_eq_none_iff, hget] at hmem
    exact Option.noConfusion hmem

/-- A `parseDecl` that returns an error adds no key to the definitions,
removes none and changes no entry under another name. -/
theorem parseDecl_error_frame (L : Lib) (prog : Program) (fuel : Nat)
    (definitions : Definitions) (decl : SchemaDecl) (wl : List SchemaDecl)
    (defs1 : Definitions) (wl1 : List SchemaDecl) (e : Err)
    (h : parseDecl L prog fuel definitions decl wl = some (defs1, wl1, some e)) :
    defs1.map Prod.fst = definitions.map Prod.fst ∧
    ∀ k, k ≠ (decl.inferNames L).name → mapGet? defs1 k = mapGet? definitions k := by
  unfold parseDecl at h
  simp only at h
  split at h
  · simp only [Option.some.injEq, Prod.mk.injEq] at h
    obtain ⟨rfl, -, -⟩ := h
    exact ⟨rfl, fun _ _ => rfl⟩
  · split at h
    · simp at h
    · simp only [Option.some.injEq, Prod.mk.injEq] at h
      obtain ⟨rfl, -, -⟩ := h
      exact keys_abandonDecl _ _ _
    · simp at h

/-- Whatever a `parseDecl` returns, the only key it may add to the
definitions is the external name of the declaration. -/
theorem parseDecl_keys (L : Lib) (prog : Program) (fuel : Nat)
    (definitions : Definitions) (decl : SchemaDecl) (wl : List SchemaDecl)
    (defs1 : Definitions) (wl1 : List SchemaDecl) (e : Option Err)
    (h : parseDecl L prog fuel definitions decl wl = some (defs1, wl1, e)) :
    ∀ k, k ∈ defs1.map Prod.fst →
      k = (decl.inferNames L).name ∨ k ∈ definitions.map Prod.fst := by
  intro k hk
  cases e with
  | some err =>
    rw [(parseDecl_error_frame L prog fuel definitions decl wl defs1 wl1 err h).1] at hk
    exact Or.inr hk
  | none =>
    unfold parseDecl at h
    simp only at h
    split at h
    · simp at h
    · split at h
      · simp at h
      · simp at h
      · simp only [Option.some.injEq, Prod.mk.injEq, and_true] at h
        obtain ⟨rfl, -⟩ := h
        exact (mem_mapSet_keys _ _ _ k).1 hk

theorem parseSpecs_keys (L : Lib) (prog : Program) (fuel : Nat) (gofile : File)
    (gd : GenDecl) (specs : List Spec) (tgt : Definitions) (wl : List SchemaDecl)
    (tgt1 : Definitions) (wl1 : List SchemaDecl)
    (h : parseSpecs L prog fuel gofile gd specs tgt wl = some (tgt1, wl1, none)) :
    ∀ k, k ∈ tgt1.map Prod.fst → k ∈ specNames L gofile gd specs ∨ k ∈ tgt.map Prod.fst := by
  induction specs generalizing tgt wl with
  | nil =>
    simp only [parseSpecs, Option.some.injEq, Prod.mk.injEq, and_true] at h
    obtain ⟨rfl, -⟩ := h
    exact fun k hk => Or.inr hk
  | cons sp rest ih =>
    cases sp with
    | typeSpec ts =>
      rw [parseSpecs] at h
      split at h
      · simp at h
      · simp at h
      · rename_i t2 w2 hd
        intro k hk
        rcases ih t2 w2 h k hk with hin | hin
        · exact Or.inl (List.mem_cons_of_mem _ hin)
        · rcases parseDecl_keys L prog fuel tgt _ wl t2 w2 none hd k hin with heq | hold
          · rw [inferNames_idem] at heq
            exact Or.inl (heq ▸ List.mem_cons_self _ _)
          · exact Or.inr hold
    | other =>
      rw [parseSpecs] at h
      exact ih tgt wl h

theorem parseDecls_keys (L : Lib) (prog : Program) (fuel : Nat) (gofile : File)
    (decls : List Decl) (tgt : Definitions) (wl : List SchemaDecl)
    (tgt1 : Definitions) (wl1 : List SchemaDecl)
    (h : parseDecls L prog fuel gofile decls tgt wl = some (tgt1, wl1, none)) :
    ∀ k, k ∈ tgt1.map Prod.fst → k ∈ declNames L gofile decls ∨ k ∈ tgt.map Prod.fst := by
  induction decls generalizing tgt wl with
  | nil =>
    simp only [parseDecls, Option.some.injEq, Prod.mk.injEq, and_true] at h
    obtain ⟨rfl, -⟩ := h
    exact fun k hk => Or.inr hk
  | cons d rest ih =>
    cases d with
    | gen gd =>
      rw [parseDecls] at h
      split at h
      · simp at h
      · simp at h
      · rename_i t2 w2 hd
        intro k hk
        rcases ih t2 w2 h k hk with hin | hin
        · exact Or.inl (List.mem_append_right _ hin)
        · rcases parseSpecs_keys L prog fuel gofile gd gd.specs tgt wl t2 w2 hd k hin
            with hnew | hold
          · exact Or.inl (List.mem_append_left _ hnew)
          · exact Or.inr hold
    | other =>
      rw [parseDecls] at h
      exact ih tgt wl h

/-! ## Items and additional properties of the owning schema -/

theorem propsFrame_refl (p : SchemaProps) : PropsFrame p p := ⟨rfl, rfl, rfl, rfl, rfl⟩

theorem propsFrame_trans {p q r : SchemaProps} (h1 : PropsFrame p q) (h2 : PropsFrame q r) :
    PropsFrame p r :=
  ⟨h2.1.trans h1.1, h2.2.1.trans h1.2.1, h2.2.2.1.trans h1.2.2.1,
    h2.2.2.2.1.trans h1.2.2.2.1, h2.2.2.2.2.trans h1.2.2.2.2⟩

theorem validate_frame (st : Setter) (v : TagValue) (p : SchemaProps) :
    PropsFrame p (validate st v p) ∧ (validate st v p).description = p.description ∧
    (validate st v p).extensions = p.extensions := by
  cases st <;> cases v <;> exact ⟨⟨rfl, rfl, rfl, rfl, rfl⟩, rfl, rfl⟩

theorem fieldFrame_refl (ps : Schema) : FieldFrame ps ps :=
  ⟨propsFrame_refl _, rfl, rfl, Or.inl rfl⟩

theorem fieldFrame_trans {p q r : Schema} (h1 : FieldFrame p q) (h2 : FieldFrame q r) :
    FieldFrame p r := by
  refine ⟨propsFrame_trans h1.1 h2.1, h2.2.1.trans h1.2.1, h2.2.2.1.trans h1.2.2.1, ?_⟩
  rcases h2.2.2.2 with heq | ⟨it, it1, hq, hr, hf, hd, he, hi, ha, hp⟩
  · rcases h1.2.2.2 with heq1 | ⟨jt, jt1, hp1, hq1, hrest⟩
    · exact Or.inl (heq.trans heq1)
    · exact Or.inr ⟨jt, jt1, hp1, heq.trans hq1, hrest⟩
  · rcases h1.2.2.2 with heq1 | ⟨jt, jt1, hp1, hq1, hf1, hd1, he1, hi1, ha1, hpp1⟩
    · exact Or.inr ⟨it, it1, heq1 ▸ hq, hr, hf, hd, he, hi, ha, hp⟩
    · rw [hq1] at hq
      have hjt : jt1 = it := Option.some.inj (Option.some.inj hq)
      subst hjt
      exact Or.inr ⟨jt, it1, hp1, hr, propsFrame_trans hf1 hf, hd.trans hd1, he.trans he1,
        hi.trans hi1, ha.trans ha1, hp.trans hpp1⟩

theorem fieldFrame_putItems (ps it : Schema) (st : Setter) (v : TagValue)
    (hit : ps.items = some (some it)) :
    FieldFrame ps (ps.putItems (it.setProps (validate st v it.props))) := by
  cases ps with
  | mk p i a pr =>
    cases it with
    | mk q j b qr =>
      simp only [Schema.items_mk] at hit
      subst hit
      exact ⟨propsFrame_refl _, rfl, rfl, Or.inr ⟨_, _, rfl, rfl, (validate_frame st v q).1,
        (validate_frame st v q).2.1, (validate_frame st v q).2.2, rfl, rfl, rfl⟩⟩

theorem fieldFrame_validate (ps : Schema) (st : Setter) (v : TagValue) :
    FieldFrame ps (ps.setProps (validate st v ps.props)) := by
  cases ps with
  | mk p i a pr => exact ⟨(validate_frame st v p).1, rfl, rfl, Or.inl rfl⟩

/-- A directive leaves the type, format, title, required list, reference,
additional properties and properties of the property alone, and likewise
those of its items. -/
theorem applyTag_fieldFrame (taggers : List Tagger) (nm : String) (st : Schema × Schema)
    (m : String × TagValue) : FieldFrame st.2 (applyTag taggers nm st m).2 := by
  unfold applyTag
  split
  · exact fieldFrame_refl _
  · split
    · split
      · exact fieldFrame_refl _
      · exact fieldFrame_refl _
    · split
      · split
        · rename_i it hit
          exact fieldFrame_putItems _ _ _ _ hit
        · exact fieldFrame_refl _
      · exact fieldFrame_validate _ _ _

theorem foldl_applyTag_fieldFrame (taggers : List Tagger) (nm : String)
    (ms : List (String × TagValue)) (st : Schema × Schema) :
    FieldFrame st.2 (ms.foldl (applyTag taggers nm) st).2 := by
  induction ms generalizing st with
  | nil => exact fieldFrame_refl _
  | cons m rest ih =>
    rw [List.foldl_cons]
    exact fieldFrame_trans (applyTag_fieldFrame taggers nm st m) (ih _)

theorem requiredFrame_refl (p : SchemaProps) : RequiredFrame p p := ⟨p.required, rfl⟩

theorem requiredFrame_trans {p q r : SchemaProps} (h1 : RequiredFrame p q)
    (h2 : RequiredFrame q r) : RequiredFrame p r := by
  obtain ⟨a, rfl⟩ := h1
  obtain ⟨b, rfl⟩ := h2
  exact ⟨b, rfl⟩

theorem ownerFrame_required {p q r : SchemaProps} (h1 : OwnerFrame p q)
    (h2 : RequiredFrame q r) : OwnerFrame p r := by
  obtain ⟨a, rfl⟩ := h1
  obtain ⟨b, rfl⟩ := h2
  exact ⟨b, rfl⟩

theorem ownerFrame_trans {p q r : SchemaProps} (h1 : OwnerFrame p q)
    (h2 : OwnerFrame q r) : OwnerFrame p r := by
  obtain ⟨a, rfl⟩ := h1
  obtain ⟨b, rfl⟩ := h2
  exact ⟨b, rfl⟩

theorem setRequired_frame (owner : Schema) (nm : String) (b : Bool) :
    RequiredFrame owner.props (setRequired owner nm b).props := by
  unfold setRequired
  split
  · split
    · exact requiredFrame_refl _
    · exact ⟨_, rfl⟩
  · exact ⟨_, rfl⟩

theorem applyTag_frame (taggers : List Tagger) (nm : String) (st : Schema × Schema)
    (m : String × TagValue) : RequiredFrame st.1.props (applyTag taggers nm st m).1.props := by
  unfold applyTag
  split
  · exact requiredFrame_refl _
  · split
    · split
      · exact setRequired_frame _ _ _
      · exact requiredFrame_refl _
    · split
      · split <;> exact requiredFrame_refl _
      · exact requiredFrame_refl _

theorem foldl_applyTag_frame (taggers : List Tagger) (nm : String)
    (ms : List (String × TagValue)) (st : Schema × Schema) :
    RequiredFrame st.1.props (ms.foldl (applyTag taggers nm) st).1.props := by
  induction ms generalizing st with
  | nil => exact requiredFrame_refl _
  | cons m rest ih =>
    rw [List.foldl_cons]
    exact requiredFrame_trans (applyTag_frame taggers nm st m) (ih _)

theorem storeField_frame (L : Lib) (fld : Field) (gnm nm : String) (schema ps : Schema)
    (seen : List String) (wl : List SchemaDecl) :
    RequiredFrame schema.props (storeField L fld gnm nm schema ps seen wl).1.props := by
  unfold storeField
  simp only
  split
  · rw [abandon_props]
    exact foldl_applyTag_frame _ _ _ _
  · simp only [Schema.setProperty, Schema.setProperties, Schema.props_mk]
    exact foldl_applyTag_frame _ _ _ _

theorem storeField_frame_eq (L : Lib) (fld : Field) (gnm nm : String) (schema ps : Schema)
    (seen : List String) (wl : List SchemaDecl) (s1 : Schema) (sn1 : List String)
    (w1 : List SchemaDecl) (e1 : Option Err)
    (h : storeField L fld gnm nm schema ps seen wl = (s1, sn1, w1, e1)) :
    RequiredFrame schema.props s1.props := by
  have h2 := storeField_frame L fld gnm nm schema ps seen wl
  rw [h] at h2
  exact h2

/-- An iteration over an own field changes, of the fields of the owning
schema, the required list only. -/
theorem ownStep_frame (L : Lib)
    (pp : File → Expr → Schema → List SchemaDecl → Option PropResult)
    (gofile : File) (s : Schema) (sn : List String) (w : List SchemaDecl) (fld : Field)
    (s1 : Schema) (sn1 : List String) (w1 : List SchemaDecl) (e1 : Option Err)
    (h : ownStep L pp gofile (some (s, sn, w, none)) fld = some (s1, sn1, w1, e1)) :
    RequiredFrame s.props s1.props := by
  unfold ownStep at h
  simp only at h
  split at h
  · split at h
    · split at h
      · simp only [Option.some.injEq, Prod.mk.injEq] at h
        obtain ⟨rfl, -, -, -⟩ := h
        exact requiredFrame_refl _
      · split at h
        · simp at h
        · simp only [Option.some.injEq, Prod.mk.injEq] at h
          obtain ⟨rfl, -, -, -⟩ := h
          rw [abandon_props]
          exact requiredFrame_refl _
        · exact storeField_frame_eq L _ _ _ _ _ _ _ _ _ _ _ (Option.some.inj h)
    · simp only [Option.some.injEq, Prod.mk.injEq] at h
      obtain ⟨rfl, -, -, -⟩ := h
      exact requiredFrame_refl _
  · simp only [Option.some.injEq, Prod.mk.injEq] at h
    obtain ⟨rfl, -, -, -⟩ := h
    exact requiredFrame_refl _

theorem init_frame (s : Schema) :
    OwnerFrame s.props (if (s.typed "object" "").properties.isNone
      then (s.typed "object" "").setProperties (some []) else s.typed "object" "").props := by
  split <;> exact ⟨s.props.required, rfl⟩

/-- The struct mapping and the flattening of an embedded struct change, of
the fields of the schema they write to, the type, the format and the
required list only, whatever they return. -/
theorem struct_frame (L : Lib) (prog : Program) : ∀ fuel : Nat,
    (∀ gofile s tpe sn w s1 sn1 w1 e1,
      parseStructType L prog fuel gofile s tpe sn w = some (s1, sn1, w1, e1) →
      OwnerFrame s.props s1.props) ∧
    (∀ gofile s expr sn w s1 sn1 w1 e1,
      parseEmbeddedStruct L prog fuel gofile s expr sn w = some (s1, sn1, w1, e1) →
      s1 = s ∨ OwnerFrame s.props s1.props) := by
  intro fuel
  induction fuel with
  | zero =>
    constructor
    · intro gofile s tpe sn w s1 sn1 w1 e1 h
      simp [parseStructType] at h
    · intro gofile s expr sn w s1 sn1 w1 e1 h
      simp [parseEmbeddedStruct] at h
  | succ fuel ih =>
    constructor
    · intro gofile s tpe sn w s1 sn1 w1 e1 h
      cases tpe with
      | none =>
        simp only [parseStructType, Option.some.injEq, Prod.mk.injEq] at h
        obtain ⟨rfl, -, -, -⟩ := h
        exact ⟨s.props.required, rfl⟩
      | some fields =>
        simp only [parseStructType] at h
        have hemb : ∀ t tn tw te, fields.foldl
            (embedStep (parseEmbeddedStruct L prog fuel) gofile)
            (some (if (s.typed "object" "").properties.isNone
              then (s.typed "object" "").setProperties (some []) else s.typed "object" "",
              sn, w, none)) = some (t, tn, tw, te) → OwnerFrame s.props t.props := by
          intro t tn tw te ht
          refine foldl_invariant_any (embedStep (parseEmbeddedStruct L prog fuel) gofile)
            (embedStep_none _ gofile) (fun t tn tw e a => embedStep_err _ gofile t tn tw e a)
            (fun t => OwnerFrame s.props t.props) fields ?_ _ sn w t tn tw te (init_frame s) ht
          intro a u un uw u1 un1 uw1 ue hu hstep
          unfold embedStep at hstep
          simp only at hstep
          split at hstep
          · split at hstep
            · simp at hstep
            · rename_i hres
              simp only [Option.some.injEq, Prod.mk.injEq] at hstep
              obtain ⟨rfl, -, -, -⟩ := hstep
              rcases ih.2 _ _ _ _ _ _ _ _ _ hres with heq | hframe
              · rw [heq]; exact hu
              · exact ownerFrame_trans hu hframe
            · rename_i hres
              simp only [Option.some.injEq, Prod.mk.injEq] at hstep
              obtain ⟨rfl, -, -, -⟩ := hstep
              rcases ih.2 _ _ _ _ _ _ _ _ _ hres with heq | hframe
              · rw [heq]; exact hu
              · exact ownerFrame_trans hu hframe
          · simp only [Option.some.injEq, Prod.mk.injEq] at hstep
            obtain ⟨rfl, -, -, -⟩ := hstep
            exact hu
        split at h
        · simp at h
        · rename_i t tn tw te ht
          simp only [Option.some.injEq, Prod.mk.injEq] at h
          obtain ⟨rfl, -, -, -⟩ := h
          exact hemb _ _ _ _ ht
        · rename_i t tn tw ht
          have hown : ∀ u un uw ue, fields.foldl
              (ownStep L (parseProperty L prog fuel) gofile) (some (t, tn, tw, none))
              = some (u, un, uw, ue) → OwnerFrame s.props u.props := by
            intro u un uw ue hu
            exact foldl_invariant_any (ownStep L (parseProperty L prog fuel) gofile)
              (ownStep_none L _ gofile) (fun t tn tw e a => ownStep_err L _ gofile t tn tw e a)
              (fun t => OwnerFrame s.props t.props) fields
              (fun a v vn vw v1 vn1 vw1 ve hv hstep =>
                ownerFrame_required hv (ownStep_frame L _ gofile v vn vw a v1 vn1 vw1 ve hstep))
              t tn tw u un uw ue (hemb _ _ _ _ ht) hu
          split at h
          · simp at h
          · rename_i u un uw ue hu
            simp only [Option.some.injEq, Prod.mk.injEq] at h
            obtain ⟨rfl, -, -, -⟩ := h
            exact hown _ _ _ _ hu
          · rename_i u un uw hu
            simp only [Option.some.injEq, Prod.mk.injEq] at h
            obtain ⟨rfl, -, -, -⟩ := h
            rw [prune_props]
            exact hown _ _ _ _ hu
    · intro gofile s expr sn w s1 sn1 w1 e1 h
      unfold parseEmbeddedStruct at h
      split at h
      · split at h
        · simp only [Option.some.injEq, Prod.mk.injEq] at h
          exact Or.inl h.1.symm
        · split at h
          · simp only [Option.some.injEq, Prod.mk.injEq] at h
            exact Or.inl h.1.symm
          · split at h
            · exact Or.inr (ih.1 _ _ _ _ _ _ _ _ _ h)
            · simp only [Option.some.injEq, Prod.mk.injEq] at h
              exact Or.inl h.1.symm
      · split at h
        · simp only [Option.some.injEq, Prod.mk.injEq] at h
          exact Or.inl h.1.symm
        · split at h
          · simp only [Option.some.injEq, Prod.mk.injEq] at h
            exact Or.inl h.1.symm
          · split at h
            · exact Or.inr (ih.1 _ _ _ _ _ _ _ _ _ h)
            · simp only [Option.some.injEq, Prod.mk.injEq] at h
              exact Or.inl h.1.symm
      · simp only [Option.some.injEq, Prod.mk.injEq] at h
        exact Or.inl h.1.symm

/-! ## What a type mapping does to its target -/

theorem foldl_preserves {α β : Type} (f : β → α → β) (Q : β → Prop)
    (h : ∀ b a, Q b → Q (f b a)) (l : List α) (init : β) (hinit : Q init) :
    Q (l.foldl f init) := by
  induction l generalizing init with
  | nil => exact hinit
  | cons a rest ih => exact ih _ (h init a hinit)

/-- The loop of lines 192 to 200 leaves the type and the extension
`x-go-name` of the schema alone. -/
theorem goPackage_keeps (prog : Program) (file : File) (schema : Schema) :
    (goPackage prog file schema).props.type = schema.props.type ∧
    mapGet? (goPackage prog file schema).props.extensions "x-go-name"
      = mapGet? schema.props.extensions "x-go-name" := by
  unfold goPackage
  refine foldl_preserves _ (fun s1 : Schema => s1.props.type = schema.props.type ∧
    mapGet? s1.props.extensions "x-go-name" = mapGet? schema.props.extensions "x-go-name")
    ?_ _ _ ⟨rfl, rfl⟩
  intro b pkgInfo hb
  split
  · refine foldl_preserves _ (fun s1 : Schema => s1.props.type = schema.props.type ∧
      mapGet? s1.props.extensions "x-go-name" = mapGet? schema.props.extensions "x-go-name")
      ?_ _ _ hb
    intro b1 fil hb1
    split
    · refine ⟨hb1.1, ?_⟩
      show mapGet? (mapSet b1.props.extensions "x-go-package" pkgInfo.path) "x-go-name" = _
      rw [mapGet?_mapSet_other _ _ _ _ (by decide)]
      exact hb1.2
    · exact hb1
  · exact hb

theorem inferNames_typeSpec (L : Lib) (sd : SchemaDecl) :
    (sd.inferNames L).typeSpec = sd.typeSpec ∧ (sd.inferNames L).file = sd.file ∧
    (sd.inferNames L).decl = sd.decl := by
  unfold SchemaDecl.inferNames
  split <;> exact ⟨rfl, rfl, rfl⟩

/-- What a `parseDecl` of a struct declaration that returns without error
stores: the result of the struct mapping, with the extension `x-go-name`
when the names differ, after the loop over the packages. -/
theorem parseDecl_ok (L : Lib) (prog : Program) (fuel : Nat) (definitions : Definitions)
    (decl : SchemaDecl) (wl : List SchemaDecl) (defs1 : Definitions) (wl1 : List SchemaDecl)
    (fields : Option (List Field)) (hstruct : decl.typeSpec.type = .structType fields)
    (h : parseDecl L prog fuel definitions decl wl = some (defs1, wl1, none)) :
    ∃ schema2 schema3 sn,
      schema2.props.extensions
        = ((mapGet? definitions (decl.inferNames L).name).getD Schema.empty).props.extensions ∧
      parseStructType L prog fuel decl.file schema2 fields [] wl
        = some (schema3, sn, wl1, none) ∧
      defs1 = mapSet definitions (decl.inferNames L).name (goPackage prog decl.file
        (if (decl.inferNames L).name ≠ (decl.inferNames L).goName
          then schema3.addExtension "x-go-name" (decl.inferNames L).goName else schema3)) := by
  obtain ⟨hts, hfile, _⟩ := inferNames_typeSpec L decl
  unfold parseDecl at h
  simp only [hts, hfile, hstruct] at h
  split at h
  · simp at h
  · split at h
    · simp at h
    · simp at h
    · rename_i schema3 sn wl2 hbody
      simp only [Option.some.injEq, Prod.mk.injEq, and_true] at h
      obtain ⟨rfl, rfl⟩ := h
      refine ⟨_, schema3, sn, ?_, hbody, rfl⟩
      cases (L.sectionedParse (decl.inferNames L).decl.doc true true []).title <;>
        cases (L.sectionedParse (decl.inferNames L).decl.doc true true []).description <;> rfl

/-! ## The properties of the stored declaration -/

/-- An identifier that the package of the file does not declare and the
primitive table knows types the target and returns nil. -/
theorem parseProperty_primitive (L : Lib) (prog : Program) (fuel : Nat) (gofile : File)
    (tname : String) (hasObj : Bool) (prop : Schema) (wl : List SchemaDecl)
    (tpe format : String) (hprim : L.primitives tname = some (tpe, format))
    (hunres : ∀ pkg, packageForFile prog gofile = .ok pkg →
      ∀ r, findSourceFile L pkg tname ≠ .ok r) :
    parseProperty L prog (fuel + 1) gofile (.ident tname hasObj) prop wl
      = some (prop.typed tpe format, wl, none) := by
  rw [parseProperty.eq_2]
  cases hpkg : packageForFile prog gofile with
  | error e => simp only [swaggerSchemaForType, hprim]
  | ok pkg =>
    cases hfind : findSourceFile L pkg tname with
    | error e => simp only [hfind, swaggerSchemaForType, hprim]
    | ok r => exact absurd hfind (hunres pkg hpkg r)

/-- A slice of such an identifier types the target as an array and its
items with the primitive. -/
theorem parseProperty_primitive_slice (L : Lib) (prog : Program) (fuel : Nat) (gofile : File)
    (tname : String) (hasObj : Bool) (prop : Schema) (wl : List SchemaDecl)
    (tpe format : String) (hprim : L.primitives tname = some (tpe, format))
    (hunres : ∀ pkg, packageForFile prog gofile = .ok pkg →
      ∀ r, findSourceFile L pkg tname ≠ .ok r) :
    parseProperty L prog (fuel + 2) gofile (.array (.ident tname hasObj)) prop wl
      = some (prop.itemsTarget.1.putItems (prop.itemsTarget.2.typed tpe format), wl, none) := by
  rw [parseProperty.eq_4,
    parseProperty_primitive L prog fuel gofile tname hasObj _ wl tpe format hprim hunres]

theorem find_itemsMinimum :
    (itemsTaggers ++ defaultTaggers).find? (fun t => t.name = "itemsMinimum")
      = some ⟨"itemsMinimum", .minimum, true⟩ := by
  decide

theorem Schema.props_setProps (s : Schema) (p : SchemaProps) : (s.setProps p).props = p := by
  cases s; rfl

theorem Schema.items_setProps (s : Schema) (p : SchemaProps) :
    (s.setProps p).items = s.items := by
  cases s; rfl

theorem Schema.props_putItems (s it : Schema) : (s.putItems it).props = s.props := by
  cases s; rfl

theorem Schema.items_putItems (s it : Schema) : (s.putItems it).items = some (some it) := by
  cases s; rfl

theorem Schema.items_addExtension (s : Schema) (k v : String) :
    (s.addExtension k v).items = s.items := by
  cases s; rfl

theorem Schema.props_addExtension (s : Schema) (k v : String) :
    (s.addExtension k v).props = { s.props with extensions := mapSet s.props.extensions k v } := by
  cases s; rfl

theorem Schema.props_itemsTarget (s : Schema) :
    s.itemsTarget.1.props = { s.props with type := ["array"], format := "" } := by
  cases s; rfl

/-- What a field whose doc comment parses without error stores under its
name. -/
theorem storeField_eq (L : Lib) (fld : Field) (gnm nm : String) (schema ps : Schema)
    (seen : List String) (wl : List SchemaDecl)
    (herr : (L.sectionedParse fld.doc false true
      ((fieldTaggers fld.type ps).map Tagger.name)).err = none) :
    ∃ d, storeField L fld gnm nm schema ps seen wl =
      (((L.sectionedParse fld.doc false true
          ((fieldTaggers fld.type ps).map Tagger.name)).matched.foldl
            (applyTag (fieldTaggers fld.type ps) nm)
            (schema, ps.setProps { ps.props with description := d })).1.setProperty nm
        (if nm ≠ gnm then
          ((L.sectionedParse fld.doc false true
            ((fieldTaggers fld.type ps).map Tagger.name)).matched.foldl
              (applyTag (fieldTaggers fld.type ps) nm)
              (schema, ps.setProps { ps.props with description := d })).2.addExtension
                "x-go-name" gnm
        else ((L.sectionedParse fld.doc false true
            ((fieldTaggers fld.type ps).map Tagger.name)).matched.foldl
              (applyTag (fieldTaggers fld.type ps) nm)
              (schema, ps.setProps { ps.props with description := d })).2),
        seenAdd seen nm, wl, none) := by
  cases hd : (L.sectionedParse fld.doc false true
      ((fieldTaggers fld.type ps).map Tagger.name)).description with
  | none =>
    refine ⟨ps.props.description, ?_⟩
    have hps : ps.setProps { ps.props with description := ps.props.description } = ps := by
      cases ps; rfl
    simp only [storeField, herr, hd, hps]
  | some lines =>
    refine ⟨L.joinDropLast lines, ?_⟩
    simp only [storeField, herr, hd]

theorem itemsMinimum_only : ∀ tg ∈ itemsTaggers ++ defaultTaggers,
    tg.onItems = true → tg.setter = .minimum → tg.name = "itemsMinimum" := by
  decide

theorem minimum_only : ∀ tg ∈ itemsTaggers ++ defaultTaggers,
    tg.onItems = false → tg.setter = .minimum → tg.name = "minimum" := by
  decide

theorem validate_minimum_keep (st : Setter) (v : TagValue) (p : SchemaProps)
    (hst : st ≠ .minimum) :
    (validate st v p).minimum = p.minimum ∧
    (validate st v p).exclusiveMinimum = p.exclusiveMinimum := by
  cases st <;> cases v <;> first | exact ⟨rfl, rfl⟩ | exact absurd rfl hst

/-- A directive other than `itemsMinimum` leaves the minimum of the items
alone. -/
theorem applyTag_items_minimum_keep (nm : String) (st : Schema × Schema)
    (m : String × TagValue) (it : Schema) (hm : m.1 ≠ "itemsMinimum")
    (hitems : st.2.items = some (some it)) :
    ∃ it1, (applyTag (itemsTaggers ++ defaultTaggers) nm st m).2.items = some (some it1) ∧
      it1.props.minimum = it.props.minimum ∧
      it1.props.exclusiveMinimum = it.props.exclusiveMinimum := by
  unfold applyTag
  split
  · exact ⟨it, hitems, rfl, rfl⟩
  · rename_i tg hfind
    have hmem := List.mem_of_find?_eq_some hfind
    have hname : tg.name = m.1 := by
      have := List.find?_some hfind
      simpa using this
    split
    · split
      · exact ⟨it, hitems, rfl, rfl⟩
      · exact ⟨it, hitems, rfl, rfl⟩
    · rename_i hsetter
      split
      · rename_i hon
        rw [hitems]
        refine ⟨it.setProps (validate tg.setter m.2 it.props), ?_, ?_⟩
        · cases st.2; rfl
        · have hne : tg.setter ≠ .minimum := by
            intro heq
            exact hm (hname ▸ itemsMinimum_only tg hmem hon heq)
          cases it
          exact validate_minimum_keep _ _ _ hne
      · refine ⟨it, ?_, rfl, rfl⟩
        rw [← hitems]
        cases st.2
        rfl

/-- A directive other than `minimum` leaves the minimum of the property
alone. -/
theorem applyTag_minimum_keep (nm : String) (st : Schema × Schema)
    (m : String × TagValue) (hm : m.1 ≠ "minimum") :
    (applyTag (itemsTaggers ++ defaultTaggers) nm st m).2.props.minimum
      = st.2.props.minimum := by
  unfold applyTag
  split
  · rfl
  · rename_i tg hfind
    have hmem := List.mem_of_find?_eq_some hfind
    have hname : tg.name = m.1 := by
      have := List.find?_some hfind
      simpa using this
    split
    · split <;> rfl
    · split
      · split
        · cases st.2; rfl
        · rfl
      · rename_i hon
        have hne : tg.setter ≠ .minimum := by
          intro heq
          exact hm (hname ▸ minimum_only tg hmem (by simpa using hon) heq)
        cases st.2
        exact (validate_minimum_keep _ _ _ hne).1

theorem foldl_applyTag_minimum_keep (nm : String) (ms : List (String × TagValue))
    (st : Schema × Schema) (hms : ∀ m ∈ ms, m.1 ≠ "minimum") :
    (ms.foldl (applyTag (itemsTaggers ++ defaultTaggers) nm) st).2.props.minimum
      = st.2.props.minimum := by
  induction ms generalizing st with
  | nil => rfl
  | cons m rest ih =>
    rw [List.foldl_cons, ih _ (fun x hx => hms x (List.mem_cons_of_mem _ hx)),
      applyTag_minimum_keep nm st m (hms m (List.mem_cons_self _ _))]

theorem foldl_applyTag_items_minimum_keep (nm : String) (ms : List (String × TagValue))
    (st : Schema × Schema) (it : Schema) (hms : ∀ m ∈ ms, m.1 ≠ "itemsMinimum")
    (hitems : st.2.items = some (some it)) :
    ∃ it1, (ms.foldl (applyTag (itemsTaggers ++ defaultTaggers) nm) st).2.items
        = some (some it1) ∧
      it1.props.minimum = it.props.minimum ∧
      it1.props.exclusiveMinimum = it.props.exclusiveMinimum := by
  induction ms generalizing st it with
  | nil => exact ⟨it, hitems, rfl, rfl⟩
  | cons m rest ih =>
    rw [List.foldl_cons]
    obtain ⟨it1, h1, hmin, hex⟩ := applyTag_items_minimum_keep nm st m it
      (hms m (List.mem_cons_self _ _)) hitems
    obtain ⟨it2, h2, hmin2, hex2⟩ := ih _ it1 (fun x hx => hms x (List.mem_cons_of_mem _ hx)) h1
    exact ⟨it2, h2, hmin2.trans hmin, hex2.trans hex⟩

/-- The type and format of the items that a field frame keeps. -/
theorem fieldFrame_items {ps q : Schema} (h : FieldFrame ps q) (it : Schema)
    (hitems : ps.items = some (some it)) :
    ∃ it1, q.items = some (some it1) ∧ it1.props.type = it.props.type ∧
      it1.props.format = it.props.format := by
  rcases h.2.2.2 with heq | ⟨jt, jt1, hp, hq, hf, _⟩
  · exact ⟨it, heq.trans hitems, rfl, rfl⟩
  · rw [hitems] at hp
    have hjt : it = jt := Option.some.inj (Option.some.inj hp)
    subst hjt
    exact ⟨jt1, hq, hf.1, hf.2.1⟩

/-- The tagger `itemsMinimum` writes the minimum of the items. -/
theorem applyTag_itemsMinimum (nm : String) (st : Schema × Schema) (it : Schema) (n : Rat)
    (ex : Bool) (hitems : st.2.items = some (some it)) :
    applyTag (itemsTaggers ++ defaultTaggers) nm st ("itemsMinimum", .number n ex)
      = (st.1, st.2.putItems
          (it.setProps { it.props with minimum := some n, exclusiveMinimum := ex })) := by
  simp only [applyTag, find_itemsMinimum, hitems, validate, if_true]

/-- The directives of a doc comment whose last `itemsMinimum` has the
operand `n`, applied to a property with items: the items keep their type and
format and get the minimum `n`. -/
theorem foldl_itemsMinimum (nm : String) (st : Schema × Schema) (it0 : Schema) (n : Rat)
    (ex : Bool) (before after : List (String × TagValue))
    (hlast : ∀ m ∈ after, m.1 ≠ "itemsMinimum") (hitems : st.2.items = some (some it0)) :
    ∃ it, ((before ++ ("itemsMinimum", TagValue.number n ex) :: after).foldl
        (applyTag (itemsTaggers ++ defaultTaggers) nm) st).2.items = some (some it) ∧
      it.props.type = it0.props.type ∧ it.props.format = it0.props.format ∧
      it.props.minimum = some n ∧ it.props.exclusiveMinimum = ex := by
  rw [List.foldl_append, List.foldl_cons]
  obtain ⟨it1, hit1, ht1, hf1⟩ := fieldFrame_items
    (foldl_applyTag_fieldFrame (itemsTaggers ++ defaultTaggers) nm before st) it0 hitems
  have hit2 : (applyTag (itemsTaggers ++ defaultTaggers) nm
      (before.foldl (applyTag (itemsTaggers ++ defaultTaggers) nm) st)
      ("itemsMinimum", .number n ex)).2.items
      = some (some (it1.setProps { it1.props with minimum := some n, exclusiveMinimum := ex })) := by
    rw [applyTag_itemsMinimum nm _ it1 n ex hit1, Schema.items_putItems]
  obtain ⟨it3, hit3, hmin3, hex3⟩ := foldl_applyTag_items_minimum_keep nm after _ _ hlast hit2
  obtain ⟨it4, hit4, ht4, hf4⟩ := fieldFrame_items
    (foldl_applyTag_fieldFrame (itemsTaggers ++ defaultTaggers) nm after _) _ hit2
  have h34 : it4 = it3 := Option.some.inj (Option.some.inj (hit4.symm.trans hit3))
  subst h34
  refine ⟨it4, hit3, ?_, ?_, ?_, ?_⟩
  · rw [ht4, Schema.props_setProps]; exact ht1
  · rw [hf4, Schema.props_setProps]; exact hf1
  · rw [hmin3, Schema.props_setProps]
  · rw [hex3, Schema.props_setProps]

/-- What the type mapping of a slice of a primitive leaves. -/
theorem primitive_slice_facts (prop : Schema) (tpe format : String) :
    (prop.itemsTarget.1.putItems (prop.itemsTarget.2.typed tpe format)).props.type = ["array"] ∧
    (prop.itemsTarget.1.putItems (prop.itemsTarget.2.typed tpe format)).props.minimum
      = prop.props.minimum ∧
    (prop.itemsTarget.1.putItems (prop.itemsTarget.2.typed tpe format)).props.ref
      = prop.props.ref ∧
    (prop.itemsTarget.1.putItems (prop.itemsTarget.2.typed tpe format)).items
      = some (some (prop.itemsTarget.2.typed tpe format)) ∧
    (prop.itemsTarget.2.typed tpe format).props.type = [tpe] ∧
    (prop.itemsTarget.2.typed tpe format).props.format = format := by
  cases prop with
  | mk p i a pr =>
    refine ⟨rfl, rfl, rfl, rfl, ?_, ?_⟩
    · cases (Schema.mk p i a pr).itemsTarget.2; rfl
    · cases (Schema.mk p i a pr).itemsTarget.2; rfl

/-! ## Claims -/

/-- C1, at the failing input `struct { A, B int }`: the struct mapping
returns without error and stores the single property `A`; the second name of
the field, `B`, gets no property although it declares an exported field. -/
theorem parseStructType_twoNames :
    (parseStructType goLib Example.emptyProg 2 Example.emptyFile Schema.empty
      (some Example.twoNames) [] []).map (fun r => (r.1.keys, r.2.2.2))
      = some (["A"], none) := by
  decide

/-- C5: an identifier that `findSourceFile` resolves in the package of the
file to a declaration with a struct type and without string-format marker
makes `parseProperty` return no error and a target whose reference is
`#/definitions/` followed by the external name of the declaration and whose
every other part (the other fields, items, additional properties and
properties) is as it was: no field of the struct is mapped into it. The
worklist is the one before with exactly one entry appended, whatever it
held; the entry has the declaration and the type spec that were found
(given that the reference URI parses). -/
theorem parseProperty_ident_struct (L : Lib) (prog : Program) (fuel : Nat) (gofile : File)
    (name : String) (hasObj : Bool) (prop : Schema) (wl : List SchemaDecl)
    (pkg : PackageInfo) (file : File) (gd : GenDecl) (tsp : TypeSpec)
    (fields : Option (List Field))
    (hpkg : packageForFile prog gofile = .ok pkg)
    (hfind : findSourceFile L pkg name = .ok (file, gd, tsp))
    (hstruct : tsp.type = .structType fields)
    (hfmt : strfmtName L gd.doc = none)
    (href : L.refOk ("#/definitions/" ++
      (SchemaDecl.inferNames L ⟨gofile, gd, tsp, "", ""⟩).name) = true) :
    ∃ prop1 entry,
      parseProperty L prog (fuel + 1) gofile (.ident name hasObj) prop wl
        = some (prop1, wl ++ [entry], none) ∧
      prop1.props.ref = some ("#/definitions/" ++
        (SchemaDecl.inferNames L ⟨gofile, gd, tsp, "", ""⟩).name) ∧
      prop1 = .mk { prop.props with ref := some ("#/definitions/" ++
          (SchemaDecl.inferNames L ⟨gofile, gd, tsp, "", ""⟩).name) }
        prop.items prop.additionalProperties prop.properties ∧
      entry = SchemaDecl.inferNames L ⟨gofile, gd, tsp, "", ""⟩ ∧
      entry.decl = gd ∧ entry.typeSpec = tsp ∧
      (wl ++ [entry]).length = wl.length + 1 := by
  refine ⟨.mk { prop.props with ref := some ("#/definitions/" ++
      (SchemaDecl.inferNames L ⟨gofile, gd, tsp, "", ""⟩).name) }
    prop.items prop.additionalProperties prop.properties,
    SchemaDecl.inferNames L ⟨gofile, gd, tsp, "", ""⟩, ?_, rfl, rfl, rfl,
    (inferNames_typeSpec L _).2.2, (inferNames_typeSpec L _).1, by simp⟩
  rw [parseProperty.eq_2]
  simp only [hpkg, hfind, hstruct, hfmt]
  unfold refer Lib.newRef
  simp only [href, if_true]
  cases prop
  rfl

/-- C5, witness: a field of type `Pet` in the file that declares the struct
`Pet`, mapped onto a target typed string while the worklist already holds an
entry for `Pet`: the reference is set, the type stays, a second entry is
appended. -/
theorem parseProperty_ident_struct_witness :
    ∃ prop1 entry,
      parseProperty goLib Example.petProg 1 Example.petFile (.ident "Pet" false)
          (.mk { type := ["string"] } none none none) [Example.petEntry]
        = some (prop1, [Example.petEntry] ++ [entry], none) ∧
      prop1.props.ref = some "#/definitions/Pet" ∧
      prop1 = .mk { type := ["string"], ref := some "#/definitions/Pet" } none none none ∧
      entry = Example.petEntry ∧
      entry.decl = Example.petDecl ∧ entry.typeSpec = Example.petSpec ∧
      ([Example.petEntry] ++ [entry]).length = 2 :=
  parseProperty_ident_struct goLib Example.petProg 0 Example.petFile "Pet" false
    (.mk { type := ["string"] } none none none)
    [Example.petEntry] Example.petPkg Example.petFile Example.petDecl Example.petSpec
    (some [.mk none [some "Name"] (.ident "string" false) none]) rfl rfl rfl rfl rfl

/-- C6: when mapping the value type `T` onto an empty schema leaves the
schema `sT`, `parseProperty` on `map[string]T` with an empty target returns
no error, types the target as object and sets its additional-properties
schema to `sT`. -/
theorem parseProperty_map_string (L : Lib) (prog : Program) (fuel : Nat) (gofile : File)
    (hasObj : Bool) (T : Expr) (wl wl1 : List SchemaDecl) (sT : Schema) (e : Option Err)
    (h : parseProperty L prog fuel gofile T Schema.empty wl = some (sT, wl1, e)) :
    ∃ target, parseProperty L prog (fuel + 1) gofile (.mapType (.ident "string" hasObj) T)
        Schema.empty wl = some (target, wl1, none) ∧
      target.props.type = ["object"] ∧
      target.additionalProperties = some (false, some sT) ∧
      target = .mk { type := ["object"] } none (some (false, some sT)) none := by
  refine ⟨_, ?_, ?_, ?_, rfl⟩
  · rw [parseProperty.eq_7]
    simp only [if_true]
    have h1 : (match Schema.empty.additionalProperties with
        | some (_, some s) => s
        | _ => Schema.empty) = Schema.empty := rfl
    rw [h1, h]
    rfl
  · rfl
  · rfl

/-- C6, witness: `map[string]int` on an empty target. -/
theorem parseProperty_map_string_witness :
    ∃ target, parseProperty goLib Example.emptyProg 2 Example.emptyFile Example.mapStringInt
        Schema.empty [] = some (target, [], none) ∧
      target.props.type = ["object"] ∧
      target.additionalProperties = some (false, some (Schema.empty.typed "integer" "int64")) ∧
      target = .mk { type := ["object"] } none
        (some (false, some (Schema.empty.typed "integer" "int64"))) none :=
  parseProperty_map_string goLib Example.emptyProg 1 Example.emptyFile false
    (.ident "int" false) [] [] (Schema.empty.typed "integer" "int64") none rfl

/-- C7, as stated, fails: `map[int]string` on an empty target does not give
an object-typed schema. -/
theorem parseProperty_map_int_untyped :
    ¬ ((parseProperty goLib Example.emptyProg 2 Example.emptyFile Example.mapIntString
        Schema.empty []).map (fun r => r.1.props.type) = some ["object"]) := by
  decide

/-- C7, amended: on `map[int]T` `parseProperty` returns no error and leaves
target and worklist as they were, for every value type `T` and every
target; an empty target stays untyped, with no additional properties. -/
theorem parseProperty_map_int (L : Lib) (prog : Program) (fuel : Nat) (gofile : File)
    (hasObj : Bool) (T : Expr) (prop : Schema) (wl : List SchemaDecl) :
    parseProperty L prog (fuel + 1) gofile (.mapType (.ident "int" hasObj) T) prop wl
        = some (prop, wl, none) ∧
      (parseProperty L prog (fuel + 1) gofile (.mapType (.ident "int" hasObj) T)
        Schema.empty wl).map (fun r => (r.1.props.type, r.1.additionalProperties.isNone, r.2.2))
        = some ([], true, none) := by
  have h : parseProperty L prog (fuel + 1) gofile (.mapType (.ident "int" hasObj) T) prop wl
      = some (prop, wl, none) := by
    rw [parseProperty.eq_7]
    simp
  have h0 : parseProperty L prog (fuel + 1) gofile (.mapType (.ident "int" hasObj) T)
      Schema.empty wl = some (Schema.empty, wl, none) := by
    rw [parseProperty.eq_7]
    simp
  exact ⟨h, by rw [h0]; rfl⟩

/-- C9, at the failing input `*func()`: mapping the function type returns
the unsupported-construct error, mapping the pointer to it returns no
error; target and worklist are untouched in both. -/
theorem parseProperty_star_drops_error (L : Lib) (prog : Program) (gofile : File)
    (kind : String) (prop : Schema) (wl : List SchemaDecl) :
    parseProperty L prog 1 gofile (.other kind) prop wl = some (prop, wl, some .unsupported) ∧
    parseProperty L prog 2 gofile (.star (.other kind)) prop wl = some (prop, wl, none) :=
  ⟨rfl, rfl⟩

/-- C8, as stated, fails: for `struct { X interface{} }` the struct mapping
returns without error and the property map holds an entry under `X`. -/
theorem parseStructType_interface_entry :
    (parseStructType goLib Example.emptyProg 2 Example.emptyFile Schema.empty
      (some Example.ifaceFields) [] []).map (fun r => (r.1.keys, r.2.2.2))
      = some (["X"], none) := by
  decide

/-- C8, amended: on an interface type `parseProperty` returns no error and
leaves target and worklist untouched; the iteration over an exported field
of interface type therefore stores, under the property name of the field,
the property found there with the directives of the field applied; and a
struct mapping that returns without error leaves an entry under that name. -/
theorem interface_field_stored (L : Lib) (prog : Program) (fuel : Nat) (gofile : File)
    (fld : Field) (gnm : String) (rest : List (Option String)) (nm : String)
    (hn : fld.names = some gnm :: rest) (hex : isExported L gnm = true)
    (htype : fld.type = .interfaceType) (hnm : fieldName L gnm fld.tag = .ok nm) :
    (∀ prop wl, parseProperty L prog (fuel + 1) gofile .interfaceType prop wl
      = some (prop, wl, none)) ∧
    (∀ s sn w, ownStep L (parseProperty L prog (fuel + 1)) gofile (some (s, sn, w, none)) fld
      = some (storeField L fld gnm nm s (s.property nm) sn w)) ∧
    (∀ fields s sn w s1 sn1 w1, fld ∈ fields →
      parseStructType L prog (fuel + 2) gofile s (some fields) sn w = some (s1, sn1, w1, none) →
      nm ∈ s1.keys) := by
  refine ⟨fun prop wl => rfl, ?_, ?_⟩
  · intro s sn w
    unfold ownStep
    simp only [hn, hex, hnm, htype, if_true]
    rfl
  · intro fields s sn w s1 sn1 w1 hmem h
    obtain ⟨s2, sn2, w2, s3, _, hown, rfl⟩ :=
      parseStructType_ok L prog (fuel + 1) gofile s fields sn w s1 sn1 w1 h
    obtain ⟨h1, h2⟩ := ownLoop_stores L _ gofile fld gnm rest nm hn hex hnm fields hmem
      s2 sn2 w2 s3 sn1 w1 hown
    exact (mem_keys_prune s3 sn1 nm).2 ⟨h2, h1⟩

/-- C8, witness: the field `X interface{}` of `struct { X interface{} }`:
the struct mapping returns without error and `X` is a key of the result. -/
theorem interface_field_stored_witness :
    parseStructType goLib Example.emptyProg 2 Example.emptyFile Schema.empty
        (some Example.ifaceFields) [] [] = some (Example.ifaceSchema, ["X"], [], none) ∧
      "X" ∈ Example.ifaceSchema.keys :=
  ⟨rfl, (interface_field_stored goLib Example.emptyProg 0 Example.emptyFile
    Example.ifaceField "X" [] "X" rfl rfl rfl rfl).2.2
    Example.ifaceFields Schema.empty [] [] Example.ifaceSchema ["X"] []
    (List.mem_singleton.2 rfl) rfl⟩

/-- C10, as stated, fails: `fmts.Chunks`, declared `type Chunks [][]byte`
with the marker `swagger:strfmt chunks` in an imported package, turns an
empty target into an array whose items are strings of format `chunks`; the
target itself is not typed string. -/
theorem parseProperty_strfmt_selector_array :
    (parseProperty goLib Example.fmtsProg 3 Example.usesFmtsFile Example.fmtsChunks
      Schema.empty []).map (fun r => (r.1.props.type, r.1.props.format,
        r.1.items.map (fun i => i.map (fun it => (it.props.type, it.props.format))), r.2.2))
      = some (["array"], "", some (some (["string"], "chunks")), none) := by
  rfl

/-- The same-package path on a byte slice: inside package `fmts` the
identifier `Base64`, declared `type Base64 []byte` with the marker
`swagger:strfmt byte`, makes the target an array of strings of format
`byte`, while the selector `fmts.Base64` from another package types the
target itself as string of format `byte`. -/
theorem parseProperty_strfmt_byteSlice_paths :
    (parseProperty goLib Example.fmtsProg 3 Example.fmtsFile (.ident "Base64" true)
      Schema.empty []).map (fun r => (r.1.props.type, r.1.props.format,
        r.1.items.map (fun i => i.map (fun it => (it.props.type, it.props.format))), r.2.2))
      = some (["array"], "", some (some (["string"], "byte")), none) ∧
    (parseProperty goLib Example.fmtsProg 3 Example.usesFmtsFile Example.fmtsBase64
      Schema.empty []).map (fun r => (r.1.props.type, r.1.props.format, r.1.items.isNone, r.2.2))
      = some (["string"], "byte", true, none) :=
  ⟨rfl, rfl⟩

/-- C10, amended: let the declaration that a type name resolves to carry
the string-format marker `f`. A same-package identifier whose underlying
type is not a slice, and a selector whose underlying type is not a slice or
is a slice of a plain identifier (the byte slice), return no error and a
target with type string and format `f`, every other part of the target and
the worklist as they were. A selector whose underlying type is a slice of
anything else returns no error and a target with type array and empty
format whose items are the items it had (an empty schema when it had none)
with type string and format `f`; the other parts of target and items and
the worklist are as they were. -/
theorem strfmt_marker (L : Lib) (prog : Program) (fuel : Nat) (gofile : File) (prop : Schema)
    (wl : List SchemaDecl) (f : String) :
    (∀ name hasObj pkg file gd tsp, packageForFile prog gofile = .ok pkg →
      findSourceFile L pkg name = .ok (file, gd, tsp) → strfmtName L gd.doc = some f →
      (∀ elt, tsp.type ≠ .array elt) →
      parseProperty L prog (fuel + 1) gofile (.ident name hasObj) prop wl
        = some (.mk { prop.props with type := ["string"], format := f }
            prop.items prop.additionalProperties prop.properties, wl, none)) ∧
    (∀ x sel pkg file gd ts, packageForSelector L prog gofile x = .ok pkg →
      findSourceFile L pkg sel = .ok (file, gd, ts) → strfmtName L gd.doc = some f →
      ((∀ elt, ts.type ≠ .array elt) ∨ ∃ n o, ts.type = .array (.ident n o)) →
      parseProperty L prog (fuel + 3) gofile (.selector x sel) prop wl
        = some (.mk { prop.props with type := ["string"], format := f }
            prop.items prop.additionalProperties prop.properties, wl, none)) ∧
    (∀ x sel pkg file gd ts elt it, packageForSelector L prog gofile x = .ok pkg →
      findSourceFile L pkg sel = .ok (file, gd, ts) → strfmtName L gd.doc = some f →
      ts.type = .array elt → (∀ n o, elt ≠ .ident n o) →
      (prop.items = some (some it) ∨ ((∀ i, prop.items ≠ some (some i)) ∧ it = Schema.empty)) →
      parseProperty L prog (fuel + 3) gofile (.selector x sel) prop wl
        = some (.mk { prop.props with type := ["array"], format := "" }
            (some (some (.mk { it.props with type := ["string"], format := f }
              it.items it.additionalProperties it.properties)))
            prop.additionalProperties prop.properties, wl, none)) := by
  refine ⟨?_, ?_, ?_⟩
  · intro name hasObj pkg file gd tsp hpkg hfind hfmt hna
    rw [parseProperty.eq_2]
    simp only [hpkg, hfind]
    cases htype : tsp.type with
    | array elt => exact absurd htype (hna elt)
    | _ => simp only [hfmt]; cases prop; rfl
  · intro x sel pkg file gd ts hpkg hfind hfmt hshape
    rw [parseProperty.eq_6, typeForSelector.eq_2]
    simp only [hpkg]
    rw [parseSelectorProperty.eq_2]
    simp only [hfind, hfmt]
    rcases hshape with hna | ⟨n, o, harr⟩
    · cases htype : ts.type with
      | array elt => exact absurd htype (hna elt)
      | _ => cases prop; rfl
    · rw [harr]
      cases prop
      rfl
  · intro x sel pkg file gd ts elt it hpkg hfind hfmt harr hne hit
    rw [parseProperty.eq_6, typeForSelector.eq_2]
    simp only [hpkg]
    rw [parseSelectorProperty.eq_2]
    simp only [hfind, hfmt, harr]
    cases prop with
    | mk p i a pr =>
      rcases hit with hsome | ⟨hnone, rfl⟩
      · simp only [Schema.items_mk] at hsome
        subst hsome
        cases it
        rfl
      · simp only [Schema.items_mk] at hnone
        match i, hnone with
        | none, _ => rfl
        | some none, _ => rfl
        | some (some i1), h => exact absurd rfl (h i1)

/-- C10, witness: the selector `fmts.Base64` (a marked byte slice) and the
selector `fmts.Chunks` (a marked slice of slices), on an empty target. -/
theorem strfmt_marker_witness :
    parseProperty goLib Example.fmtsProg 3 Example.usesFmtsFile Example.fmtsBase64
        Schema.empty []
      = some (.mk { type := ["string"], format := "byte" } none none none, [], none) ∧
    parseProperty goLib Example.fmtsProg 3 Example.usesFmtsFile Example.fmtsChunks
        Schema.empty []
      = some (.mk { type := ["array"], format := "" }
          (some (some (.mk { type := ["string"], format := "chunks" } none none none)))
          none none, [], none) :=
  ⟨(strfmt_marker goLib Example.fmtsProg 0 Example.usesFmtsFile Schema.empty [] "byte").2.1
      (.ident "fmts" false) "Base64" Example.fmtsPkg Example.fmtsFile Example.base64Decl
      Example.base64Spec rfl rfl (by decide) (Or.inr ⟨"byte", false, rfl⟩),
   (strfmt_marker goLib Example.fmtsProg 0 Example.usesFmtsFile Schema.empty [] "chunks").2.2
      (.ident "fmts" false) "Chunks" Example.fmtsPkg Example.fmtsFile Example.chunksDecl
      Example.chunksSpec (.array (.ident "byte" false)) Schema.empty rfl rfl (by decide) rfl
      (fun _ _ h => Expr.noConfusion h)
      (Or.inr ⟨fun _ h => (by cases h), rfl⟩)⟩

/-- C3: after a struct mapping that started with an empty seen-set and
returned without error, the keys of the property map are exactly the names
of the final seen-set, whatever the property map held before. In a program
whose struct types have field lists, as the Go parser builds them, the
seen-set is exactly the set of names that the embedded structs and the own
exported fields write, so a key that was present before the call and is not
written during it is absent afterwards. -/
theorem pruning (L : Lib) (prog : Program) (fuel : Nat) (gofile : File) (s : Schema)
    (fields : List Field) (w : List SchemaDecl)
    (s1 : Schema) (sn1 : List String) (w1 : List SchemaDecl)
    (h : parseStructType L prog fuel gofile s (some fields) [] w = some (s1, sn1, w1, none)) :
    (∀ k, k ∈ s1.keys ↔ k ∈ sn1) ∧
    (prog.fieldListsPresent = true →
      (∀ k, k ∈ sn1 ↔ k ∈ writtenKeys L prog fuel gofile (some fields)) ∧
      (∀ k, k ∈ s.keys → k ∉ writtenKeys L prog fuel gofile (some fields) → k ∉ s1.keys)) := by
  have hstored : SeenStored s [] := fun k hk => absurd hk (List.not_mem_nil k)
  have hkeys : ∀ k, k ∈ s1.keys ↔ k ∈ sn1 := fun k =>
    ⟨keys_seen L prog fuel gofile s fields [] w s1 sn1 w1 h k,
      seenStored_parseStructType L prog fuel gofile s (some fields) [] w s1 sn1 w1 hstored h k⟩
  refine ⟨hkeys, fun hwf => ?_⟩
  have hseen : ∀ k, k ∈ sn1 ↔ k ∈ writtenKeys L prog fuel gofile (some fields) := by
    intro k
    rw [(seen_fuel L prog hwf fuel).1 gofile s (some fields) [] w s1 sn1 w1 hstored h k]
    simp
  exact ⟨hseen, fun k _ hnot hk => hnot ((hseen k).1 ((hkeys k).1 hk))⟩

/-- C3, witness: `type D struct { B; X string }` mapped onto a schema that
still holds the property `Old`: the keys and the seen-set are both `X`, and
`Old` is gone. -/
theorem pruning_witness :
    parseStructType goLib Example.embedProg 5 Example.embedFile Example.staleSchema
        (some Example.derivedFields) [] [] = some (Example.derivedSchema, ["X"], [], none) ∧
      "Old" ∈ Example.staleSchema.keys ∧ "Old" ∉ Example.derivedSchema.keys :=
  ⟨rfl, by decide,
    ((pruning goLib Example.embedProg 5 Example.embedFile Example.staleSchema
      Example.derivedFields [] Example.derivedSchema ["X"] [] rfl).2 rfl).2 "Old"
      (by decide) (by decide)⟩

/-- C13: for a declaration whose names are not cached, `inferNames` returns
the identifier of the type spec as internal name; the external name is the
non-empty capture of the first line of the doc comment, in comment order
then line order, on which the model-naming directive captures one, whatever
the later lines hold, and the identifier itself when there is no doc
comment or no line has such a capture. -/
theorem inferNames_spec (L : Lib) (sd : SchemaDecl) (hfresh : sd.goName = "") :
    (sd.inferNames L).goName = sd.typeSpec.name ∧
    (sd.decl.doc = none → (sd.inferNames L).name = sd.typeSpec.name) ∧
    (∀ doc, sd.decl.doc = some doc → (∀ l, l ∈ doc.lines → modelCapture L l = none) →
      (sd.inferNames L).name = sd.typeSpec.name) ∧
    (∀ doc pre ln post c, sd.decl.doc = some doc → doc.lines = pre ++ ln :: post →
      (∀ l, l ∈ pre → modelCapture L l = none) → modelCapture L ln = some c →
      (sd.inferNames L).name = c ∧ c ≠ "") := by
  have hunfold : sd.inferNames L = { sd with
      goName := sd.typeSpec.name,
      name := match sd.decl.doc with
        | none => sd.typeSpec.name
        | some doc =>
          match firstCapture L.rxModelOverride id doc.lines with
          | some n => n
          | none => sd.typeSpec.name } := by
    unfold SchemaDecl.inferNames
    rw [if_neg (by rw [hfresh]; simp)]
  rw [hunfold]
  refine ⟨rfl, ?_, ?_, ?_⟩
  · intro hdoc
    simp only [hdoc]
  · intro doc hdoc hnone
    simp only [hdoc, firstCapture_none L doc.lines hnone]
  · intro doc pre ln post c hdoc hlines hpre hln
    simp only [hdoc, hlines, firstCapture_first L pre ln post c hpre hln, true_and]
    intro hc
    unfold modelCapture at hln
    split at hln
    · split at hln
      · rename_i hlen
        simp only [Option.some.injEq] at hln
        rw [hln, hc] at hlen
        simp at hlen
      · simp at hln
    · simp at hln

/-- C13, witness: `Pet` with the doc comment lines `// Pet is a pet`,
`// swagger:model pet` and, in a second comment, `// swagger:model other`:
the internal name is `Pet`, the external name `pet`. -/
theorem inferNames_spec_witness :
    (Example.namedPet.inferNames goLib).goName = "Pet" ∧
    ((Example.namedPet.inferNames goLib).name = "pet" ∧ "pet" ≠ "") :=
  ⟨(inferNames_spec goLib Example.namedPet rfl).1,
   (inferNames_spec goLib Example.namedPet rfl).2.2.2 Example.petDoc ["// Pet is a pet"]
      "// swagger:model pet" ["// swagger:model other"] "pet" rfl (by decide)
      (by decide) (by decide)⟩

/-- C15: `findSourceFile` returns the not-found error exactly when no type
spec of any declaration of any file of the package has the identifier
`typeName` or stands in a declaration whose string-format marker is
`typeName`; otherwise it returns the first matching type spec, in file
order, then declaration order, then spec order, with the file and the
declaration that hold it. -/
theorem findSourceFile_spec (L : Lib) (pkg : PackageInfo) (typeName : String) :
    (findSourceFile L pkg typeName = .error (.notFound typeName pkg.path) ↔
      noMatchFiles L typeName pkg.files) ∧
    ((∃ e, findSourceFile L pkg typeName = .error e) ↔ noMatchFiles L typeName pkg.files) ∧
    (∀ file gd ts, findSourceFile L pkg typeName = .ok (file, gd, ts) →
      ∃ fpre fpost dpre dpost spre spost,
        pkg.files = fpre ++ file :: fpost ∧ noMatchFiles L typeName fpre ∧
        file.decls = dpre ++ Decl.gen gd :: dpost ∧ noMatchDecls L typeName dpre ∧
        gd.specs = spre ++ Spec.typeSpec ts :: spost ∧ noMatchSpecs L typeName gd spre ∧
        specMatches L typeName gd ts) := by
  have hiff := findInFiles_none_iff L typeName pkg.files
  refine ⟨?_, ?_, ?_⟩
  · unfold findSourceFile
    cases hf : findInFiles L typeName pkg.files with
    | none => exact ⟨fun _ => hiff.1 hf, fun _ => rfl⟩
    | some r =>
      constructor
      · intro h
        simp at h
      · intro h
        rw [hiff.2 h] at hf
        simp at hf
  · unfold findSourceFile
    cases hf : findInFiles L typeName pkg.files with
    | none => exact ⟨fun _ => hiff.1 hf, fun _ => ⟨_, rfl⟩⟩
    | some r =>
      constructor
      · rintro ⟨e, he⟩
        simp at he
      · intro h
        rw [hiff.2 h] at hf
        simp at hf
  · intro file gd ts h
    unfold findSourceFile at h
    cases hf : findInFiles L typeName pkg.files with
    | none => rw [hf] at h; simp at h
    | some r =>
      rw [hf] at h
      simp only [Except.ok.injEq] at h
      subst h
      obtain ⟨fpre, fpost, hfiles, hfpre, hdecl⟩ := findInFiles_some L typeName _ _ _ _ hf
      obtain ⟨dpre, dpost, hdecls, hdpre, hspec⟩ := findInDecls_some L typeName _ _ _ hdecl
      obtain ⟨spre, spost, hspecs, hmatch, hspre⟩ := findInSpecs_some L _ typeName _ _ hspec
      exact ⟨fpre, fpost, dpre, dpost, spre, spost, hfiles, hfpre, hdecls, hdpre, hspecs,
        hspre, hmatch⟩

/-- C15, witness: in a package whose first file declares `Chunks` and then
`Base64` and whose second file declares `Base64` again, the lookup of
`Base64` returns the declaration of the first file, after `Chunks`. -/
theorem findSourceFile_spec_witness :
    ∃ fpre fpost dpre dpost spre spost,
      Example.fmtsPkg2.files = fpre ++ Example.fmtsFile :: fpost ∧
      noMatchFiles goLib "Base64" fpre ∧
      Example.fmtsFile.decls = dpre ++ Decl.gen Example.base64Decl :: dpost ∧
      noMatchDecls goLib "Base64" dpre ∧
      Example.base64Decl.specs = spre ++ Spec.typeSpec Example.base64Spec :: spost ∧
      noMatchSpecs goLib "Base64" Example.base64Decl spre ∧
      specMatches goLib "Base64" Example.base64Decl Example.base64Spec :=
  (findSourceFile_spec goLib Example.fmtsPkg2 "Base64").2.2 Example.fmtsFile
    Example.base64Decl Example.base64Spec rfl

/-- C17: for a field whose first name `gnm` is exported, the property key
is the identifier `gnm` when the field has no tag, a blank tag, a tag whose
unquoted text is blank or a tag without json value, and the portion of the
json value before its first comma when that value is not empty; a
successful iteration stores the property under that key and touches no
other key; a tag literal that is not blank and does not unquote makes the
iteration return the error at once, so the struct mapping never returns
without error. -/
theorem field_naming (L : Lib) (prog : Program) (fuel : Nat) (gofile : File) (fld : Field)
    (gnm : String) (rest : List (Option String))
    (hn : fld.names = some gnm :: rest) (hex : isExported L gnm = true) :
    (fld.tag = none → fieldName L gnm fld.tag = .ok gnm) ∧
    (∀ lit, fld.tag = some lit → trimSpace lit = "" → fieldName L gnm fld.tag = .ok gnm) ∧
    (∀ lit tv, fld.tag = some lit → trimSpace lit ≠ "" → L.unquote lit = some tv →
      (trimSpace tv = "" ∨ L.structTagGet tv "json" = "") →
      fieldName L gnm fld.tag = .ok gnm) ∧
    (∀ lit tv, fld.tag = some lit → trimSpace lit ≠ "" → L.unquote lit = some tv →
      trimSpace tv ≠ "" → L.structTagGet tv "json" ≠ "" →
      fieldName L gnm fld.tag = .ok (beforeComma (L.structTagGet tv "json"))) ∧
    (∀ nm s sn w s1 sn1 w1, fieldName L gnm fld.tag = .ok nm →
      ownStep L (parseProperty L prog fuel) gofile (some (s, sn, w, none)) fld
        = some (s1, sn1, w1, none) →
      (∀ k, k ∈ s1.keys ↔ k = nm ∨ k ∈ s.keys) ∧ nm ∈ sn1 ∧
        ∀ k, k ≠ nm → s1.property k = s.property k) ∧
    (∀ lit, fld.tag = some lit → trimSpace lit ≠ "" → L.unquote lit = none →
      (∀ s sn w, ownStep L (parseProperty L prog fuel) gofile (some (s, sn, w, none)) fld
        = some (s, sn, w, some (.unquote lit))) ∧
      ∀ fields s sn w s1 sn1 w1 e, fld ∈ fields →
        parseStructType L prog fuel gofile s (some fields) sn w = some (s1, sn1, w1, e) →
        e ≠ none) := by
  refine ⟨?_, ?_, ?_, ?_, ?_, ?_⟩
  · intro htag
    rw [htag]
    rfl
  · intro lit htag hblank
    rw [htag]
    unfold fieldName
    simp only
    rw [if_neg (by rw [length_pos_iff_ne_empty]; exact fun h => h hblank)]
  · intro lit tv htag hlit hunq hno
    rw [htag]
    unfold fieldName
    simp only
    rw [if_pos ((length_pos_iff_ne_empty _).2 hlit)]
    simp only [hunq]
    rcases hno with hblank | hjson
    · rw [if_neg (fun h => h hblank)]
    · by_cases htv : trimSpace tv ≠ ""
      · rw [if_pos htv, if_neg (fun h => h hjson)]
      · rw [if_neg htv]
  · intro lit tv htag hlit hunq htv hjson
    rw [htag]
    unfold fieldName
    simp only
    rw [if_pos ((length_pos_iff_ne_empty _).2 hlit)]
    simp only [hunq]
    rw [if_pos htv, if_pos hjson, stringsSplit_head]
  · intro nm s sn w s1 sn1 w1 hnm hstep
    obtain ⟨ps, wl1, _, hst⟩ :=
      ownStep_named L _ gofile s sn w fld gnm rest nm s1 sn1 w1 hn hex hnm hstep
    obtain ⟨hsn, _, hkeys⟩ := storeField_ok L fld gnm nm s ps sn wl1 s1 sn1 w1 hst
    refine ⟨hkeys, ?_, (storeField_property L fld gnm nm s ps sn wl1 s1 sn1 w1 hst).2⟩
    rw [hsn]
    exact (mem_seenAdd sn nm nm).2 (Or.inl rfl)
  · intro lit htag hlit hunq
    have hname : fieldName L gnm fld.tag = .error (.unquote lit) := by
      rw [htag]
      unfold fieldName
      simp only
      rw [if_pos ((length_pos_iff_ne_empty _).2 hlit)]
      simp only [hunq]
    have hstep : ∀ s sn w, ownStep L (parseProperty L prog fuel) gofile
        (some (s, sn, w, none)) fld = some (s, sn, w, some (.unquote lit)) := by
      intro s sn w
      unfold ownStep
      simp only [hn, hex, hname, if_true]
    refine ⟨hstep, ?_⟩
    intro fields s sn w s1 sn1 w1 e hmem h he
    subst he
    cases fuel with
    | zero => simp [parseStructType] at h
    | succ fuel =>
      obtain ⟨s2, sn2, w2, s3, _, hown, _⟩ :=
        parseStructType_ok L prog fuel gofile s fields sn w s1 sn1 w1 h
      obtain ⟨t, tn, tw, t1, tn1, tw1, hfld⟩ := foldl_mem_ok
        (ownStep L (parseProperty L prog fuel) gofile) (ownStep_none L _ gofile)
        (fun u un uw e a => ownStep_err L _ gofile u un uw e a) fld fields hmem
        s2 sn2 w2 s3 sn1 w1 hown
      unfold ownStep at hfld
      simp [hn, hex, hname] at hfld

/-- C17, witness: the field `Name string` tagged `json:"name,omitempty"` has
the key `name`; with a tag literal that lacks its closing quote the struct
mapping returns the unquote error. -/
theorem field_naming_witness :
    fieldName goLib "Name" Example.taggedField.tag = .ok (beforeComma "name,omitempty") ∧
    parseStructType goLib Example.emptyProg 2 Example.emptyFile Schema.empty
        (some [Example.badTagField]) [] []
      = some (.mk { type := ["object"] } none none (some []), [], [],
          some (.unquote "\x60json:\"name\"")) ∧
    some (Err.unquote "\x60json:\"name\"") ≠ none :=
  ⟨(field_naming goLib Example.emptyProg 1 Example.emptyFile Example.taggedField "Name" []
      rfl rfl).2.2.2.1 "\x60json:\"name,omitempty\"\x60" "json:\"name,omitempty\"" rfl
      (by decide) (by decide) (by decide) (by decide),
   rfl,
   ((field_naming goLib Example.emptyProg 2 Example.emptyFile Example.badTagField "Name" []
      rfl rfl).2.2.2.2.2 "\x60json:\"name\"" rfl (by decide) (by decide)).2
      [Example.badTagField] Schema.empty [] []
      (.mk { type := ["object"] } none none (some [])) [] []
      (some (.unquote "\x60json:\"name\"")) (List.mem_singleton.2 rfl) rfl⟩

/-- C18: the struct mapping returns the same schema, seen-set, worklist
and error for a field list and for the list with all anonymous fields moved
ahead of all named fields. When it returns without error, it has flattened
the anonymous fields in their order, each onto what the earlier ones left,
then mapped the named fields in their order onto the result, then pruned:
an own field is applied after every embedded struct and a later embedded
struct after an earlier one. -/
theorem embed_before_own (L : Lib) (prog : Program) (fuel : Nat) (gofile : File) (s : Schema)
    (fields : List Field) (sn : List String) (w : List SchemaDecl) :
    parseStructType L prog fuel gofile s (some fields) sn w
      = parseStructType L prog fuel gofile s (some (embedsFirst fields)) sn w ∧
    ∀ s1 sn1 w1, parseStructType L prog (fuel + 1) gofile s (some fields) sn w
        = some (s1, sn1, w1, none) →
      ∃ s2 sn2 w2 s3,
        (fields.filter (fun fld => fld.anonymous)).foldl
          (embedStep (parseEmbeddedStruct L prog fuel) gofile)
          (some (if (s.typed "object" "").properties.isNone
            then (s.typed "object" "").setProperties (some []) else s.typed "object" "",
            sn, w, none)) = some (s2, sn2, w2, none) ∧
        (fields.filter (fun fld => !fld.anonymous)).foldl
          (ownStep L (parseProperty L prog fuel) gofile) (some (s2, sn2, w2, none))
          = some (s3, sn1, w1, none) ∧
        s1 = prune s3 sn1 := by
  constructor
  · cases fuel with
    | zero => simp [parseStructType]
    | succ fuel =>
      simp only [parseStructType, embedLoop_embedsFirst, ownLoop_embedsFirst]
  · intro s1 sn1 w1 h
    obtain ⟨s2, sn2, w2, s3, hemb, hown, hprune⟩ :=
      parseStructType_ok L prog fuel gofile s fields sn w s1 sn1 w1 h
    rw [embedLoop_filter] at hemb
    rw [ownLoop_filter] at hown
    exact ⟨s2, sn2, w2, s3, hemb, hown, hprune⟩

/-- C18, witness: `struct { X string; B }` over `type B struct { X []int }`
gives the schema of `struct { B; X string }`: the own field `X` is applied
after the embedded `B` although it is declared first. -/
theorem embed_before_own_witness :
    parseStructType goLib Example.embedProg 5 Example.embedFile Schema.empty
        (some [Example.stringField, Example.baseField]) [] []
      = some (Example.derivedSchema, ["X"], [], none) ∧
    ∃ s2 sn2 w2 s3,
      ([Example.stringField, Example.baseField].filter (fun fld => fld.anonymous)).foldl
        (embedStep (parseEmbeddedStruct goLib Example.embedProg 4) Example.embedFile)
        (some (if (Schema.empty.typed "object" "").properties.isNone
          then (Schema.empty.typed "object" "").setProperties (some [])
          else Schema.empty.typed "object" "", [], [], none)) = some (s2, sn2, w2, none) ∧
      ([Example.stringField, Example.baseField].filter (fun fld => !fld.anonymous)).foldl
        (ownStep goLib (parseProperty goLib Example.embedProg 4) Example.embedFile)
        (some (s2, sn2, w2, none)) = some (s3, ["X"], [], none) ∧
      Example.derivedSchema = prune s3 ["X"] :=
  ⟨rfl, (embed_before_own goLib Example.embedProg 4 Example.embedFile Schema.empty
    [Example.stringField, Example.baseField] [] []).2 Example.derivedSchema ["X"] [] rfl⟩

/-- C19, at the failing input `type A []A`: whatever the fuel, the target
and the worklist, `parseProperty` on the identifier `A` and on the slice
`[]A` runs out of fuel, so the mapping of a field of type `A` does not
terminate; the struct `type Node struct { Next *Node }` is mapped to a
reference at once. -/
theorem parseProperty_self_slice (fuel : Nat) :
    (∀ hasObj prop wl, parseProperty goLib Example.selfProg fuel Example.selfFile
      (.ident "A" hasObj) prop wl = none) ∧
    (∀ prop wl, parseProperty goLib Example.selfProg fuel Example.selfFile
      (.array (.ident "A" true)) prop wl = none) ∧
    (parseProperty goLib Example.selfProg 2 Example.selfFile (.star (.ident "Node" true))
      Schema.empty []).map (fun r => (r.1.props.ref, r.2.2))
      = some (some "#/definitions/Node", none) := by
  refine ⟨?_, ?_, rfl⟩
  · induction fuel using Nat.strong_induction_on with
    | _ n ih =>
      intro hasObj prop wl
      match n with
      | 0 => rfl
      | 1 => rfl
      | k + 2 =>
        have hpkg : packageForFile Example.selfProg Example.selfFile = .ok Example.selfPkg := rfl
        have hfind : findSourceFile goLib Example.selfPkg "A"
            = .ok (Example.selfFile, Example.selfSliceDecl, Example.selfSliceSpec) := rfl
        have hfmt : strfmtName goLib Example.selfSliceDecl.doc = none := rfl
        have htype : Example.selfSliceSpec.type = .array (.ident "A" true) := rfl
        rw [parseProperty.eq_2]
        simp only [hpkg, hfind, htype, hfmt]
        rw [parseProperty.eq_4, ih k (by omega) true]
  · induction fuel using Nat.strong_induction_on with
    | _ n ih =>
      intro prop wl
      match n with
      | 0 => rfl
      | 1 => rfl
      | 2 => rfl
      | k + 3 =>
        have hpkg : packageForFile Example.selfProg Example.selfFile = .ok Example.selfPkg := rfl
        have hfind : findSourceFile goLib Example.selfPkg "A"
            = .ok (Example.selfFile, Example.selfSliceDecl, Example.selfSliceSpec) := rfl
        have hfmt : strfmtName goLib Example.selfSliceDecl.doc = none := rfl
        have htype : Example.selfSliceSpec.type = .array (.ident "A" true) := rfl
        rw [parseProperty.eq_4, parseProperty.eq_2]
        simp only [hpkg, hfind, htype, hfmt]
        rw [ih (k + 1) (by omega)]

/-- C20: an anonymous field resolves only when its type is an identifier
or a selector that `findSourceFile` resolves to a type spec with a struct
type; a pointer, an unresolved name and a name of another type do not
resolve. For a field that does not resolve, `parseEmbeddedStruct` returns
an error and the struct mapping of the owning struct never returns without
error; it returns that error at once when the field comes first. A
`parseEmbeddedStruct` that returns without error has resolved the field and
mapped the struct type it resolved to. -/
theorem embedded_must_be_struct (L : Lib) (prog : Program) (fuel : Nat) (gofile : File) :
    (∀ expr, (∀ n o, expr ≠ .ident n o) → (∀ x sel, expr ≠ .selector x sel) →
      resolveEmbedded L prog gofile expr = none) ∧
    (∀ n o pkg e, packageForFile prog gofile = .ok pkg → findSourceFile L pkg n = .error e →
      resolveEmbedded L prog gofile (.ident n o) = none) ∧
    (∀ n o pkg file gd ts, packageForFile prog gofile = .ok pkg →
      findSourceFile L pkg n = .ok (file, gd, ts) → (∀ st, ts.type ≠ .structType st) →
      resolveEmbedded L prog gofile (.ident n o) = none) ∧
    (∀ s expr sn w, resolveEmbedded L prog gofile expr = none →
      ∃ e, parseEmbeddedStruct L prog (fuel + 1) gofile s expr sn w
        = some (s, sn, w, some e)) ∧
    (∀ s expr sn w s1 sn1 w1,
      parseEmbeddedStruct L prog (fuel + 1) gofile s expr sn w = some (s1, sn1, w1, none) →
      ∃ file st, resolveEmbedded L prog gofile expr = some (file, st) ∧
        parseStructType L prog fuel file s st sn w = some (s1, sn1, w1, none)) ∧
    (∀ fields fld s sn w s1 sn1 w1 e, fld ∈ fields → fld.names = [] →
      resolveEmbedded L prog gofile fld.type = none →
      parseStructType L prog (fuel + 2) gofile s (some fields) sn w = some (s1, sn1, w1, e) →
      e ≠ none) ∧
    (∀ fld rest s sn w, fld.names = [] → resolveEmbedded L prog gofile fld.type = none →
      ∃ s1 e, parseStructType L prog (fuel + 2) gofile s (some (fld :: rest)) sn w
        = some (s1, sn, w, some e)) := by
  refine ⟨?_, ?_, ?_, ?_, ?_, ?_, ?_⟩
  · intro expr hid hsel
    cases expr with
    | ident n o => exact absurd rfl (hid n o)
    | selector x sel => exact absurd rfl (hsel x sel)
    | _ => rfl
  · intro n o pkg e hpkg hfind
    unfold resolveEmbedded
    simp only [hpkg, hfind]
  · intro n o pkg file gd ts hpkg hfind hns
    unfold resolveEmbedded
    cases htype : ts.type with
    | structType st => exact absurd htype (hns st)
    | _ => simp only [hpkg, hfind, htype]
  · intro s expr sn w h
    exact parseEmbeddedStruct_unresolved L prog fuel gofile s expr sn w h
  · intro s expr sn w s1 sn1 w1 h
    obtain ⟨file, st, hres, _, hst⟩ :=
      parseEmbeddedStruct_resolved L prog fuel gofile s expr sn w s1 sn1 w1 h
    exact ⟨file, st, hres, hst⟩
  · intro fields fld s sn w s1 sn1 w1 e hmem hnil hres h he
    subst he
    obtain ⟨s2, sn2, w2, s3, hemb, _, _⟩ :=
      parseStructType_ok L prog (fuel + 1) gofile s fields sn w s1 sn1 w1 h
    obtain ⟨t, tn, tw, t1, tn1, tw1, hfld⟩ := foldl_mem_ok
      (embedStep (parseEmbeddedStruct L prog (fuel + 1)) gofile) (embedStep_none _ gofile)
      (fun u un uw e a => embedStep_err _ gofile u un uw e a) fld fields hmem
      _ sn w s2 sn2 w2 hemb
    rcases embedStep_ok _ gofile t tn tw fld t1 tn1 tw1 hfld with
      ⟨hne, _, _, _⟩ | ⟨tn2, _, hpe, _⟩
    · exact hne hnil
    · obtain ⟨e, he⟩ := parseEmbeddedStruct_unresolved L prog fuel gofile t fld.type tn tw hres
      rw [he] at hpe
      simp at hpe
  · intro fld rest s sn w hnil hres
    obtain ⟨e, he⟩ := parseEmbeddedStruct_unresolved L prog fuel gofile
      (if (s.typed "object" "").properties.isNone
        then (s.typed "object" "").setProperties (some []) else s.typed "object" "")
      fld.type sn w hres
    refine ⟨if (s.typed "object" "").properties.isNone
      then (s.typed "object" "").setProperties (some []) else s.typed "object" "", e, ?_⟩
    have hstep : embedStep (parseEmbeddedStruct L prog (fuel + 1)) gofile
        (some (if (s.typed "object" "").properties.isNone
          then (s.typed "object" "").setProperties (some []) else s.typed "object" "",
          sn, w, none)) fld
        = some (if (s.typed "object" "").properties.isNone
          then (s.typed "object" "").setProperties (some []) else s.typed "object" "",
          sn, w, some e) := by
      unfold embedStep
      simp only [hnil, he]
    simp only [parseStructType, List.foldl_cons, hstep]
    rw [foldl_absorb_err _ (fun u un uw e a => embedStep_err _ gofile u un uw e a)]

/-- C20, witness: `struct { *B }` in the program that declares the struct
`B`: the embedded pointer does not resolve and the struct mapping returns
the error. -/
theorem embedded_must_be_struct_witness :
    resolveEmbedded goLib Example.embedProg Example.embedFile Example.pointerEmbed.type = none ∧
    ∃ s1 e, parseStructType goLib Example.embedProg 2 Example.embedFile Schema.empty
      (some [Example.pointerEmbed]) [] [] = some (s1, [], [], some e) :=
  ⟨(embedded_must_be_struct goLib Example.embedProg 0 Example.embedFile).1
      Example.pointerEmbed.type (fun _ _ h => Expr.noConfusion h)
      (fun _ _ h => Expr.noConfusion h),
   (embedded_must_be_struct goLib Example.embedProg 0 Example.embedFile).2.2.2.2.2.2
      Example.pointerEmbed [] Schema.empty [] [] rfl rfl⟩

/-- C16, as stated, fails: in a file that declares
`type Good struct { Keep string }` under `// swagger:model Bad` and then
`type Bad struct { New string; F func() }`, the synthesis of `Bad` fails on
the function type and `Parse` returns the error; the definitions, empty
before the call, hold an entry under `Bad`, the external name of the
failing declaration, with the properties `Keep` and `New`. -/
theorem parse_failed_name_present :
    (SchemaDecl.inferNames goLib
      ⟨Example.collideFile, Example.lateBadDecl, Example.lateBadSpec, "", ""⟩).name = "Bad" ∧
    mapGet? ([] : Definitions) "Bad" = none ∧
    (Parse goLib Example.collideProg 4 Example.collideFile [] []).map
      (fun r => (r.1.map Prod.fst, (mapGet? r.1 "Bad").map Schema.keys, r.2.2))
      = some (["Bad"], some ["Keep", "New"], some .unsupported) := by
  refine ⟨by decide, rfl, ?_⟩
  decide

/-- C16, amended: when the declarations and type specs before a type spec
of the file are synthesised without error and `parseDecl` returns an error
for that type spec, `Parse` returns this error with the definitions and the
worklist as the failed `parseDecl` left them, whatever declarations and
type specs follow: none of them is synthesised. The failed `parseDecl` adds
no key to the definitions, removes none and changes no entry under another
name; when the definitions had no entry under the external name of the
failing declaration just before it, they are left unchanged. So the
definitions have no entry under that name afterwards when they had none
before the call and no type spec before the failing one in the file has
this external name. -/
theorem fail_fast (L : Lib) (prog : Program) (fuel : Nat) (gofile : File)
    (dpre : List Decl) (gd : GenDecl) (dpost : List Decl) (spre : List Spec) (ts : TypeSpec)
    (spost : List Spec) (tgt tgt1 tgt2 tgt3 : Definitions) (wl wl1 wl2 wl3 : List SchemaDecl)
    (e : Err)
    (hdecls : gofile.decls = dpre ++ Decl.gen gd :: dpost)
    (hspecs : gd.specs = spre ++ Spec.typeSpec ts :: spost)
    (hpre : parseDecls L prog fuel gofile dpre tgt wl = some (tgt1, wl1, none))
    (hspre : parseSpecs L prog fuel gofile gd spre tgt1 wl1 = some (tgt2, wl2, none))
    (hfail : parseDecl L prog fuel tgt2 (SchemaDecl.inferNames L ⟨gofile, gd, ts, "", ""⟩) wl2
      = some (tgt3, wl3, some e)) :
    Parse L prog fuel gofile tgt wl = some (tgt3, wl3, some e) ∧
    (mapGet? tgt2 (SchemaDecl.inferNames L ⟨gofile, gd, ts, "", ""⟩).name = none →
      tgt3 = tgt2 ∧
      mapGet? tgt3 (SchemaDecl.inferNames L ⟨gofile, gd, ts, "", ""⟩).name = none) ∧
    tgt3.map Prod.fst = tgt2.map Prod.fst ∧
    (∀ k, k ≠ (SchemaDecl.inferNames L ⟨gofile, gd, ts, "", ""⟩).name →
      mapGet? tgt3 k = mapGet? tgt2 k) ∧
    (mapGet? tgt (SchemaDecl.inferNames L ⟨gofile, gd, ts, "", ""⟩).name = none →
      (SchemaDecl.inferNames L ⟨gofile, gd, ts, "", ""⟩).name
        ∉ declNames L gofile dpre ++ specNames L gofile gd spre →
      mapGet? tgt3 (SchemaDecl.inferNames L ⟨gofile, gd, ts, "", ""⟩).name = none) := by
  have hframe := parseDecl_error_frame L prog fuel tgt2 _ wl2 tgt3 wl3 e hfail
  rw [inferNames_idem] at hframe
  have hsame : mapGet? tgt2 (SchemaDecl.inferNames L ⟨gofile, gd, ts, "", ""⟩).name = none →
      tgt3 = tgt2 ∧
      mapGet? tgt3 (SchemaDecl.inferNames L ⟨gofile, gd, ts, "", ""⟩).name = none := by
    intro hnew
    have heq := parseDecl_error L prog fuel tgt2 _ wl2 tgt3 wl3 e hfail
      (by rw [inferNames_idem]; exact hnew)
    rw [heq]
    exact ⟨rfl, hnew⟩
  refine ⟨?_, hsame, hframe.1, hframe.2, ?_⟩
  · unfold Parse
    rw [hdecls, parseDecls_append L prog fuel gofile dpre _ tgt wl tgt1 wl1 hpre, parseDecls,
      hspecs, parseSpecs_append L prog fuel gofile gd spre _ tgt1 wl1 tgt2 wl2 hspre,
      parseSpecs]
    simp only [hfail]
  · intro hnone hfirst
    refine (hsame ?_).2
    rw [mapGet?_eq_none_iff]
    intro hmem
    rcases parseSpecs_keys L prog fuel gofile gd spre tgt1 wl1 tgt2 wl2 hspre _ hmem
      with hin | hin
    · exact hfirst (List.mem_append_right _ hin)
    · rcases parseDecls_keys L prog fuel gofile dpre tgt wl tgt1 wl1 hpre _ hin with hin1 | hin1
      · exact hfirst (List.mem_append_left _ hin1)
      · exact (mapGet?_eq_none_iff _ _).1 hnone hin1

/-- C16, witness: a file declaring `Pet`, then `Bad` with a field of function
type, then `Other`: `Parse` returns the error of `Bad`, the definitions
hold `Pet` only. -/
theorem fail_fast_witness :
    Parse goLib Example.failProg 4 Example.failFile [] []
        = some ([("Pet", Example.petSchema)], [], some .unsupported) ∧
    mapGet? [("Pet", Example.petSchema)] "Bad" = none :=
  ⟨(fail_fast goLib Example.failProg 4 Example.failFile [.gen Example.petDecl] Example.badDecl
    [.gen ⟨none, [.typeSpec Example.otherSpec]⟩] [] Example.badSpec []
    [] [("Pet", Example.petSchema)] [("Pet", Example.petSchema)] [("Pet", Example.petSchema)]
    [] [] [] [] .unsupported rfl rfl rfl rfl rfl).1,
   (fail_fast goLib Example.failProg 4 Example.failFile [.gen Example.petDecl] Example.badDecl
    [.gen ⟨none, [.typeSpec Example.otherSpec]⟩] [] Example.badSpec []
    [] [("Pet", Example.petSchema)] [("Pet", Example.petSchema)] [("Pet", Example.petSchema)]
    [] [] [] [] .unsupported rfl rfl rfl rfl rfl).2.2.2.2 rfl (by decide)⟩

/-- C12, as stated, fails: after `Animal`, declared under
`swagger:model Pet`, was synthesised, a successful `parseDecl` of
`type Pet struct {}`, whose external name is its identifier, stores under
`Pet` a schema that carries the extension `x-go-name`. -/
theorem parseDecl_keeps_go_name :
    parseDecl goLib Example.renameProg 3 [] Example.animalEntry []
      = some (Example.animalDefinitions, [], none) ∧
    (Example.plainPetEntry.inferNames goLib).name
      = (Example.plainPetEntry.inferNames goLib).goName ∧
    (parseDecl goLib Example.renameProg 3 Example.animalDefinitions Example.plainPetEntry []).map
      (fun r => (r.1.map (fun d => (d.1, mapGet? d.2.props.extensions "x-go-name")), r.2.2))
      = some ([("Pet", some "Animal")], none) := by
  refine ⟨rfl, ?_, rfl⟩
  decide

/-- C12, amended: a `parseDecl` of a struct declaration that returns without
error leaves under the external name an object-typed schema and leaves
every other key of the definitions as it was; the schema carries the
extension `x-go-name` with the internal identifier when the two names
differ, and when they are equal it carries the `x-go-name` of the entry
that was found under the name: none when there was no entry, so that then
the extension is present exactly when the names differ. -/
theorem parseDecl_stored (L : Lib) (prog : Program) (fuel : Nat) (definitions : Definitions)
    (decl : SchemaDecl) (wl : List SchemaDecl) (defs1 : Definitions) (wl1 : List SchemaDecl)
    (fields : Option (List Field)) (hstruct : decl.typeSpec.type = .structType fields)
    (h : parseDecl L prog fuel definitions decl wl = some (defs1, wl1, none)) :
    ∃ schema, mapGet? defs1 (decl.inferNames L).name = some schema ∧
      schema.props.type = ["object"] ∧
      (∀ k, k ≠ (decl.inferNames L).name → mapGet? defs1 k = mapGet? definitions k) ∧
      (∀ k, k ∈ defs1.map Prod.fst ↔
        k = (decl.inferNames L).name ∨ k ∈ definitions.map Prod.fst) ∧
      ((decl.inferNames L).name ≠ (decl.inferNames L).goName →
        mapGet? schema.props.extensions "x-go-name" = some (decl.inferNames L).goName) ∧
      ((decl.inferNames L).name = (decl.inferNames L).goName →
        mapGet? schema.props.extensions "x-go-name" =
          mapGet? ((mapGet? definitions (decl.inferNames L).name).getD
            Schema.empty).props.extensions "x-go-name") ∧
      (mapGet? definitions (decl.inferNames L).name = none →
        ((mapGet? schema.props.extensions "x-go-name").isSome = true ↔
          (decl.inferNames L).name ≠ (decl.inferNames L).goName)) := by
  obtain ⟨schema2, schema3, sn, hext, hbody, rfl⟩ :=
    parseDecl_ok L prog fuel definitions decl wl defs1 wl1 fields hstruct h
  obtain ⟨r, hframe⟩ := (struct_frame L prog fuel).1 _ _ _ _ _ _ _ _ _ hbody
  have htype3 : schema3.props.type = ["object"] := by rw [hframe]
  have hext3 : schema3.props.extensions
      = ((mapGet? definitions (decl.inferNames L).name).getD Schema.empty).props.extensions := by
    rw [hframe]
    exact hext
  have hdiff : (decl.inferNames L).name ≠ (decl.inferNames L).goName →
      mapGet? (goPackage prog decl.file
        (if (decl.inferNames L).name ≠ (decl.inferNames L).goName
          then schema3.addExtension "x-go-name" (decl.inferNames L).goName
          else schema3)).props.extensions "x-go-name" = some (decl.inferNames L).goName := by
    intro hne
    rw [(goPackage_keeps prog decl.file _).2, if_pos hne]
    exact mapGet?_mapSet_same _ _ _
  have hsame : (decl.inferNames L).name = (decl.inferNames L).goName →
      mapGet? (goPackage prog decl.file
        (if (decl.inferNames L).name ≠ (decl.inferNames L).goName
          then schema3.addExtension "x-go-name" (decl.inferNames L).goName
          else schema3)).props.extensions "x-go-name"
        = mapGet? ((mapGet? definitions (decl.inferNames L).name).getD
            Schema.empty).props.extensions "x-go-name" := by
    intro heq
    rw [(goPackage_keeps prog decl.file _).2, if_neg (fun hne => hne heq), hext3]
  refine ⟨_, mapGet?_mapSet_same _ _ _, ?_, ?_, ?_, hdiff, hsame, ?_⟩
  · rw [(goPackage_keeps prog decl.file _).1]
    split
    · exact htype3
    · exact htype3
  · intro k hk
    exact mapGet?_mapSet_other _ _ _ _ hk
  · intro k
    exact mem_mapSet_keys _ _ _ k
  · intro hnew
    by_cases hne : (decl.inferNames L).name ≠ (decl.inferNames L).goName
    · rw [hdiff hne]
      simp [hne]
    · have heq : (decl.inferNames L).name = (decl.inferNames L).goName := by
        by_contra hc
        exact hne hc
      rw [hsame heq, hnew]
      simp [heq]
      rfl

/-- C12, witness: `Pet` with the model name `pet` and the fields `Name`
tagged `name` and `Tags` tagged `tags`, synthesised on empty definitions:
the entry `pet` is object-typed and carries `x-go-name` with `Pet`. -/
theorem parseDecl_stored_witness :
    ∃ schema : Schema,
      (parseDecl goLib Example.modelPetProg 4 [] Example.modelPetEntry []).map
        (fun r => mapGet? r.1 "pet") = some (some schema) ∧
      schema.props.type = ["object"] ∧ schema.keys = ["name", "tags"] ∧
      mapGet? schema.props.extensions "x-go-name" = some "Pet" := by
  obtain ⟨schema, hget, htype, _, _, hdiff, _, _⟩ :=
    parseDecl_stored goLib Example.modelPetProg 4 [] Example.modelPetEntry []
      [("pet", .mk { type := ["object"], description := "// swagger:model pet", extensions := [("x-go-name", "Pet"), ("x-go-package", "example.com/models")] } none none
        (some [("name", .mk { type := ["string"], extensions := [("x-go-name", "Name")] } none none none),
          ("tags", .mk { type := ["array"], extensions := [("x-go-name", "Tags")] }
            (some (some (.mk { type := ["string"] } none none none))) none none)]))]
      [] _ rfl rfl
  have hschema : _ = schema := Option.some.inj hget
  subst hschema
  exact ⟨_, rfl, htype, rfl, hdiff (by decide)⟩

/-- C11, as stated, fails: in `struct { RB; Tags []int }`, where the
embedded `RB` declares `Tags Other` and the doc comment of the own field is
`// itemsMinimum: 3`, the property `Tags` is an array of integers whose
items carry no minimum, while the same field alone in a struct gets the
items minimum 3. -/
theorem items_minimum_after_reference :
    (parseStructType directiveLib Example.listerProg 5 Example.listerFile Schema.empty
        (some Example.listerFields) [] []).map
      (fun r => ((r.1.property "Tags").props.ref, (r.1.property "Tags").props.type,
        (r.1.property "Tags").items.map (fun i => i.map (fun it =>
          (it.props.type, it.props.minimum))), r.2.2.2))
      = some (some "#/definitions/Other", ["array"], some (some (["integer"], none)), none) ∧
    (parseStructType directiveLib Example.listerProg 5 Example.listerFile Schema.empty
        (some [Example.tagsField]) [] []).map
      (fun r => ((r.1.property "Tags").props.ref, (r.1.property "Tags").props.type,
        (r.1.property "Tags").items.map (fun i => i.map (fun it =>
          (it.props.type, it.props.minimum))), r.2.2.2))
      = some (none, ["array"], some (some (["integer"], some 3)), none) := by
  constructor <;> rfl

/-- C11, amended: for an exported field whose type is a slice of an
identifier that the package does not declare and the primitive table knows,
mapped onto a property that carries no reference, and whose doc comment the
sectioned parser reads without error and with a directive `itemsMinimum` of
operand `n` among its directives (the last one of that name, whatever comes
before and after it): the type mapping returns nil, the taggers handed to
the parser are the items-prefixed ones followed by the non-prefixed ones,
and the iteration stores a property of type array whose items have the type
and format of the primitive and the minimum `n`; no directive other than
`minimum` writes the minimum of the property itself. -/
theorem items_minimum (L : Lib) (prog : Program) (fuel : Nat) (gofile : File) (fld : Field)
    (gnm nm : String) (more : List (Option String)) (schema : Schema) (seen : List String)
    (wl : List SchemaDecl) (tname tpe format : String) (n : Rat) (ex : Bool)
    (before after : List (String × TagValue))
    (hnames : fld.names = some gnm :: more) (hexp : isExported L gnm = true)
    (hnm : fieldName L gnm fld.tag = .ok nm)
    (htype : fld.type = .array (.ident tname false))
    (hprim : L.primitives tname = some (tpe, format))
    (hunres : ∀ pkg, packageForFile prog gofile = .ok pkg →
      ∀ r, findSourceFile L pkg tname ≠ .ok r)
    (href : (schema.property nm).props.ref = none)
    (hmatched : (L.sectionedParse fld.doc false true
      ((itemsTaggers ++ defaultTaggers).map Tagger.name)).matched
        = before ++ ("itemsMinimum", .number n ex) :: after)
    (hlast : ∀ m ∈ after, m.1 ≠ "itemsMinimum")
    (herr : (L.sectionedParse fld.doc false true
      ((itemsTaggers ++ defaultTaggers).map Tagger.name)).err = none) :
    ∃ ps0 schema1 ps it,
      parseProperty L prog (fuel + 2) gofile fld.type (schema.property nm) wl
        = some (ps0, wl, none) ∧
      fieldTaggers fld.type ps0 = itemsTaggers ++ defaultTaggers ∧
      ownStep L (parseProperty L prog (fuel + 2)) gofile (some (schema, seen, wl, none)) fld
        = some (schema1, seenAdd seen nm, wl, none) ∧
      schema1.property nm = ps ∧ ps.props.type = ["array"] ∧ ps.items = some (some it) ∧
      it.props.type = [tpe] ∧ it.props.format = format ∧
      it.props.minimum = some n ∧ it.props.exclusiveMinimum = ex ∧
      ((∀ m ∈ before ++ after, m.1 ≠ "minimum") →
        ps.props.minimum = (schema.property nm).props.minimum) := by
  have hpp := parseProperty_primitive_slice L prog fuel gofile tname false (schema.property nm)
    wl tpe format hprim hunres
  obtain ⟨hty0, hmin0, href0, hitems0, hity, hifmt⟩ :=
    primitive_slice_facts (schema.property nm) tpe format
  generalize hg0 : (schema.property nm).itemsTarget.2.typed tpe format = it0 at *
  generalize hg1 : (schema.property nm).itemsTarget.1.putItems it0 = ps0 at *
  have htag : fieldTaggers fld.type ps0 = itemsTaggers ++ defaultTaggers := by
    simp only [fieldTaggers, htype, href0, href, hitems0, if_true]
  rw [← htag] at hmatched herr
  obtain ⟨d, hstore⟩ := storeField_eq L fld gnm nm schema ps0 seen wl herr
  rw [hmatched, htag] at hstore
  have hown : ownStep L (parseProperty L prog (fuel + 2)) gofile
      (some (schema, seen, wl, none)) fld
      = some (storeField L fld gnm nm schema ps0 seen wl) := by
    simp only [ownStep, hnames, hexp, hnm, htype, hpp, if_true]
  rw [hstore] at hown
  have hframe := foldl_applyTag_fieldFrame (itemsTaggers ++ defaultTaggers) nm
    (before ++ ("itemsMinimum", TagValue.number n ex) :: after)
    (schema, ps0.setProps { ps0.props with description := d })
  obtain ⟨it, hit, hit_t, hit_f, hit_min, hit_ex⟩ := foldl_itemsMinimum nm
    (schema, ps0.setProps { ps0.props with description := d }) it0 n ex before after hlast
    (by rw [Schema.items_setProps]; exact hitems0)
  have htypeF : ((before ++ ("itemsMinimum", TagValue.number n ex) :: after).foldl
      (applyTag (itemsTaggers ++ defaultTaggers) nm)
      (schema, ps0.setProps { ps0.props with description := d })).2.props.type = ["array"] := by
    rw [hframe.1.1, Schema.props_setProps]
    exact hty0
  have hkeep : (∀ m ∈ before ++ after, m.1 ≠ "minimum") →
      ((before ++ ("itemsMinimum", TagValue.number n ex) :: after).foldl
        (applyTag (itemsTaggers ++ defaultTaggers) nm)
        (schema, ps0.setProps { ps0.props with description := d })).2.props.minimum
        = (schema.property nm).props.minimum := by
    intro hno
    rw [foldl_applyTag_minimum_keep nm _ _ (fun m hm => by
      rcases List.mem_append.1 hm with hb | ha
      · exact hno m (List.mem_append_left _ hb)
      · rcases List.mem_cons.1 ha with heq | ha1
        · rw [heq]
          show "itemsMinimum" ≠ "minimum"
          decide
        · exact hno m (List.mem_append_right _ ha1)), Schema.props_setProps]
    exact hmin0
  refine ⟨ps0, _, _, it, by rw [htype]; exact hpp, htag, hown,
    Schema.property_setProperty_same _ _ _, ?_⟩
  split
  · refine ⟨?_, ?_, hit_t.trans hity, hit_f.trans hifmt, hit_min, hit_ex, ?_⟩
    · rw [Schema.props_addExtension]
      exact htypeF
    · rw [Schema.items_addExtension]
      exact hit
    · intro hno
      rw [Schema.props_addExtension]
      exact hkeep hno
  · exact ⟨htypeF, hit, hit_t.trans hity, hit_f.trans hifmt, hit_min, hit_ex, hkeep⟩

/-- C11, witness: the field `Tags []int` with the doc comment
`// itemsMinimum: 3`, as the first field of a struct: the property `Tags`
is an array of integers with the items minimum 3 and no minimum of its own. -/
theorem items_minimum_witness :
    (ownStep directiveLib (parseProperty directiveLib Example.emptyProg 2) Example.emptyFile
        (some (Schema.empty, [], [], none)) Example.tagsField).map
      (fun r => ((r.1.property "Tags").props.type, (r.1.property "Tags").props.minimum,
        (r.1.property "Tags").items.map (fun i => i.map (fun it =>
          (it.props.type, it.props.format, it.props.minimum))), r.2.1, r.2.2.2))
      = some (["array"], none, some (some (["integer"], "int64", some 3)), ["Tags"], none) ∧
    ∃ schema1 it : Schema,
      ownStep directiveLib (parseProperty directiveLib Example.emptyProg 2) Example.emptyFile
        (some (Schema.empty, [], [], none)) Example.tagsField
        = some (schema1, ["Tags"], [], none) ∧
      (schema1.property "Tags").props.type = ["array"] ∧
      (schema1.property "Tags").items = some (some it) ∧
      it.props.type = ["integer"] ∧ it.props.minimum = some 3 ∧
      (schema1.property "Tags").props.minimum = none := by
  refine ⟨rfl, ?_⟩
  obtain ⟨_, schema1, ps, it, _, _, hown, hps, htype, hitems, hit, _, hmin, _, hkeep⟩ :=
    items_minimum directiveLib Example.emptyProg 0 Example.emptyFile Example.tagsField
      "Tags" "Tags" [] Schema.empty [] [] "int" "integer" "int64" 3 false [] [] rfl (by decide)
      rfl rfl rfl
      (fun pkg hpkg r hfind => by
        have h1 : packageForFile Example.emptyProg Example.emptyFile
            = .ok ⟨"models", "example.com/models", true, [Example.emptyFile]⟩ := rfl
        rw [h1] at hpkg
        cases hpkg
        have h2 : findSourceFile directiveLib
            ⟨"models", "example.com/models", true, [Example.emptyFile]⟩ "int"
            = .error (.notFound "int" "example.com/models") := rfl
        rw [h2] at hfind
        cases hfind)
      rfl (by decide) (fun _ h => (by cases h)) (by decide)
  subst hps
  exact ⟨schema1, it, hown, htype, hitems, hit, hmin, hkeep (fun _ h => (by cases h))⟩

/-- C14, the code departs from the claim: package `models` has `a.go`,
which imports `example.com/x/fmts` (where `type T string`) and declares
`type Pet struct { F fmts.T }`, and `b.go`, which imports
`example.com/y/fmts` (where `type T int`) and declares
`type Owner struct { P Pet }`. The entry that `Parse` builds for `Pet` from
`a.go` and the entry that `parseProperty` appends to the worklist for the
field `P` of `b.go` hold the same declaration and type spec, but the second
holds `b.go` (line 542); synthesising `Pet` from the first stores `F` as a
string, synthesising it again from the second overwrites `F` with an
integer, while synthesising it again from the first changes nothing. -/
theorem parseDecl_worklist_entry_differs :
    SchemaDecl.inferNames goLib ⟨Example.importerFile, Example.importerDecl,
      Example.importerSpec, "", ""⟩ = Example.scannedPet ∧
    (parseProperty goLib Example.twoImportsProg 3 Example.referrerFile (.ident "Pet" false)
      Schema.empty []).map (fun r => (r.1.props.ref, r.2.1, r.2.2))
      = some (some "#/definitions/Pet", [Example.referredPet], none) ∧
    Example.referredPet.decl = Example.scannedPet.decl ∧
    Example.referredPet.typeSpec = Example.scannedPet.typeSpec ∧
    (parseDecl goLib Example.twoImportsProg 6 [] Example.scannedPet []).map
      (fun r => (r.1.map (fun d => (d.1, (d.2.property "F").props.type)), r.2.2))
      = some ([("Pet", ["string"])], none) ∧
    ((parseDecl goLib Example.twoImportsProg 6 [] Example.scannedPet []).bind
      (fun r0 => parseDecl goLib Example.twoImportsProg 6 r0.1 Example.referredPet [])).map
      (fun r => (r.1.map (fun d => (d.1, (d.2.property "F").props.type)), r.2.2))
      = some ([("Pet", ["integer"])], none) ∧
    ((parseDecl goLib Example.twoImportsProg 6 [] Example.scannedPet []).bind
      (fun r0 => parseDecl goLib Example.twoImportsProg 6 r0.1 Example.scannedPet []))
      = parseDecl goLib Example.twoImportsProg 6 [] Example.scannedPet [] := by
  refine ⟨rfl, rfl, rfl, rfl, rfl, rfl, rfl⟩

/-- C21, the code departs from the claim: package `models` declares
`type Pet struct { F fmts.T }` in `a.go` and `type Owner struct { P Pet }`
in `b.go`. `findSourceFile` finds `Pet` in `a.go`. Mapping the identifier
`Pet` from `b.go` sets the reference and appends an entry that holds the
declaration and type spec of `Pet` with the file `b.go`, the file of the
field; mapping the selector `models.Pet` from a file of another package
sets the same reference and appends the entry with the file `a.go`. The two
entries differ in nothing but the file. -/
theorem worklist_entry_file (fuel : Nat) (hasObj : Bool) (prop : Schema)
    (wl : List SchemaDecl) :
    packageForFile Example.apiProg Example.referrerFile = .ok Example.modelsPkg ∧
    findSourceFile goLib Example.modelsPkg "Pet"
      = .ok (Example.importerFile, Example.importerDecl, Example.importerSpec) ∧
    parseProperty goLib Example.apiProg (fuel + 1) Example.referrerFile
        (.ident "Pet" hasObj) prop wl
      = some (prop.setRef "#/definitions/Pet",
          wl ++ [⟨Example.referrerFile, Example.importerDecl, Example.importerSpec,
            "Pet", "Pet"⟩], none) ∧
    parseProperty goLib Example.apiProg (fuel + 3) Example.apiFile
        (.selector (.ident "models" false) "Pet") prop wl
      = some (prop.setRef "#/definitions/Pet",
          wl ++ [⟨Example.importerFile, Example.importerDecl, Example.importerSpec,
            "Pet", "Pet"⟩], none) ∧
    Example.referrerFile.pos ≠ Example.importerFile.pos ∧
    Example.referrerFile.imports.map ImportSpec.path
      ≠ Example.importerFile.imports.map ImportSpec.path := by
  have hpkg : packageForFile Example.apiProg Example.referrerFile = .ok Example.modelsPkg := rfl
  have hfind : findSourceFile goLib Example.modelsPkg "Pet"
      = .ok (Example.importerFile, Example.importerDecl, Example.importerSpec) := rfl
  have hsel : packageForSelector goLib Example.apiProg Example.apiFile (.ident "models" false)
      = .ok Example.modelsPkg := rfl
  have hfmt : strfmtName goLib Example.importerDecl.doc = none := rfl
  have htype : Example.importerSpec.type
      = .structType (some [.mk none [some "F"] (.selector (.ident "fmts" false) "T") none]) := rfl
  refine ⟨hpkg, hfind, ?_, ?_, by decide, by decide⟩
  · rw [parseProperty.eq_2]
    simp only [hpkg, hfind, htype, hfmt]
    rfl
  · rw [parseProperty.eq_6, typeForSelector.eq_2]
    simp only [hsel]
    rw [parseSelectorProperty.eq_2]
    simp only [hfind, htype, hfmt]
    rfl

end Scan
